import Mathlib

/-!
# dsync: delta synchronisation of a directory, client to server

A shallow embedding of `src/server.go`, `src/client.go` and `src/dsync/msgs.go`.

Modelling conventions.

* A watched directory is a map from relative file names to contents
  (`Dir`).  Only regular files are modelled; the only error `os.Open` and
  `os.Rename` can report is "does not exist".  `os.Remove` reports "does not
  exist" for the name of an entry that has no file; for a path that is not
  the name of an entry (the empty path, `.`, a path with a separator) it may
  report another error, which `serverLoop` does not tolerate (`Runtime`).
* An open `*os.File` for reading is the content of the file it was opened on
  together with a cursor (`File`).  On the server the files of the directory
  are only ever replaced by `os.Rename` or unlinked, which leaves the bytes an
  open handle sees untouched; on the client the properties proved here are
  about files that do not change during a job.
* `Read` on a regular file fills the buffer as far as the file reaches.
* The temp file of a receive is referred to by its path; the name
  `ioutil.TempFile` settles on is an input of the model (`tmp`).
* `md5.Sum` is a parameter `md5 : Bytes → Digest`; `filepath.Rel` is a
  parameter `rel`, and `isFile` a parameter of `watcher`.
* `fsnotify.Op` is a set of operations, one bit each, rendered as `Nat`.
* Go's `int` is rendered as `Int`; the wrap-around of `nextSeq` at `2^63`
  announcements is left out.
* `make([]byte, n)` with a length taken from a message panics when `n` is
  negative or larger than what can be allocated (`Runtime.maxAlloc`); the
  buffers of 4096 bytes are taken to be allocated.
* Channel sends become lists of emitted messages; `log.Fatal` and run-time
  panics become `Fault.fatal`.  The unbounded `for` loops take a fuel
  argument and report `Fault.fuel` when it is used up.
-/

namespace Dsync

/-! ## Data model -/

abbrev Byte := Fin 256

abbrev Bytes := List Byte

/-- The Go type `[16]byte`, the result type of `md5.Sum`. -/
structure Digest where
  bytes : List Byte
  size : bytes.length = 16
  deriving DecidableEq

/-- The zero value of `[16]byte`. -/
def Digest.zero : Digest := ⟨List.replicate 16 0, by simp⟩

/-- Ways a run of the model ends without a result: the process was
terminated (`log.Fatal`, a panic), or the fuel of a loop was used up. -/
inductive Fault where
  | fatal
  | fuel
  deriving DecidableEq, Repr

/-- The constants of `msgs.go`. -/
abbrev FileUpdated : Int := 1

abbrev FileRemoved : Int := 2

abbrev FileNewData : Int := 3

abbrev FileReuseData : Int := 4

abbrev FileEnd : Int := 5

/-- The struct `ClientMsg` of `msgs.go`. -/
structure ClientMsg where
  File : String
  Op : Int
  SeqNo : Int
  Length : Int
  Data : Bytes
  deriving DecidableEq

/-- The struct `ServerMsg` of `msgs.go`. -/
structure ServerMsg where
  File : String
  Last : Bool
  SeqNo : Int
  Length : Int
  Hash : Digest
  deriving DecidableEq

/-! ## File system -/

/-- The regular files of a watched directory, by relative name. -/
abbrev Dir := String → Option Bytes

/-- An open `*os.File` used for reading: the bytes of the file and the
cursor. -/
structure File where
  data : Bytes
  pos : Nat
  deriving DecidableEq

/-- The call `os.Open(dir + "/" + name)`: `none` is the nil handle returned
with an `IsNotExist` error. -/
def osOpen (fs : Dir) (name : String) : Option File :=
  match fs name with
  | some d => some { data := d, pos := 0 }
  | none => none

/-- The call `f.Read(buf)` with `len(buf) = k`: the handle after the call, the
bytes `buf[0:n]`, and whether `err` is `io.EOF`.  An empty buffer reads
nothing and reports no error; at the end of the file `n = 0` and
`err = io.EOF`; otherwise `n = min k (bytes left)` and `err = nil`. -/
def File.Read (f : File) (k : Nat) : File × Bytes × Bool :=
  if k = 0 then (f, [], false)
  else if f.data.length ≤ f.pos then (f, [], true)
  else
    let buf := (f.data.drop f.pos).take k
    ({ f with pos := f.pos + buf.length }, buf, false)

/-- The call `f.Seek(off, 1)` with its result ignored: a seek to a negative
position fails and leaves the cursor where it was. -/
def File.Seek (f : File) (off : Int) : File :=
  if 0 ≤ (f.pos : Int) + off then { f with pos := ((f.pos : Int) + off).toNat } else f

/-- The call `tempFile.Write(data)` with its result ignored, on the temp file
at path `path`. -/
def osWrite (fs : Dir) (path : String) (data : Bytes) : Dir :=
  match fs path with
  | some c => Function.update fs path (some (c ++ data))
  | none => fs

/-- The call `os.Rename(dir/a, dir/b)`; `none` is an error. -/
def osRename (fs : Dir) (a b : String) : Option Dir :=
  match fs a with
  | none => none
  | some c => if a = b then some fs else some (Function.update (Function.update fs a none) b (some c))

/-- The call `os.Remove(dir/a)`: the file `a` is unlinked; `none` is an
error, reported when there is no such file. -/
def osRemove (fs : Dir) (a : String) : Option Dir :=
  match fs a with
  | none => none
  | some _ => some (Function.update fs a none)

/-- Whether `a` is the name of an entry of a directory: not empty, not `.` or
`..`, without a separator or a NUL character, of at most 255 bytes.  Joined
to the directory such a name denotes a file of the directory or nothing at
all; any other path denotes the directory itself, something outside it, or
no valid path. -/
def plainName (a : String) : Bool :=
  decide (a ≠ "") && decide (a ≠ ".") && decide (a ≠ "..") && !a.data.contains '/' &&
    !a.data.contains (Char.ofNat 0) && decide (a.utf8ByteSize ≤ 255)

/-! ## Run-time environment -/

/-- What the model takes from the machine the program runs on.

`maxAlloc` is the largest length `make([]byte, n)` allocates: the call panics
for a negative `n` and for an `n` above `maxAlloc` (the limit of the run-time
system on the size of an object, or the memory there is).  The buffers of
4096 bytes of the program are allocated by the same call and the model takes
them to be there, hence `fixedFits`; the run-time system allocates no object
of more than `2^48` bytes (the constant `maxAlloc` of `runtime/malloc.go` on
64-bit platforms, less on the others), hence `withinLimit`.

`removeFails fs a` tells, for a path `a` that is not the name of an entry
(`plainName`), whether `os.Remove(dir/a)` reports an error other than "does
not exist" when the directory holds the files `fs`. -/
class Runtime where
  maxAlloc : Nat
  fixedFits : 4096 ≤ maxAlloc
  withinLimit : maxAlloc ≤ 2 ^ 48
  removeFails : Dir → String → Bool

/-! ## Server (`server.go`) -/

/-- The struct `state` of `server.go`.  `tempFile` holds the path of the
open temp file. -/
structure state where
  nextSeq : Int
  latestFileSeq : String → Option Int
  fileName : String
  inputFile : Option File
  tempFile : Option String

/-- The struct `fileToSync`. -/
structure fileToSync where
  name : String
  seqNo : Int
  deriving DecidableEq

/-- The state `serverLoop` starts from: `state{}` with an empty map. -/
def state.init : state :=
  { nextSeq := 0, latestFileSeq := fun _ => none, fileName := "", inputFile := none,
    tempFile := none }

/-- The function `startNextFileReception`.  `tmp` is the name
`ioutil.TempFile(dir, ".tmp.")` creates: a name that has no entry in `dir`. -/
def startNextFileReception (tmp : String) (fs : Dir) (st : state) (msg : ClientMsg) :
    Dir × state :=
  let st1 := { st with fileName := msg.File }
  let st2 := { st1 with inputFile := osOpen fs st1.fileName }
  (Function.update fs tmp (some []), { st2 with tempFile := some tmp })

/-- Lines 71 to 73 of `processUpdateMsg`: a receive is started when none is in
progress. -/
def enterReception (tmp : String) (fs : Dir) (st : state) (msg : ClientMsg) : Dir × state :=
  if st.fileName = "" then startNextFileReception tmp fs st msg else (fs, st)

/-- The `switch msg.Op` of `processUpdateMsg` (lines 75 to 121). -/
def handleOp [Runtime] (fs : Dir) (st : state) (msg : ClientMsg) : Except Fault (Dir × state) :=
  if msg.Op = FileReuseData then
    match st.inputFile with
    | some f =>
      -- make([]byte, msg.Length) panics on a length that is negative or
      -- cannot be allocated
      if msg.Length < 0 ∨ (Runtime.maxAlloc : Int) < msg.Length then .error .fatal
      else
        let r := f.Read msg.Length.toNat
        let st1 := { st with inputFile := some r.1 }
        if r.2.2 then .ok (fs, st1)
        else
          match st1.tempFile with
          | some path => .ok (osWrite fs path r.2.1, st1)
          | none => .ok (fs, st1)
    | none => .ok (fs, st)
  else if msg.Op = FileNewData then
    let st1 :=
      match st.inputFile with
      | some f => { st with inputFile := some (f.Seek msg.Length) }
      | none => st
    match st1.tempFile with
    | some path => .ok (osWrite fs path msg.Data, st1)
    | none => .ok (fs, st1)
  else if msg.Op = FileEnd then
    let st1 := { st with inputFile := none }
    match st1.tempFile with
    | none => .error .fatal
    | some path =>
      let st2 := { st1 with tempFile := none }
      if st2.latestFileSeq st2.fileName = some msg.SeqNo then
        match osRename fs path st2.fileName with
        | none => .error .fatal
        | some fs1 => .ok (fs1, { st2 with fileName := "" })
      else
        match osRemove fs path with
        | none => .error .fatal
        | some fs1 => .ok (fs1, { st2 with fileName := "" })
  else .ok (fs, st)

/-- The function `processUpdateMsg`. -/
def processUpdateMsg [Runtime] (tmp : String) (fs : Dir) (st : state) (msg : ClientMsg) :
    Except Fault (Dir × state) :=
  handleOp (enterReception tmp fs st msg).1 (enterReception tmp fs st msg).2 msg

/-- The message built at lines 156 and 157 of `serverHashSender` for the
chunk `buf[0:n]`. -/
def hashMsg (md5 : Bytes → Digest) (sync : fileToSync) (chunk : Bytes) : ServerMsg :=
  { File := sync.name, SeqNo := sync.seqNo, Length := (chunk.length : Int), Last := false,
    Hash := md5 chunk }

/-- The message built at lines 135 and 162 of `serverHashSender`. -/
def lastMsg (sync : fileToSync) : ServerMsg :=
  { File := sync.name, SeqNo := sync.seqNo, Length := 0, Last := true, Hash := Digest.zero }

/-- The inner `for` loop of `serverHashSender` (lines 143 to 160): the hash
messages of the chunks from the cursor of `f` on. -/
def hashLoop (md5 : Bytes → Digest) (sync : fileToSync) : Nat → File → Except Fault (List ServerMsg)
  | 0, _ => .error .fuel
  | fuel + 1, f =>
    let r := f.Read 4096
    if r.2.2 then .ok []
    else
      match hashLoop md5 sync fuel r.1 with
      | .ok rest => .ok (hashMsg md5 sync r.2.1 :: rest)
      | .error e => .error e

/-- One iteration of the outer loop of `serverHashSender`: the messages sent
on `outChan` for the job `sync`. -/
def serverHashSender (md5 : Bytes → Digest) (fuel : Nat) (fs : Dir) (sync : fileToSync) :
    Except Fault (List ServerMsg) :=
  match osOpen fs sync.name with
  | none => .ok [lastMsg sync]
  | some f =>
    match hashLoop md5 sync fuel f with
    | .ok ms => .ok (ms ++ [lastMsg sync])
    | .error e => .error e

/-- One iteration of `serverLoop`: the directory and state after `msg`, and
the jobs sent on `fileChan`.  In the `FileRemoved` case an error of
`os.Remove` is tolerated when it is "does not exist" (lines 187 to 190): that
is the error for the name of an entry without a file; for any other path the
error is the one the environment reports. -/
def serverLoop [Runtime] (tmp : String) (fs : Dir) (st : state) (msg : ClientMsg) :
    Except Fault (Dir × state × List fileToSync) :=
  if msg.Op = FileUpdated then
    let st1 := { st with nextSeq := st.nextSeq + 1 }
    let st2 := { st1 with latestFileSeq := Function.update st1.latestFileSeq msg.File (some st1.nextSeq) }
    .ok (fs, st2, [{ name := msg.File, seqNo := st2.nextSeq }])
  else if msg.Op = FileRemoved then
    let st1 := { st with latestFileSeq := Function.update st.latestFileSeq msg.File none }
    match osRemove fs msg.File with
    | some fs1 => .ok (fs1, st1, [])
    | none =>
      if plainName msg.File then .ok (fs, st1, [])
      else if Runtime.removeFails fs msg.File then .error .fatal
      else .ok (fs, st1, [])
  else if msg.Op = FileNewData ∨ msg.Op = FileReuseData ∨ msg.Op = FileEnd then
    match processUpdateMsg tmp fs st msg with
    | .ok r => .ok (r.1, r.2, [])
    | .error e => .error e
  else .ok (fs, st, [])

/-- The messages `msgs` handled by `processUpdateMsg` one after the other. -/
def serverRun [Runtime] (tmp : String) : Dir → state → List ClientMsg → Except Fault (Dir × state)
  | fs, st, [] => .ok (fs, st)
  | fs, st, m :: ms =>
    match processUpdateMsg tmp fs st m with
    | .ok r => serverRun tmp r.1 r.2 ms
    | .error e => .error e

/-- Successive iterations of `serverLoop`; each message comes with the name a
temp file created while handling it would get. -/
def serverLoopRun [Runtime] : Dir → state → List (String × ClientMsg) →
    Except Fault (Dir × state × List fileToSync)
  | fs, st, [] => .ok (fs, st, [])
  | fs, st, m :: ms =>
    match serverLoop m.1 fs st m.2 with
    | .ok r =>
      match serverLoopRun r.1 r.2.1 ms with
      | .ok r1 => .ok (r1.1, r1.2.1, r.2.2 ++ r1.2.2)
      | .error e => .error e
    | .error e => .error e

/-! ## Client (`client.go`) -/

/-- The struct `FileSyncState`. -/
structure FileSyncState where
  name : String
  file : Option File
  seqNo : Int
  deriving DecidableEq

/-- The state `clientLoop` starts from: `FileSyncState{}`. -/
def FileSyncState.init : FileSyncState := { name := "", file := none, seqNo := 0 }

/-- The function `startNextFileProcessing`. -/
def startNextFileProcessing (fs : Dir) (st : FileSyncState) (msg : ServerMsg) : FileSyncState :=
  let st1 := { st with seqNo := msg.SeqNo, name := msg.File }
  let st2 := { st1 with file := none }
  { st2 with file := osOpen fs msg.File }

/-- The message built at line 112 of `finishFileProcessing`. -/
def endMsg (seqNo : Int) (file : String) : ClientMsg :=
  { SeqNo := seqNo, Op := FileEnd, File := file, Length := 0, Data := [] }

/-- The message built at line 121 of `finishFileProcessing` for the bytes
`buf[0:n]`. -/
def newDataMsg (seqNo : Int) (file : String) (buf : Bytes) : ClientMsg :=
  { SeqNo := seqNo, Length := (buf.length : Int), Op := FileNewData, Data := buf, File := file }

/-- The function `finishFileProcessing`: the state afterwards and the
messages sent on `outChan`. -/
def finishFileProcessing : Nat → FileSyncState → ServerMsg →
    Except Fault (FileSyncState × List ClientMsg)
  | 0, _, _ => .error .fuel
  | fuel + 1, st, msg =>
    match st.file with
    | none => .error .fatal
    | some f =>
      let r := f.Read 4096
      let st1 := { st with file := some r.1 }
      if r.2.2 then .ok (st1, [endMsg st1.seqNo msg.File])
      else
        match finishFileProcessing fuel st1 msg with
        | .ok r1 => .ok (r1.1, newDataMsg st1.seqNo msg.File r.2.1 :: r1.2)
        | .error e => .error e

/-- The function `processChunk`. -/
def processChunk [Runtime] (md5 : Bytes → Digest) (st : FileSyncState) (msg : ServerMsg) :
    Except Fault (FileSyncState × List ClientMsg) :=
  -- make([]byte, msg.Length) panics on a length that is negative or cannot be
  -- allocated
  if msg.Length < 0 ∨ (Runtime.maxAlloc : Int) < msg.Length then .error .fatal
  else
    match st.file with
    | none => .error .fatal
    | some f =>
      let r := f.Read msg.Length.toNat
      let st1 := { st with file := some r.1 }
      if r.2.1.length ≠ 0 then
        let omsg : ClientMsg :=
          { SeqNo := st1.seqNo, Length := msg.Length, File := msg.File, Op := 0, Data := [] }
        if (r.2.1.length : Int) ≠ msg.Length ∨ md5 r.2.1 ≠ msg.Hash then
          .ok (st1, [{ omsg with Op := FileNewData, Data := r.2.1 }])
        else
          .ok (st1, [{ omsg with Op := FileReuseData }])
      else .ok (st1, [])

/-- The message built at lines 136 and 143 of `processChunk`: a chunk of
`length` bytes is reused. -/
def reuseMsg (seqNo : Int) (file : String) (length : Int) : ClientMsg :=
  { SeqNo := seqNo, Length := length, File := file, Op := FileReuseData, Data := [] }

/-- Lines 152 to 154 of `processServerMsg`: the state is rotated to the job
of `msg` when it serves another one. -/
def enterProcessing (fs : Dir) (st : FileSyncState) (msg : ServerMsg) : FileSyncState :=
  if st.name ≠ msg.File ∨ st.seqNo ≠ msg.SeqNo then startNextFileProcessing fs st msg else st

/-- The function `processServerMsg`. -/
def processServerMsg [Runtime] (md5 : Bytes → Digest) (fuel : Nat) (fs : Dir) (st : FileSyncState)
    (msg : ServerMsg) : Except Fault (FileSyncState × List ClientMsg) :=
  let st1 := enterProcessing fs st msg
  if st1.file.isSome then
    match processChunk md5 st1 msg with
    | .ok r =>
      if msg.Last then
        match finishFileProcessing fuel r.1 msg with
        | .ok r1 => .ok (r1.1, r.2 ++ r1.2)
        | .error e => .error e
      else .ok r
    | .error e => .error e
  else .ok (st1, [])

/-- The server messages `msgs` handled by `processServerMsg` one after the
other, as the `inChan` case of `clientLoop` does: the state afterwards and
all messages sent on `outChan`, in order. -/
def clientRun [Runtime] (md5 : Bytes → Digest) (fuel : Nat) (fs : Dir) :
    FileSyncState → List ServerMsg → Except Fault (FileSyncState × List ClientMsg)
  | st, [] => .ok (st, [])
  | st, m :: ms =>
    match processServerMsg md5 fuel fs st m with
    | .ok r =>
      match clientRun md5 fuel fs r.1 ms with
      | .ok r1 => .ok (r1.1, r.2 ++ r1.2)
      | .error e => .error e
    | .error e => .error e

/-- An `Updated` announcement for `name`, as `clientLoop` builds it at lines
174 to 178. -/
def updatedMsg (name : String) : ClientMsg :=
  { File := name, Op := FileUpdated, SeqNo := 0, Length := 0, Data := [] }

/-! ## Watcher events (`client.go`) -/

/-- The constant `fsnotify.Create`: the operations of `fsnotify` are the bits
`1 << iota` in the order `Create`, `Write`, `Remove`, `Rename`, `Chmod`. -/
abbrev fsnotify.Create : Nat := 1

/-- The constant `fsnotify.Write`. -/
abbrev fsnotify.Write : Nat := 2

/-- The constant `fsnotify.Remove`. -/
abbrev fsnotify.Remove : Nat := 4

/-- The constant `fsnotify.Rename`. -/
abbrev fsnotify.Rename : Nat := 8

/-- The constant `fsnotify.Chmod`. -/
abbrev fsnotify.Chmod : Nat := 16

/-- The struct `fsnotify.Event`; `Op` is a set of operations, one bit each. -/
structure fsnotify.Event where
  Name : String
  Op : Nat
  deriving DecidableEq

/-- The `watcher.Events` case of the loop of `watcher` (lines 45 to 52): the
events sent on `ch` for `event`.  `isFile` is the function `isFile` of
`client.go` on the directory as it is when the event is handled. -/
def watcher (isFile : String → Bool) (event : fsnotify.Event) : List fsnotify.Event :=
  if event.Op &&& fsnotify.Remove ≠ 0 ∨
      (event.Op &&& (fsnotify.Create ||| fsnotify.Write) ≠ 0 ∧ isFile event.Name = true) then
    [event]
  else []

/-- A `Removed` announcement for `name`, as `clientLoop` builds it at lines
174 to 176. -/
def removedMsg (name : String) : ClientMsg :=
  { File := name, Op := FileRemoved, SeqNo := 0, Length := 0, Data := [] }

/-- The `fileChan` case of `clientLoop` (lines 170 to 181): the message sent
on `outChan` for `event`.  `rel` is `filepath.Rel`, with `none` for an
error. -/
def clientLoop (rel : String → String → Option String) (dir : String)
    (event : fsnotify.Event) : Except Fault (List ClientMsg) :=
  match rel dir event.Name with
  | none => .error .fatal
  | some path =>
    let msg : ClientMsg := { File := path, Op := 0, SeqNo := 0, Length := 0, Data := [] }
    if event.Op = fsnotify.Remove then .ok [{ msg with Op := FileRemoved }]
    else .ok [{ msg with Op := FileUpdated }]

/-! ## Configurations of a job -/

/-- The server state during a receive of `P` started from `st0`: the input
handle is `inp`, the temp file is open at `tmp`. -/
def inReceive (st0 : state) (P : String) (inp : Option File) (tmp : String) : state :=
  { st0 with fileName := P, inputFile := inp, tempFile := some tmp }

/-- The client state while it serves job `S` on `P` with its file, of content
`C`, open at offset `pos`. -/
def serving (P : String) (S : Int) (C : Bytes) (pos : Nat) : FileSyncState :=
  { name := P, file := some { data := C, pos := pos }, seqNo := S }

/-- The chunk of the server's copy `O` at offset `q` and the bytes of the
client's copy `C` that are compared with it (as many bytes from the same
offset) are equal if they have the same length and the same MD5. -/
def NoCollisionAt (md5 : Bytes → Digest) (O C : Bytes) (q : Nat) : Prop :=
  ((C.drop q).take ((O.drop q).take 4096).length).length = ((O.drop q).take 4096).length →
  md5 ((C.drop q).take ((O.drop q).take 4096).length) = md5 ((O.drop q).take 4096) →
  (C.drop q).take ((O.drop q).take 4096).length = (O.drop q).take 4096

/-- The sequence numbers of the `End` messages of `out`, in order. -/
def endSeqs (out : List ClientMsg) : List Int :=
  (out.filter (fun m => decide (m.Op = FileEnd))).map (fun m => m.SeqNo)

/-- The sequence numbers of the messages of `msgs` with `Last = true`, in
order. -/
def lastSeqs (msgs : List ServerMsg) : List Int :=
  (msgs.filter (fun m => m.Last)).map (fun m => m.SeqNo)

/-! ## Examples used in the theorems below -/

/-- An environment: `make` allocates up to `2^48` bytes, the limit of the Go
run-time system on 64-bit Linux, and `os.Remove` fails on every path that is
not the name of an entry, as it does on `.` and, in a directory that is not
empty, on the empty path. -/
instance exampleRuntime : Runtime :=
  { maxAlloc := 2 ^ 48, fixedFits := by norm_num, withinLimit := le_refl _,
    removeFails := fun _ _ => true }

/-- A stand-in for `md5.Sum` on short inputs: the first sixteen bytes,
padded with zeros. -/
def padDigest (b : Bytes) : Digest :=
  ⟨(b ++ List.replicate 16 0).take 16, by simp⟩

/-- A server directory holding one file `a`. -/
def dirA : Dir := fun n => if n = "a" then some [1, 2, 3] else none

/-- A client directory holding one file `a` that differs from the one of
`dirA` in its last byte. -/
def dirC : Dir := fun n => if n = "a" then some [1, 2, 4] else none

/-- The directory `dirA` during a receive of `a` into the temp file `.tmp.1`. -/
def dirATmp : Dir := fun n =>
  if n = "a" then some [1, 2, 3] else if n = ".tmp.1" then some [9, 9] else none

/-- A server state with a receive of `a` in progress, job 4 being the latest
for `a`. -/
def stRecvA : state :=
  { nextSeq := 4, latestFileSeq := fun n => if n = "a" then some 4 else none,
    fileName := "a", inputFile := some { data := [1, 2, 3], pos := 3 },
    tempFile := some ".tmp.1" }

/-- The empty directory. -/
def dirEmpty : Dir := fun _ => none

/-- A client state serving job 1 on `a`, whose file holds the single byte 7. -/
def stClientShort : FileSyncState :=
  { name := "a", file := some { data := [7], pos := 0 }, seqNo := 1 }

/-- A hash message of job 1 on `a` for a two-byte chunk. -/
def msgTwoBytes : ServerMsg :=
  { File := "a", Last := false, SeqNo := 1, Length := 2, Hash := padDigest [7, 8] }

/-- A hash message of job 1 on `a` whose length, `2^62`, is more than the
environment `exampleRuntime` allocates. -/
def msgHuge : ServerMsg :=
  { File := "a", Last := false, SeqNo := 1, Length := 2 ^ 62, Hash := padDigest [7, 8] }

/-- The last message of the hash stream of job 1 on `a`. -/
def msgLastA : ServerMsg :=
  { File := "a", Last := true, SeqNo := 1, Length := 0, Hash := Digest.zero }

/-- A stand-in for `filepath.Rel` on paths of the form `dir/name`: what
follows the directory and the separator. -/
def relUnder (dir name : String) : Option String :=
  if (dir.data ++ ['/']).isPrefixOf name.data then
    some (String.mk (name.data.drop (dir.data.length + 1)))
  else none

/-- An event for `d/a` whose operations are `Remove` and `Write`. -/
def evRemoveWrite : fsnotify.Event :=
  { Name := "d/a", Op := fsnotify.Remove ||| fsnotify.Write }

/-- A server state with a receive of `a` in progress whose input file has one
byte left to read. -/
def stRecvOneLeft : state :=
  { nextSeq := 4, latestFileSeq := fun n => if n = "a" then some 4 else none,
    fileName := "a", inputFile := some { data := [1, 2, 3], pos := 2 },
    tempFile := some ".tmp.1" }

/-- The directory `dirA` when a receive of `a` has written the byte 5 to its
temp file `.tmp.1`. -/
def dirARecv : Dir :=
  Function.update (Function.update dirA ".tmp.1" (some [])) ".tmp.1" (some [5])

/-- The server state after `Updated(a)`, a `NewData` of job 1 with length 1,
and a second `Updated(a)`, handled from the initial state in `dirA`: the
receive of job 1 is in progress and job 2 is the latest for `a`. -/
def stSuperseded : state :=
  { nextSeq := 2,
    latestFileSeq := Function.update (Function.update (fun _ => none) "a" (some 1)) "a" (some 2),
    fileName := "a", inputFile := some { data := [1, 2, 3], pos := 1 },
    tempFile := some ".tmp.1" }

/-- A `ReuseData` message of job 4 on `a` for two bytes. -/
def msgReuseTwo : ClientMsg :=
  { File := "a", Op := FileReuseData, SeqNo := 4, Length := 2, Data := [] }

/-! ## Theorems -/

theorem osRename_of_some {fs : Dir} {a b : String} {c : Bytes} (h : fs a = some c)
    (hab : a ≠ b) :
    osRename fs a b = some (Function.update (Function.update fs a none) b (some c)) := by
  simp [osRename, h, hab]

theorem osRemove_of_some {fs : Dir} {a : String} {c : Bytes} (h : fs a = some c) :
    osRemove fs a = some (Function.update fs a none) := by
  simp [osRemove, h]

theorem enterReception_of_ne {tmp : String} {fs : Dir} {st : state} {msg : ClientMsg}
    (h : st.fileName ≠ "") : enterReception tmp fs st msg = (fs, st) := by
  simp [enterReception, h]

/-- C1: for a server state with a receive in progress (a file name, an open
temp file that exists under its own name) an `End` message with sequence
number `S` makes `processUpdateMsg` rename the temp file onto `dir/fileName`
exactly when `latestFileSeq[fileName]` is present and equal to `S`, and remove
the temp file leaving `dir/fileName` as it was otherwise; in both cases
`fileName` is cleared and both handles are released. -/
theorem processUpdateMsg_end [Runtime] (tmp : String) (fs : Dir) (st : state) (msg : ClientMsg)
    (path : String) (T : Bytes)
    (hname : st.fileName ≠ "") (htmp : st.tempFile = some path) (hT : fs path = some T)
    (hne : path ≠ st.fileName) (hop : msg.Op = FileEnd) :
    processUpdateMsg tmp fs st msg =
      .ok (if st.latestFileSeq st.fileName = some msg.SeqNo
            then Function.update (Function.update fs path none) st.fileName (some T)
            else Function.update fs path none,
           { st with fileName := "", inputFile := none, tempFile := none }) ∧
    (st.latestFileSeq st.fileName = some msg.SeqNo →
      Function.update (Function.update fs path none) st.fileName (some T) st.fileName = some T) ∧
    (st.latestFileSeq st.fileName ≠ some msg.SeqNo →
      Function.update fs path none st.fileName = fs st.fileName) ∧
    Function.update (Function.update fs path none) st.fileName (some T) path = none ∧
    Function.update fs path none path = none := by
  refine ⟨?_, ?_, ?_, ?_, ?_⟩
  · unfold processUpdateMsg
    rw [enterReception_of_ne hname]
    by_cases hl : st.latestFileSeq st.fileName = some msg.SeqNo
    · simp [handleOp, hop, htmp, hl, osRename_of_some hT hne]
    · simp [handleOp, hop, htmp, hl, osRemove_of_some hT]
  · intro _
    simp
  · intro _
    simp [Function.update, Ne.symm hne]
  · simp [Function.update, hne]
  · simp

theorem processUpdateMsg_end_witness :
    processUpdateMsg ".tmp.2" dirATmp stRecvA
        { File := "a", Op := FileEnd, SeqNo := 4, Length := 0, Data := [] } =
      .ok (if stRecvA.latestFileSeq stRecvA.fileName = some 4
            then Function.update (Function.update dirATmp ".tmp.1" none) stRecvA.fileName
              (some [9, 9])
            else Function.update dirATmp ".tmp.1" none,
           { stRecvA with fileName := "", inputFile := none, tempFile := none }) :=
  (processUpdateMsg_end ".tmp.2" dirATmp stRecvA
    { File := "a", Op := FileEnd, SeqNo := 4, Length := 0, Data := [] } ".tmp.1" [9, 9]
    (by decide) rfl (by decide) (by decide) rfl).1

/-! ### The client's reply to one hash message -/

theorem File.Read_bytes (f : File) (k : Nat) :
    (f.Read k).2.1 = (f.data.drop f.pos).take k := by
  unfold File.Read
  split
  · simp [*]
  · split
    · rename_i h
      simp [List.drop_eq_nil_of_le h]
    · rfl

theorem File.Read_handle (f : File) (k : Nat) :
    (f.Read k).1 = { f with pos := f.pos + ((f.data.drop f.pos).take k).length } := by
  unfold File.Read
  split
  · simp [*]
  · split
    · rename_i h
      simp [List.drop_eq_nil_of_le h]
    · rfl

theorem processChunk_alloc [Runtime] (md5 : Bytes → Digest) (st : FileSyncState) (msg : ServerMsg)
    (f : File) (hfile : st.file = some f) (hL : 0 ≤ msg.Length)
    (hA : msg.Length ≤ (Runtime.maxAlloc : Int)) (hseq : st.seqNo = msg.SeqNo) :
    processChunk md5 st msg =
      .ok ({ st with file := some { f with pos := f.pos +
                ((f.data.drop f.pos).take msg.Length.toNat).length } },
           if ((f.data.drop f.pos).take msg.Length.toNat).length = 0 then []
           else if (((f.data.drop f.pos).take msg.Length.toNat).length : Int) = msg.Length ∧
               md5 ((f.data.drop f.pos).take msg.Length.toNat) = msg.Hash then
             [{ File := msg.File, Op := FileReuseData, SeqNo := msg.SeqNo, Length := msg.Length,
                Data := [] }]
           else
             [{ File := msg.File, Op := FileNewData, SeqNo := msg.SeqNo, Length := msg.Length,
                Data := (f.data.drop f.pos).take msg.Length.toNat }]) := by
  unfold processChunk
  rw [if_neg (by omega)]
  simp only [hfile, File.Read_bytes, File.Read_handle, hseq]
  by_cases h0 : ((f.data.drop f.pos).take msg.Length.toNat).length = 0
  · simp [h0]
  · by_cases h1 : (((f.data.drop f.pos).take msg.Length.toNat).length : Int) = msg.Length ∧
        md5 ((f.data.drop f.pos).take msg.Length.toNat) = msg.Hash
    · rw [if_pos h0, if_neg h0, if_pos h1, if_neg (by tauto)]
    · rw [if_pos h0, if_neg h0, if_neg h1, if_pos (by tauto)]

theorem maxAlloc_lt_of_limit [Runtime] (L : Int) (h : 2 ^ 48 < L) :
    (Runtime.maxAlloc : Int) < L := by
  have h48 : (Runtime.maxAlloc : Int) ≤ 2 ^ 48 := by exact_mod_cast Runtime.withinLimit
  exact lt_of_le_of_lt h48 h

theorem processChunk_too_long [Runtime] (md5 : Bytes → Digest) (st : FileSyncState)
    (msg : ServerMsg) (hA : (Runtime.maxAlloc : Int) < msg.Length) :
    processChunk md5 st msg = .error .fatal := by
  unfold processChunk
  rw [if_pos (Or.inr hA)]

/-- C6 (as amended): the reply of `processChunk` to a hash message of length
`L > 0` while a file is open.  When `L` is more than `make` can allocate the
client is terminated.  Otherwise, `B` being the bytes read: nothing is sent
when `B` is empty, a `ReuseData` of length `L` without data when `|B| = L` and
the hashes agree, and otherwise a `NewData` carrying `B` whose length field is
`L`.  An `L` above `2^48` is more than `make` can allocate in every
environment. -/
theorem processChunk_reply [Runtime] (md5 : Bytes → Digest) (st : FileSyncState) (msg : ServerMsg)
    (f : File) (hfile : st.file = some f) (hL : 0 < msg.Length) (hseq : st.seqNo = msg.SeqNo) :
    ((Runtime.maxAlloc : Int) < msg.Length → processChunk md5 st msg = .error .fatal) ∧
    (msg.Length ≤ (Runtime.maxAlloc : Int) →
      processChunk md5 st msg =
        .ok ({ st with file := some { f with pos := f.pos +
                  ((f.data.drop f.pos).take msg.Length.toNat).length } },
             if ((f.data.drop f.pos).take msg.Length.toNat).length = 0 then []
             else if (((f.data.drop f.pos).take msg.Length.toNat).length : Int) = msg.Length ∧
                 md5 ((f.data.drop f.pos).take msg.Length.toNat) = msg.Hash then
               [{ File := msg.File, Op := FileReuseData, SeqNo := msg.SeqNo,
                  Length := msg.Length, Data := [] }]
             else
               [{ File := msg.File, Op := FileNewData, SeqNo := msg.SeqNo,
                  Length := msg.Length,
                  Data := (f.data.drop f.pos).take msg.Length.toNat }])) ∧
    (2 ^ 48 < msg.Length → processChunk md5 st msg = .error .fatal) :=
  ⟨processChunk_too_long md5 st msg,
   fun hA => processChunk_alloc md5 st msg f hfile hL.le hA hseq,
   fun h => processChunk_too_long md5 st msg (maxAlloc_lt_of_limit msg.Length h)⟩

theorem processChunk_reply_witness :
    processChunk padDigest stClientShort msgTwoBytes =
      .ok ({ stClientShort with file := some { data := [7], pos := 0 +
                ((([7] : Bytes).drop 0).take msgTwoBytes.Length.toNat).length } },
           if ((([7] : Bytes).drop 0).take msgTwoBytes.Length.toNat).length = 0 then []
           else if (((([7] : Bytes).drop 0).take msgTwoBytes.Length.toNat).length : Int) =
                 msgTwoBytes.Length ∧
               padDigest ((([7] : Bytes).drop 0).take msgTwoBytes.Length.toNat) =
                 msgTwoBytes.Hash then
             [{ File := msgTwoBytes.File, Op := FileReuseData, SeqNo := msgTwoBytes.SeqNo,
                Length := msgTwoBytes.Length, Data := [] }]
           else
             [{ File := msgTwoBytes.File, Op := FileNewData, SeqNo := msgTwoBytes.SeqNo,
                Length := msgTwoBytes.Length,
                Data := (([7] : Bytes).drop 0).take msgTwoBytes.Length.toNat }]) :=
  (processChunk_reply padDigest stClientShort msgTwoBytes { data := [7], pos := 0 } rfl
    (by decide) rfl).2.1 (by decide)

/-- C6, counterexample: on a read that ends early (one byte left, two asked
for) the `NewData` reply carries the length of the hash message, 2, not the
number of bytes read; and a hash message whose length is more than `make` can
allocate gets no reply at all, the client being terminated. -/
theorem processChunk_short_read_length :
    (∃ st1 m, processChunk padDigest stClientShort msgTwoBytes = .ok (st1, [m]) ∧
      m.Op = FileNewData ∧ m.Data = [7] ∧ m.Length = 2 ∧ m.Length ≠ (m.Data.length : Int)) ∧
    processChunk padDigest stClientShort msgHuge = .error .fatal :=
  ⟨⟨{ stClientShort with file := some { data := [7], pos := 1 } },
    { File := "a", Op := FileNewData, SeqNo := 1, Length := 2, Data := [7] },
    by rfl, rfl, rfl, rfl, by decide⟩,
   by rfl⟩

/-! ### A job whose file is missing on the client -/

theorem processServerMsg_absent [Runtime] (md5 : Bytes → Digest) (fuel : Nat) (fs : Dir)
    (st : FileSyncState) (msg : ServerMsg) (habs : fs msg.File = none)
    (hnew : st.name ≠ msg.File ∨ st.seqNo ≠ msg.SeqNo) :
    processServerMsg md5 fuel fs st msg =
      .ok ({ name := msg.File, file := none, seqNo := msg.SeqNo }, []) := by
  unfold processServerMsg
  simp [enterProcessing, hnew, startNextFileProcessing, osOpen, habs]

theorem processServerMsg_no_file [Runtime] (md5 : Bytes → Digest) (fuel : Nat) (fs : Dir)
    (st : FileSyncState) (msg : ServerMsg) (hname : st.name = msg.File)
    (hseq : st.seqNo = msg.SeqNo) (hfile : st.file = none) :
    processServerMsg md5 fuel fs st msg = .ok (st, []) := by
  unfold processServerMsg
  simp [enterProcessing, hname, hseq, hfile]

theorem clientRun_no_file [Runtime] (md5 : Bytes → Digest) (fuel : Nat) (fs : Dir) (P : String) (S : Int) :
    ∀ ms : List ServerMsg, (∀ x ∈ ms, x.File = P ∧ x.SeqNo = S) →
      clientRun md5 fuel fs { name := P, file := none, seqNo := S } ms =
        .ok ({ name := P, file := none, seqNo := S }, []) := by
  intro ms
  induction ms with
  | nil => intro _; rfl
  | cons m ms ih =>
    intro h
    have hm := h m (List.mem_cons_self _ _)
    have hms : ∀ x ∈ ms, x.File = P ∧ x.SeqNo = S := fun x hx => h x (List.mem_cons_of_mem _ hx)
    unfold clientRun
    rw [processServerMsg_no_file md5 fuel fs _ m hm.1.symm hm.2.symm rfl]
    simp [ih hms]

/-- C5 (as amended): when the announced file does not exist on the client
at the time the first hash message of the job is handled, the client sends no
message at all for the messages of that job, the one with `Last = true`
included: no `End` is emitted. -/
theorem clientRun_absent_file [Runtime] (md5 : Bytes → Digest) (fuel : Nat) (fs : Dir)
    (st : FileSyncState) (P : String) (S : Int) (m : ServerMsg) (ms : List ServerMsg)
    (habs : fs P = none) (hnew : st.name ≠ P ∨ st.seqNo ≠ S)
    (hjob : ∀ x ∈ m :: ms, x.File = P ∧ x.SeqNo = S) :
    clientRun md5 fuel fs st (m :: ms) =
      .ok ({ name := P, file := none, seqNo := S }, []) := by
  have hm := hjob m (List.mem_cons_self _ _)
  have hms : ∀ x ∈ ms, x.File = P ∧ x.SeqNo = S := fun x hx => hjob x (List.mem_cons_of_mem _ hx)
  unfold clientRun
  rw [processServerMsg_absent md5 fuel fs st m (by rw [hm.1]; exact habs)
    (by rw [hm.1, hm.2]; exact hnew)]
  simp only [hm.1, hm.2]
  rw [clientRun_no_file md5 fuel fs P S ms hms]
  rfl

theorem clientRun_absent_file_witness :
    clientRun padDigest 5 dirEmpty FileSyncState.init [msgTwoBytes, msgLastA] =
      .ok ({ name := "a", file := none, seqNo := 1 }, []) :=
  clientRun_absent_file padDigest 5 dirEmpty FileSyncState.init "a" 1 msgTwoBytes [msgLastA]
    rfl (by decide) (by decide)

/-- C5, counterexample: the file `a` is missing on the client and the message
with `Last = true` of its job is handled; no `End` message is sent. -/
theorem processServerMsg_absent_no_end :
    processServerMsg padDigest 5 dirEmpty FileSyncState.init msgLastA =
      .ok ({ name := "a", file := none, seqNo := 1 }, []) ∧
    ∀ r, processServerMsg padDigest 5 dirEmpty FileSyncState.init msgLastA = .ok r →
      ¬ ∃ m ∈ r.2, m.Op = FileEnd := by
  refine ⟨by rfl, ?_⟩
  intro r hr
  have h : processServerMsg padDigest 5 dirEmpty FileSyncState.init msgLastA =
      .ok ({ name := "a", file := none, seqNo := 1 }, []) := by rfl
  rw [h] at hr
  cases hr
  simp

/-! ### The hash stream of a job -/

theorem File.Read_eof (f : File) (k : Nat) :
    (f.Read k).2.2 = (decide (k ≠ 0) && decide (f.data.length ≤ f.pos)) := by
  unfold File.Read
  by_cases hk : k = 0
  · simp [hk]
  · by_cases hp : f.data.length ≤ f.pos
    · simp [hk, hp]
    · simp [hk, hp]

theorem hashLoop_eof (md5 : Bytes → Digest) (sync : fileToSync) (fuel : Nat) (f : File)
    (h : f.data.length ≤ f.pos) : hashLoop md5 sync (fuel + 1) f = .ok [] := by
  simp [hashLoop, File.Read_eof, h]

theorem hashLoop_step (md5 : Bytes → Digest) (sync : fileToSync) (fuel : Nat) (f : File)
    (h : f.pos < f.data.length) :
    hashLoop md5 sync (fuel + 1) f =
      match hashLoop md5 sync fuel
          { f with pos := f.pos + ((f.data.drop f.pos).take 4096).length } with
      | .ok rest => .ok (hashMsg md5 sync ((f.data.drop f.pos).take 4096) :: rest)
      | .error e => .error e := by
  simp [hashLoop, File.Read_eof, File.Read_bytes, File.Read_handle, not_le.mpr h]

theorem take_append_drop_take_length {α : Type} (k : Nat) (l : List α) :
    l.take k ++ l.drop (l.take k).length = l := by
  rcases Nat.le_total k l.length with h | h
  · rw [List.length_take, Nat.min_eq_left h, List.take_append_drop]
  · rw [List.take_of_length_le h, List.drop_length, List.append_nil]

theorem hashLoop_chunks (md5 : Bytes → Digest) (sync : fileToSync) :
    ∀ (fuel : Nat) (f : File), f.data.length - f.pos < fuel →
      ∃ chunks : List Bytes,
        hashLoop md5 sync fuel f = .ok (chunks.map (hashMsg md5 sync)) ∧
        chunks.flatten = f.data.drop f.pos ∧
        (∀ c ∈ chunks, 0 < c.length ∧ c.length ≤ 4096) ∧
        (∀ c ∈ chunks.dropLast, c.length = 4096) := by
  intro fuel
  induction fuel with
  | zero => intro f h; omega
  | succ fuel ih =>
    intro f hfuel
    by_cases hp : f.data.length ≤ f.pos
    · refine ⟨[], ?_, ?_, ?_, ?_⟩
      · rw [hashLoop_eof md5 sync fuel f hp]; rfl
      · simp [List.drop_eq_nil_of_le hp]
      · simp
      · simp
    · have hlt : f.pos < f.data.length := not_le.mp hp
      have hlen : ((f.data.drop f.pos).take 4096).length = min 4096 (f.data.length - f.pos) := by
        simp [List.length_take, List.length_drop]
      have hpos : 0 < ((f.data.drop f.pos).take 4096).length := by
        rw [hlen]; omega
      obtain ⟨cs, hrun, hjoin, hsize, hfull⟩ :=
        ih { f with pos := f.pos + ((f.data.drop f.pos).take 4096).length }
          (by simp only []; omega)
      refine ⟨((f.data.drop f.pos).take 4096) :: cs, ?_, ?_, ?_, ?_⟩
      · rw [hashLoop_step md5 sync fuel f hlt, hrun]; rfl
      · simp only [List.flatten_cons, hjoin]
        rw [← List.drop_drop]
        exact take_append_drop_take_length 4096 (f.data.drop f.pos)
      · intro c hc
        rcases List.mem_cons.mp hc with rfl | hc
        · exact ⟨hpos, by rw [hlen]; omega⟩
        · exact hsize c hc
      · intro c hc
        cases cs with
        | nil => simp at hc
        | cons c1 cs1 =>
          rw [List.dropLast_cons₂] at hc
          rcases List.mem_cons.mp hc with rfl | hc
          · have h1 := (hsize c1 (List.mem_cons_self _ _)).1
            have h2 : 0 < (List.flatten (c1 :: cs1)).length := by
              simp only [List.flatten_cons, List.length_append]; omega
            rw [hjoin] at h2
            simp only [List.length_drop] at h2
            rw [hlen] at h2 ⊢
            omega
          · exact hfull c hc

/-- C7: the hash stream of a job `(P, seqNo)`.  When `dir/P` is absent it is
the single message with length 0 and `Last = true`.  When `dir/P` holds `X` it
is one message per consecutive 4096-byte chunk of `X` (`Last = false`, length
between 1 and 4096 and equal to 4096 except possibly for the final chunk, the
MD5 of that chunk, the lengths adding up to `|X|`), followed by the message
with length 0 and `Last = true`; every message carries `P` and `seqNo`. -/
theorem serverHashSender_stream (md5 : Bytes → Digest) (fuel : Nat) (fs : Dir) (P : String)
    (S : Int) :
    (fs P = none →
      serverHashSender md5 fuel fs { name := P, seqNo := S } =
        .ok [{ File := P, SeqNo := S, Length := 0, Last := true, Hash := Digest.zero }]) ∧
    (∀ X : Bytes, fs P = some X → X.length < fuel →
      ∃ chunks : List Bytes,
        serverHashSender md5 fuel fs { name := P, seqNo := S } =
          .ok (chunks.map (fun c => { File := P, SeqNo := S, Length := (c.length : Int),
                                      Last := false, Hash := md5 c }) ++
               [{ File := P, SeqNo := S, Length := 0, Last := true, Hash := Digest.zero }]) ∧
        chunks.flatten = X ∧
        (∀ c ∈ chunks, 0 < c.length ∧ c.length ≤ 4096) ∧
        (∀ c ∈ chunks.dropLast, c.length = 4096) ∧
        (chunks.map List.length).sum = X.length) := by
  constructor
  · intro h
    simp [serverHashSender, osOpen, h, lastMsg]
  · intro X hX hfuel
    obtain ⟨cs, hrun, hjoin, hsize, hfull⟩ :=
      hashLoop_chunks md5 { name := P, seqNo := S } fuel { data := X, pos := 0 }
        (by simpa using hfuel)
    refine ⟨cs, ?_, by simpa using hjoin, hsize, hfull, ?_⟩
    · simp only [serverHashSender, osOpen, hX, hrun, lastMsg]
      rfl
    · have : (List.flatten cs).length = X.length := by rw [hjoin]; simp
      rw [← this, List.length_flatten]

theorem serverHashSender_stream_witness :
    serverHashSender padDigest 4 dirEmpty { name := "a", seqNo := 1 } =
      .ok [{ File := "a", SeqNo := 1, Length := 0, Last := true, Hash := Digest.zero }] ∧
    ∃ chunks : List Bytes,
      serverHashSender padDigest 4 dirA { name := "a", seqNo := 1 } =
        .ok (chunks.map (fun c => { File := "a", SeqNo := 1, Length := (c.length : Int),
                                    Last := false, Hash := padDigest c }) ++
             [{ File := "a", SeqNo := 1, Length := 0, Last := true, Hash := Digest.zero }]) ∧
      chunks.flatten = [1, 2, 3] ∧
      (∀ c ∈ chunks, 0 < c.length ∧ c.length ≤ 4096) ∧
      (∀ c ∈ chunks.dropLast, c.length = 4096) ∧
      (chunks.map List.length).sum = ([1, 2, 3] : Bytes).length :=
  ⟨(serverHashSender_stream padDigest 4 dirEmpty "a" 1).1 rfl,
   (serverHashSender_stream padDigest 4 dirA "a" 1).2 [1, 2, 3] rfl (by decide)⟩

/-! ### Sequence numbers -/

theorem enterReception_seq (tmp : String) (fs : Dir) (st : state) (msg : ClientMsg) :
    (enterReception tmp fs st msg).2.nextSeq = st.nextSeq ∧
    (enterReception tmp fs st msg).2.latestFileSeq = st.latestFileSeq := by
  unfold enterReception
  split <;> simp [startNextFileReception]

theorem handleOp_seq [Runtime] (fs : Dir) (st : state) (msg : ClientMsg) (r : Dir × state)
    (h : handleOp fs st msg = .ok r) :
    r.2.nextSeq = st.nextSeq ∧ r.2.latestFileSeq = st.latestFileSeq := by
  simp only [handleOp] at h
  repeat' split at h
  all_goals first
    | (cases h; done)
    | (cases h; exact ⟨rfl, rfl⟩)

theorem processUpdateMsg_seq [Runtime] (tmp : String) (fs : Dir) (st : state) (msg : ClientMsg)
    (r : Dir × state) (h : processUpdateMsg tmp fs st msg = .ok r) :
    r.2.nextSeq = st.nextSeq ∧ r.2.latestFileSeq = st.latestFileSeq := by
  unfold processUpdateMsg at h
  have h1 := handleOp_seq _ _ _ _ h
  have h2 := enterReception_seq tmp fs st msg
  exact ⟨h1.1.trans h2.1, h1.2.trans h2.2⟩

theorem serverLoop_updated [Runtime] (tmp : String) (fs : Dir) (st : state) (msg : ClientMsg)
    (hop : msg.Op = FileUpdated) :
    serverLoop tmp fs st msg =
      .ok (fs,
           { st with nextSeq := st.nextSeq + 1,
                     latestFileSeq :=
                       Function.update st.latestFileSeq msg.File (some (st.nextSeq + 1)) },
           [{ name := msg.File, seqNo := st.nextSeq + 1 }]) := by
  simp [serverLoop, hop]

theorem update_none_of_none (fs : Dir) (t : String) (h : fs t = none) :
    Function.update fs t none = fs := by
  rw [← h]; exact Function.update_eq_self t fs

/-- The `FileRemoved` case of `serverLoop`: it ends the server when there is
no file `msg.File`, the path is not the name of an entry and `os.Remove`
reports an error other than "does not exist"; in every other case the file is
unlinked, if there is one, and the entry of the map deleted. -/
theorem serverLoop_removed_eq [Runtime] (tmp : String) (fs : Dir) (st : state) (msg : ClientMsg)
    (hop : msg.Op = FileRemoved) :
    serverLoop tmp fs st msg =
      if fs msg.File = none ∧ plainName msg.File = false ∧
          Runtime.removeFails fs msg.File = true then .error .fatal
      else
        .ok (Function.update fs msg.File none,
             { st with latestFileSeq := Function.update st.latestFileSeq msg.File none }, []) := by
  have h1 : msg.Op ≠ FileUpdated := by rw [hop]; decide
  simp only [serverLoop, if_neg h1, if_pos hop]
  cases h : fs msg.File with
  | none =>
    simp only [osRemove, h, update_none_of_none fs msg.File h, true_and]
    cases hp : plainName msg.File <;> cases hf : Runtime.removeFails fs msg.File <;> simp
  | some c =>
    simp [osRemove, h]

theorem serverLoop_removed_ok [Runtime] (tmp : String) (fs : Dir) (st : state) (msg : ClientMsg)
    (r : Dir × state × List fileToSync) (hop : msg.Op = FileRemoved)
    (h : serverLoop tmp fs st msg = .ok r) :
    r = (Function.update fs msg.File none,
         { st with latestFileSeq := Function.update st.latestFileSeq msg.File none }, []) := by
  rw [serverLoop_removed_eq tmp fs st msg hop] at h
  split at h
  · cases h
  · cases h; rfl

theorem serverLoop_seq [Runtime] (tmp : String) (fs : Dir) (st : state) (msg : ClientMsg)
    (r : Dir × state × List fileToSync) (h : serverLoop tmp fs st msg = .ok r)
    (hinv : ∀ P v, st.latestFileSeq P = some v → 1 ≤ v ∧ v ≤ st.nextSeq)
    (h0 : 0 ≤ st.nextSeq) :
    st.nextSeq ≤ r.2.1.nextSeq ∧
    (∀ j ∈ r.2.2, st.nextSeq < j.seqNo ∧ j.seqNo ≤ r.2.1.nextSeq) ∧
    (r.2.2.map (fun j => j.seqNo)).Pairwise (fun a b => a < b) ∧
    (∀ P v, r.2.1.latestFileSeq P = some v → 1 ≤ v ∧ v ≤ r.2.1.nextSeq) := by
  by_cases h1 : msg.Op = FileUpdated
  · rw [serverLoop_updated tmp fs st msg h1] at h
    cases h
    refine ⟨by simp, by simp, by simp, ?_⟩
    intro P v hv
    dsimp only at hv ⊢
    simp only [Function.update_apply] at hv
    split_ifs at hv
    · cases hv
      constructor <;> omega
    · have := hinv P v hv
      constructor <;> omega
  · by_cases h2 : msg.Op = FileRemoved
    · have hst : r.2.1 = { st with latestFileSeq := Function.update st.latestFileSeq msg.File none } ∧
          r.2.2 = [] := by
        rw [serverLoop_removed_ok tmp fs st msg r h2 h]
        exact ⟨rfl, rfl⟩
      rw [hst.1, hst.2]
      refine ⟨le_refl _, by simp, by simp, ?_⟩
      intro P v hv
      dsimp only at hv ⊢
      simp only [Function.update_apply] at hv
      split_ifs at hv
      exact hinv P v hv
    · by_cases h3 : msg.Op = FileNewData ∨ msg.Op = FileReuseData ∨ msg.Op = FileEnd
      · simp only [serverLoop, if_neg h1, if_neg h2, if_pos h3] at h
        split at h
        · rename_i r1 hr1
          cases h
          have := processUpdateMsg_seq tmp fs st msg r1 hr1
          dsimp only
          rw [this.1, this.2]
          exact ⟨le_refl _, by simp, by simp, hinv⟩
        · cases h
      · simp only [serverLoop, if_neg h1, if_neg h2, if_neg h3] at h
        cases h
        exact ⟨le_refl _, by simp, by simp, hinv⟩

theorem serverLoopRun_seq [Runtime] :
    ∀ (msgs : List (String × ClientMsg)) (fs : Dir) (st : state)
      (r : Dir × state × List fileToSync), serverLoopRun fs st msgs = .ok r →
      (∀ P v, st.latestFileSeq P = some v → 1 ≤ v ∧ v ≤ st.nextSeq) → 0 ≤ st.nextSeq →
      st.nextSeq ≤ r.2.1.nextSeq ∧
      (∀ j ∈ r.2.2, st.nextSeq < j.seqNo ∧ j.seqNo ≤ r.2.1.nextSeq) ∧
      (r.2.2.map (fun j => j.seqNo)).Pairwise (fun a b => a < b) ∧
      (∀ P v, r.2.1.latestFileSeq P = some v → 1 ≤ v ∧ v ≤ r.2.1.nextSeq) := by
  intro msgs
  induction msgs with
  | nil =>
    intro fs st r h hinv h0
    simp only [serverLoopRun] at h
    cases h
    exact ⟨le_refl _, by simp, by simp, hinv⟩
  | cons m ms ih =>
    intro fs st r h hinv h0
    simp only [serverLoopRun] at h
    split at h
    · rename_i r1 hr1
      split at h
      · rename_i r2 hr2
        cases h
        obtain ⟨a1, a2, a3, a4⟩ := serverLoop_seq m.1 fs st m.2 r1 hr1 hinv h0
        obtain ⟨b1, b2, b3, b4⟩ := ih r1.1 r1.2.1 r2 hr2 a4 (le_trans h0 a1)
        dsimp only
        refine ⟨le_trans a1 b1, ?_, ?_, b4⟩
        · intro j hj
          rcases List.mem_append.mp hj with hj | hj
          · have := a2 j hj
            constructor <;> omega
          · have := b2 j hj
            constructor <;> omega
        · rw [List.map_append, List.pairwise_append]
          refine ⟨a3, b3, ?_⟩
          intro x hx y hy
          obtain ⟨jx, hjx, rfl⟩ := List.mem_map.mp hx
          obtain ⟨jy, hjy, rfl⟩ := List.mem_map.mp hy
          have := a2 jx hjx
          have := b2 jy hjy
          omega
      · cases h
    · cases h

/-- C9: handling `Updated(P)` in `serverLoop` increments `nextSeq` by one,
stores the new `nextSeq` in `latestFileSeq[P]` and enqueues exactly the job
`(P, nextSeq)`; in every run of `serverLoop` from its initial state the
sequence numbers of the jobs issued are strictly increasing in the order of
issue (hence pairwise distinct), lie between 1 and `nextSeq`, and every value
stored in `latestFileSeq` lies between 1 and `nextSeq`. -/
theorem serverLoop_sequence_discipline [Runtime] :
    (∀ (tmp : String) (fs : Dir) (st : state) (msg : ClientMsg), msg.Op = FileUpdated →
      serverLoop tmp fs st msg =
        .ok (fs,
             { st with nextSeq := st.nextSeq + 1,
                       latestFileSeq :=
                         Function.update st.latestFileSeq msg.File (some (st.nextSeq + 1)) },
             [{ name := msg.File, seqNo := st.nextSeq + 1 }])) ∧
    (∀ (msgs : List (String × ClientMsg)) (fs : Dir) (r : Dir × state × List fileToSync),
      serverLoopRun fs state.init msgs = .ok r →
      (r.2.2.map (fun j => j.seqNo)).Pairwise (fun a b => a < b) ∧
      (∀ j ∈ r.2.2, 1 ≤ j.seqNo ∧ j.seqNo ≤ r.2.1.nextSeq) ∧
      (∀ P v, r.2.1.latestFileSeq P = some v → 1 ≤ v ∧ v ≤ r.2.1.nextSeq)) := by
  refine ⟨serverLoop_updated, ?_⟩
  intro msgs fs r h
  obtain ⟨_, a2, a3, a4⟩ := serverLoopRun_seq msgs fs state.init r h
    (by intro P v hv; simp [state.init] at hv) (by simp [state.init])
  refine ⟨a3, ?_, a4⟩
  intro j hj
  have := a2 j hj
  simp only [state.init] at this
  constructor <;> omega

theorem serverLoop_sequence_discipline_witness :
    serverLoop ".tmp.1" dirA state.init (updatedMsg "a") =
      .ok (dirA,
           { state.init with nextSeq := state.init.nextSeq + 1,
                             latestFileSeq :=
                               Function.update state.init.latestFileSeq (updatedMsg "a").File
                                 (some (state.init.nextSeq + 1)) },
           [{ name := (updatedMsg "a").File, seqNo := state.init.nextSeq + 1 }]) ∧
    (([{ name := "a", seqNo := 1 }, { name := "b", seqNo := 2 }] : List fileToSync).map
        (fun j => j.seqNo)).Pairwise (fun a b => a < b) :=
  ⟨serverLoop_sequence_discipline.1 ".tmp.1" dirA state.init (updatedMsg "a") rfl,
   (serverLoop_sequence_discipline.2 [(".tmp.1", updatedMsg "a"), (".tmp.2", updatedMsg "b")]
      dirA
      (dirA,
       { nextSeq := 2,
         latestFileSeq :=
           Function.update (Function.update (fun _ => none) "a" (some 1)) "b" (some 2),
         fileName := "", inputFile := none, tempFile := none },
       [{ name := "a", seqNo := 1 }, { name := "b", seqNo := 2 }])
      rfl).1⟩

/-! ### The receive on the server, message by message -/

theorem enterReception_idle (tmp : String) (fs : Dir) (st : state) (msg : ClientMsg)
    (h : st.fileName = "") :
    enterReception tmp fs st msg =
      (Function.update fs tmp (some []), inReceive st msg.File (osOpen fs msg.File) tmp) := by
  simp [enterReception, h, startNextFileReception, inReceive]

theorem enterReception_inReceive (tmp t : String) (fs : Dir) (st0 : state) (P : String)
    (inp : Option File) (msg : ClientMsg) (hP : P ≠ "") :
    enterReception tmp fs (inReceive st0 P inp t) msg = (fs, inReceive st0 P inp t) := by
  simp [enterReception, inReceive, hP]

theorem processUpdateMsg_inReceive [Runtime] (tmp t : String) (fs : Dir) (st0 : state) (P : String)
    (inp : Option File) (msg : ClientMsg) (hP : P ≠ "") :
    processUpdateMsg tmp fs (inReceive st0 P inp t) msg =
      handleOp fs (inReceive st0 P inp t) msg := by
  unfold processUpdateMsg
  rw [enterReception_inReceive tmp t fs st0 P inp msg hP]

theorem processUpdateMsg_idle [Runtime] (tmp : String) (fs : Dir) (st : state) (msg : ClientMsg)
    (h : st.fileName = "") :
    processUpdateMsg tmp fs st msg =
      handleOp (Function.update fs tmp (some []))
        (inReceive st msg.File (osOpen fs msg.File) tmp) msg := by
  unfold processUpdateMsg
  rw [enterReception_idle tmp fs st msg h]

theorem osWrite_update (fs : Dir) (t : String) (T d : Bytes) :
    osWrite (Function.update fs t (some T)) t d = Function.update fs t (some (T ++ d)) := by
  simp [osWrite]

theorem handleOp_newData [Runtime] (fs : Dir) (st0 : state) (P t : String) (inp : Option File)
    (T : Bytes) (msg : ClientMsg) (hop : msg.Op = FileNewData) :
    handleOp (Function.update fs t (some T)) (inReceive st0 P inp t) msg =
      .ok (Function.update fs t (some (T ++ msg.Data)),
           inReceive st0 P (inp.map (fun f => f.Seek msg.Length)) t) := by
  cases inp <;> simp [handleOp, hop, inReceive, osWrite_update]

theorem handleOp_reuse [Runtime] (fs : Dir) (st0 : state) (P t : String) (f : File)
    (T : Bytes) (msg : ClientMsg) (hop : msg.Op = FileReuseData) (hL : 0 ≤ msg.Length)
    (hA : msg.Length ≤ (Runtime.maxAlloc : Int))
    (hpos : f.pos < f.data.length) (hL0 : msg.Length ≠ 0) :
    handleOp (Function.update fs t (some T)) (inReceive st0 P (some f) t) msg =
      .ok (Function.update fs t (some (T ++ (f.data.drop f.pos).take msg.Length.toNat)),
           inReceive st0 P
             (some { f with pos := f.pos +
                ((f.data.drop f.pos).take msg.Length.toNat).length }) t) := by
  have hk : msg.Length.toNat ≠ 0 := by omega
  simp [handleOp, hop, inReceive, osWrite_update, not_lt.mpr hL, not_lt.mpr hA, File.Read_eof,
    File.Read_bytes, File.Read_handle, hk, not_le.mpr hpos]

theorem handleOp_end [Runtime] (fs : Dir) (st : state) (msg : ClientMsg) (path : String) (T : Bytes)
    (htmp : st.tempFile = some path) (hT : fs path = some T) (hne : path ≠ st.fileName)
    (hop : msg.Op = FileEnd) :
    handleOp fs st msg =
      .ok (if st.latestFileSeq st.fileName = some msg.SeqNo
            then Function.update (Function.update fs path none) st.fileName (some T)
            else Function.update fs path none,
           { st with fileName := "", inputFile := none, tempFile := none }) := by
  by_cases hl : st.latestFileSeq st.fileName = some msg.SeqNo
  · simp [handleOp, hop, htmp, hl, osRename_of_some hT hne]
  · simp [handleOp, hop, htmp, hl, osRemove_of_some hT]

theorem handleOp_end_inReceive [Runtime] (fs : Dir) (st0 : state) (P t : String) (inp : Option File)
    (T : Bytes) (msg : ClientMsg) (hne : t ≠ P) (hop : msg.Op = FileEnd) :
    handleOp (Function.update fs t (some T)) (inReceive st0 P inp t) msg =
      .ok (if st0.latestFileSeq P = some msg.SeqNo
            then Function.update (Function.update fs t none) P (some T)
            else Function.update fs t none,
           { st0 with fileName := "", inputFile := none, tempFile := none }) := by
  rw [handleOp_end (Function.update fs t (some T)) (inReceive st0 P inp t) msg t T rfl
    (by simp) hne hop]
  simp [inReceive]

theorem serverRun_append [Runtime] (tmp : String) :
    ∀ (a b : List ClientMsg) (fs : Dir) (st : state),
      serverRun tmp fs st (a ++ b) =
        match serverRun tmp fs st a with
        | .ok r => serverRun tmp r.1 r.2 b
        | .error e => .error e := by
  intro a
  induction a with
  | nil => intro b fs st; rfl
  | cons m ms ih =>
    intro b fs st
    simp only [List.cons_append, serverRun]
    cases processUpdateMsg tmp fs st m with
    | ok r => exact ih b r.1 r.2
    | error e => rfl

theorem serverRun_idle_cons [Runtime] (tmp : String) (fs : Dir) (st : state) (m : ClientMsg)
    (ms : List ClientMsg) (h : st.fileName = "") (hP : m.File ≠ "") :
    serverRun tmp fs st (m :: ms) =
      serverRun tmp (Function.update fs tmp (some []))
        (inReceive st m.File (osOpen fs m.File) tmp) (m :: ms) := by
  simp only [serverRun]
  rw [processUpdateMsg_idle tmp fs st m h,
    processUpdateMsg_inReceive tmp tmp _ st m.File _ m hP]

/-- A run of `NewData` messages during a receive appends their data to the
temp file. -/
theorem serverRun_newData [Runtime] (tmp t : String) (fs : Dir) (st0 : state) (P : String) (hP : P ≠ "") :
    ∀ (ms : List ClientMsg) (inp : Option File) (T : Bytes),
      (∀ m ∈ ms, m.Op = FileNewData) →
      ∃ inp1 : Option File,
        serverRun tmp (Function.update fs t (some T)) (inReceive st0 P inp t) ms =
          .ok (Function.update fs t (some (T ++ (ms.map (fun m => m.Data)).flatten)),
               inReceive st0 P inp1 t) ∧
        (inp = none → inp1 = none) := by
  intro ms
  induction ms with
  | nil =>
    intro inp T _
    exact ⟨inp, by simp [serverRun], id⟩
  | cons m ms ih =>
    intro inp T h
    have hm := h m (List.mem_cons_self _ _)
    obtain ⟨inp1, hrun, hnone⟩ := ih (inp.map (fun f => f.Seek m.Length)) (T ++ m.Data)
      (fun x hx => h x (List.mem_cons_of_mem _ hx))
    refine ⟨inp1, ?_, ?_⟩
    · simp only [serverRun]
      rw [processUpdateMsg_inReceive tmp t _ st0 P inp m hP,
        handleOp_newData fs st0 P t inp T m hm]
      simp only [hrun, List.map_cons, List.flatten_cons, List.append_assoc]
    · intro hi
      exact hnone (by simp [hi])

/-! ### The client's replies, message by message -/

theorem enterProcessing_serving (fs : Dir) (P : String) (S : Int) (C : Bytes) (p : Nat)
    (msg : ServerMsg) (hf : msg.File = P) (hs : msg.SeqNo = S) :
    enterProcessing fs (serving P S C p) msg = serving P S C p := by
  simp [enterProcessing, serving, hf, hs]

theorem enterProcessing_fresh (fs : Dir) (st : FileSyncState) (P : String) (S : Int)
    (C : Bytes) (msg : ServerMsg) (hf : msg.File = P) (hs : msg.SeqNo = S)
    (hnew : st.name ≠ P ∨ st.seqNo ≠ S) (hC : fs P = some C) :
    enterProcessing fs st msg = serving P S C 0 := by
  simp [enterProcessing, serving, hf, hs, hnew, startNextFileProcessing, osOpen, hC]

theorem enterProcessing_idem (fs : Dir) (st : FileSyncState) (msg : ServerMsg) :
    enterProcessing fs (enterProcessing fs st msg) msg = enterProcessing fs st msg := by
  unfold enterProcessing
  by_cases h : st.name ≠ msg.File ∨ st.seqNo ≠ msg.SeqNo
  · simp [h, startNextFileProcessing]
  · simp [h]

theorem processServerMsg_enter [Runtime] (md5 : Bytes → Digest) (fuel : Nat) (fs : Dir)
    (st : FileSyncState) (msg : ServerMsg) :
    processServerMsg md5 fuel fs st msg =
      processServerMsg md5 fuel fs (enterProcessing fs st msg) msg := by
  unfold processServerMsg
  rw [enterProcessing_idem]

theorem clientRun_enter [Runtime] (md5 : Bytes → Digest) (fuel : Nat) (fs : Dir)
    (st : FileSyncState) (m : ServerMsg) (ms : List ServerMsg) :
    clientRun md5 fuel fs st (m :: ms) =
      clientRun md5 fuel fs (enterProcessing fs st m) (m :: ms) := by
  simp only [clientRun]
  rw [processServerMsg_enter]

theorem clientRun_append [Runtime] (md5 : Bytes → Digest) (fuel : Nat) (fs : Dir) :
    ∀ (a b : List ServerMsg) (st : FileSyncState),
      clientRun md5 fuel fs st (a ++ b) =
        match clientRun md5 fuel fs st a with
        | .ok r =>
          match clientRun md5 fuel fs r.1 b with
          | .ok r1 => .ok (r1.1, r.2 ++ r1.2)
          | .error e => .error e
        | .error e => .error e := by
  intro a
  induction a with
  | nil =>
    intro b st
    simp only [List.nil_append, clientRun, List.nil_append]
    cases clientRun md5 fuel fs st b <;> rfl
  | cons m ms ih =>
    intro b st
    rw [List.cons_append]
    simp only [clientRun]
    cases processServerMsg md5 fuel fs st m with
    | error e => rfl
    | ok r =>
      simp only []
      rw [ih b r.1]
      cases clientRun md5 fuel fs r.1 ms with
      | error e => rfl
      | ok r1 =>
        simp only []
        cases clientRun md5 fuel fs r1.1 b with
        | error e => rfl
        | ok r2 => simp [List.append_assoc]

/-- A chunk of at most 4096 bytes is within what `make` allocates. -/
theorem take_length_le_maxAlloc [Runtime] (l : Bytes) :
    ((l.take 4096).length : Int) ≤ (Runtime.maxAlloc : Int) := by
  have h1 : (l.take 4096).length ≤ 4096 := by
    rw [List.length_take]; exact Nat.min_le_left _ _
  have h2 := Runtime.fixedFits
  omega

/-- The reply to a hash message of a chunk, in a state serving its job. -/
theorem processServerMsg_chunk [Runtime] (md5 : Bytes → Digest) (fuel : Nat) (fs : Dir) (P : String)
    (S : Int) (C : Bytes) (p : Nat) (msg : ServerMsg) (hf : msg.File = P) (hs : msg.SeqNo = S)
    (hlast : msg.Last = false) (hL : 0 < msg.Length)
    (hA : msg.Length ≤ (Runtime.maxAlloc : Int)) :
    processServerMsg md5 fuel fs (serving P S C p) msg =
      .ok (serving P S C (p + ((C.drop p).take msg.Length.toNat).length),
           if ((C.drop p).take msg.Length.toNat).length = 0 then []
           else if (((C.drop p).take msg.Length.toNat).length : Int) = msg.Length ∧
               md5 ((C.drop p).take msg.Length.toNat) = msg.Hash then
             [{ File := P, Op := FileReuseData, SeqNo := S, Length := msg.Length, Data := [] }]
           else
             [{ File := P, Op := FileNewData, SeqNo := S, Length := msg.Length,
                Data := (C.drop p).take msg.Length.toNat }]) := by
  unfold processServerMsg
  rw [enterProcessing_serving fs P S C p msg hf hs]
  have := processChunk_alloc md5 (serving P S C p) msg { data := C, pos := p } rfl hL.le hA
    (by rw [hs]; rfl)
  simp only [serving] at this ⊢
  simp only [this, hlast, hf, hs]
  simp

theorem finishFileProcessing_eof (fuel : Nat) (P : String) (S : Int) (C : Bytes) (p : Nat)
    (msg : ServerMsg) (h : C.length ≤ p) :
    finishFileProcessing (fuel + 1) (serving P S C p) msg =
      .ok (serving P S C p, [endMsg S msg.File]) := by
  simp [finishFileProcessing, serving, File.Read_eof, File.Read_handle, h,
    List.drop_eq_nil_of_le h]

theorem finishFileProcessing_step (fuel : Nat) (P : String) (S : Int) (C : Bytes) (p : Nat)
    (msg : ServerMsg) (h : p < C.length) :
    finishFileProcessing (fuel + 1) (serving P S C p) msg =
      match finishFileProcessing fuel (serving P S C (p + ((C.drop p).take 4096).length)) msg with
      | .ok r1 => .ok (r1.1, newDataMsg S msg.File ((C.drop p).take 4096) :: r1.2)
      | .error e => .error e := by
  simp [finishFileProcessing, serving, File.Read_eof, File.Read_bytes, File.Read_handle,
    not_le.mpr h]

/-- The drain of `finishFileProcessing`: one `NewData` per chunk of what is
left of the file, then `End`. -/
theorem finishFileProcessing_drain (P : String) (S : Int) (C : Bytes) (msg : ServerMsg) :
    ∀ (fuel p : Nat), C.length - p < fuel →
      ∃ (chunks : List Bytes) (p1 : Nat),
        finishFileProcessing fuel (serving P S C p) msg =
          .ok (serving P S C p1, chunks.map (newDataMsg S msg.File) ++ [endMsg S msg.File]) ∧
        chunks.flatten = C.drop p ∧
        (∀ c ∈ chunks, 0 < c.length ∧ c.length ≤ 4096) := by
  intro fuel
  induction fuel with
  | zero => intro p h; omega
  | succ fuel ih =>
    intro p hfuel
    by_cases hp : C.length ≤ p
    · refine ⟨[], p, ?_, ?_, ?_⟩
      · rw [finishFileProcessing_eof fuel P S C p msg hp]; rfl
      · simp [List.drop_eq_nil_of_le hp]
      · simp
    · have hlt : p < C.length := not_le.mp hp
      have hlen : ((C.drop p).take 4096).length = min 4096 (C.length - p) := by
        simp [List.length_take, List.length_drop]
      obtain ⟨cs, p1, hrun, hjoin, hsize⟩ :=
        ih (p + ((C.drop p).take 4096).length) (by omega)
      refine ⟨((C.drop p).take 4096) :: cs, p1, ?_, ?_, ?_⟩
      · rw [finishFileProcessing_step fuel P S C p msg hlt, hrun]; rfl
      · simp only [List.flatten_cons, hjoin]
        rw [← List.drop_drop]
        exact take_append_drop_take_length 4096 (C.drop p)
      · intro c hc
        rcases List.mem_cons.mp hc with rfl | hc
        · rw [hlen]; omega
        · exact hsize c hc

theorem map_data_newDataMsg (S : Int) (P : String) (chunks : List Bytes) :
    ((chunks.map (newDataMsg S P)).map (fun m => m.Data)).flatten = chunks.flatten := by
  rw [List.map_map]
  have : ((fun m : ClientMsg => m.Data) ∘ newDataMsg S P) = id := by
    funext c; rfl
  rw [this, List.map_id]

/-- The reply to the last message of a hash stream, in a state serving its
job: the drain. -/
theorem processServerMsg_last [Runtime] (md5 : Bytes → Digest) (fuel : Nat) (fs : Dir) (P : String)
    (S : Int) (C : Bytes) (p : Nat) :
    processServerMsg md5 fuel fs (serving P S C p) (lastMsg { name := P, seqNo := S }) =
      finishFileProcessing fuel (serving P S C p) (lastMsg { name := P, seqNo := S }) := by
  unfold processServerMsg
  rw [enterProcessing_serving fs P S C p _ rfl rfl]
  have hc : processChunk md5 (serving P S C p) (lastMsg { name := P, seqNo := S }) =
      .ok (serving P S C p, []) := by
    simp [processChunk, lastMsg, serving, File.Read]
  simp only [hc]
  simp only [serving, lastMsg, Option.isSome_some, if_true, List.nil_append]
  cases finishFileProcessing fuel _ _ <;> rfl

/-! ### A whole job on the server -/

theorem inReceive_inputFile_inj {st0 : state} {P t : String} {a b : Option File}
    (h : inReceive st0 P a t = inReceive st0 P b t) : a = b := by
  have := congrArg state.inputFile h
  simpa [inReceive] using this

/-- The messages of a job handled from an idle state: the first one starts
the receive, and the configuration in which the switch on the next message
runs is the one reached from the configuration of a started receive. -/
theorem serverRun_job [Runtime] (tmp : String) (fs : Dir) (st : state) (P : String)
    (body : List ClientMsg) (T : Bytes) (inp : Option File)
    (hP : P ≠ "") (hidle : st.fileName = "") (hfile : ∀ m ∈ body, m.File = P)
    (hrun : serverRun tmp (Function.update fs tmp (some []))
        (inReceive st P (osOpen fs P) tmp) body =
      .ok (Function.update fs tmp (some T), inReceive st P inp tmp)) :
    (∃ w, serverRun tmp fs st body = .ok w ∧
      ∀ r : ClientMsg, r.File = P →
        enterReception tmp w.1 w.2 r =
          (Function.update fs tmp (some T), inReceive st P inp tmp)) ∧
    (∀ e : ClientMsg, e.File = P → e.Op = FileEnd → tmp ≠ P →
      serverRun tmp fs st (body ++ [e]) =
        .ok (if st.latestFileSeq P = some e.SeqNo
              then Function.update (Function.update fs tmp none) P (some T)
              else Function.update fs tmp none,
             { st with fileName := "", inputFile := none, tempFile := none })) := by
  cases body with
  | nil =>
    simp only [serverRun, Except.ok.injEq, Prod.mk.injEq] at hrun
    have hT : T = [] := by
      have := congrFun hrun.1 tmp
      simpa using this.symm
    have hinp : inp = osOpen fs P := (inReceive_inputFile_inj hrun.2).symm
    subst hT hinp
    constructor
    · refine ⟨(fs, st), rfl, ?_⟩
      intro r hr
      rw [enterReception_idle tmp fs st r hidle, hr]
    · intro e he hop hne
      simp only [List.nil_append, serverRun]
      rw [processUpdateMsg_idle tmp fs st e hidle, he,
        handleOp_end_inReceive fs st P tmp _ [] e hne hop]
  | cons m ms =>
    have hm : m.File = P := hfile m (List.mem_cons_self _ _)
    have hidle_run : ∀ l, serverRun tmp fs st (m :: l) =
        serverRun tmp (Function.update fs tmp (some []))
          (inReceive st P (osOpen fs P) tmp) (m :: l) := by
      intro l
      rw [serverRun_idle_cons tmp fs st m l hidle (by rw [hm]; exact hP), hm]
    constructor
    · refine ⟨_, (hidle_run ms).trans hrun, ?_⟩
      intro r _
      exact enterReception_inReceive tmp tmp _ st P inp r hP
    · intro e he hop hne
      rw [List.cons_append, hidle_run, ← List.cons_append, serverRun_append, hrun]
      simp only [serverRun]
      rw [processUpdateMsg_inReceive tmp tmp _ st P inp e hP,
        handleOp_end_inReceive fs st P tmp inp T e hne hop]

/-- C8: when the server has no copy of `P` and the client's file `P` holds
`C`, the hash stream is the single message with length 0 and `Last = true`,
the client's reply stream is a sequence of `NewData` messages, each with
between 1 and 4096 bytes of data, whose data concatenated is `C`, followed by
one `End` for the job; handled by the server these leave `C` in the temp file
when `End` is reached, which is then renamed onto `dir/P` if the job is still
the latest. -/
theorem bootstrap_drain [Runtime] (md5 : Bytes → Digest) (fuel : Nat) (fsS fsC : Dir) (stS : state)
    (stC : FileSyncState) (tmp P : String) (S : Int) (C : Bytes)
    (hP : P ≠ "") (hidle : stS.fileName = "") (htmp : tmp ≠ P)
    (habs : fsS P = none) (hC : fsC P = some C)
    (hnew : stC.name ≠ P ∨ stC.seqNo ≠ S) (hfuel : C.length < fuel) :
    serverHashSender md5 fuel fsS { name := P, seqNo := S } =
      .ok [{ File := P, SeqNo := S, Length := 0, Last := true, Hash := Digest.zero }] ∧
    ∃ (chunks : List Bytes) (stC1 : FileSyncState),
      clientRun md5 fuel fsC stC
          [{ File := P, SeqNo := S, Length := 0, Last := true, Hash := Digest.zero }] =
        .ok (stC1, chunks.map (newDataMsg S P) ++ [endMsg S P]) ∧
      chunks.flatten = C ∧
      (∀ c ∈ chunks, 0 < c.length ∧ c.length ≤ 4096) ∧
      (∃ w, serverRun tmp fsS stS (chunks.map (newDataMsg S P)) = .ok w ∧
          (enterReception tmp w.1 w.2 (endMsg S P)).1 tmp = some C) ∧
      serverRun tmp fsS stS (chunks.map (newDataMsg S P) ++ [endMsg S P]) =
        .ok (if stS.latestFileSeq P = some S
              then Function.update (Function.update fsS tmp none) P (some C)
              else Function.update fsS tmp none,
             { stS with fileName := "", inputFile := none, tempFile := none }) := by
  constructor
  · simp [serverHashSender, osOpen, habs, lastMsg]
  · obtain ⟨chunks, p1, hfin, hjoin, hsize⟩ :=
      finishFileProcessing_drain P S C (lastMsg { name := P, seqNo := S }) fuel 0
        (by simpa using hfuel)
    rw [List.drop_zero] at hjoin
    have hbody : ∀ m ∈ chunks.map (newDataMsg S P), m.Op = FileNewData ∧ m.File = P := by
      intro m hm
      obtain ⟨c, _, rfl⟩ := List.mem_map.mp hm
      exact ⟨rfl, rfl⟩
    obtain ⟨inp1, hsrv, _⟩ := serverRun_newData tmp tmp fsS stS P hP
      (chunks.map (newDataMsg S P)) (osOpen fsS P) [] (fun m hm => (hbody m hm).1)
    rw [List.nil_append, map_data_newDataMsg, hjoin] at hsrv
    obtain ⟨⟨w, hw, henter⟩, hend⟩ := serverRun_job tmp fsS stS P _ C inp1 hP hidle
      (fun m hm => (hbody m hm).2) hsrv
    refine ⟨chunks, serving P S C p1, ?_, hjoin, hsize, ⟨w, hw, ?_⟩, ?_⟩
    · have hl : (ServerMsg.mk P true S 0 Digest.zero) = lastMsg { name := P, seqNo := S } := rfl
      rw [hl, clientRun_enter,
        enterProcessing_fresh fsC stC P S C _ rfl rfl hnew hC]
      simp only [clientRun]
      rw [processServerMsg_last, hfin]
      simp [lastMsg]
    · rw [henter _ rfl]
      simp
    · exact hend _ rfl rfl htmp

/-! ### A job on both sides: one hash message at a time -/

theorem take_take_length {α : Type} (k : Nat) (l : List α) :
    l.take (l.take k).length = l.take k := by
  rcases Nat.le_total k l.length with h | h
  · rw [List.length_take, Nat.min_eq_left h]
  · rw [List.take_of_length_le h, List.take_length]

theorem take_append_take_drop {α : Type} (n k : Nat) (l : List α) :
    l.take n ++ (l.drop n).take k = l.take (n + ((l.drop n).take k).length) := by
  rw [List.take_add, take_take_length]

theorem File.Seek_natCast (f : File) (n : Nat) :
    f.Seek (n : Int) = { f with pos := f.pos + n } := by
  unfold File.Seek
  have h : (0 : Int) ≤ (f.pos : Int) + (n : Int) := by omega
  rw [if_pos h]
  congr 1

/-- One hash message of a chunk handled by the client, and its reply handled
by the server.  `p` is the offset of the chunk in the server's copy `O`, `cp`
the client's cursor in `C`, `sp` the cursor of the server's input file and `T`
the content of the temp file. -/
theorem joint_step [Runtime] (md5 : Bytes → Digest) (fuel : Nat) (fsC fs : Dir) (st0 : state)
    (tmp t P : String) (S : Int) (O C : Bytes) (hP : P ≠ "") (p cp sp : Nat) (T : Bytes)
    (hp : p < O.length) (hcp : cp = min p C.length) (hsp : cp < C.length → sp = p) :
    ∃ (outs : List ClientMsg) (sp1 : Nat) (T1 : Bytes),
      processServerMsg md5 fuel fsC (serving P S C cp)
          (hashMsg md5 { name := P, seqNo := S } ((O.drop p).take 4096)) =
        .ok (serving P S C (min (p + ((O.drop p).take 4096).length) C.length), outs) ∧
      serverRun tmp (Function.update fs t (some T))
          (inReceive st0 P (some { data := O, pos := sp }) t) outs =
        .ok (Function.update fs t (some T1),
             inReceive st0 P (some { data := O, pos := sp1 }) t) ∧
      (min (p + ((O.drop p).take 4096).length) C.length < C.length →
        sp1 = p + ((O.drop p).take 4096).length) ∧
      (∀ m ∈ outs, m.File = P ∧ m.SeqNo = S ∧ (m.Op = FileNewData ∨ m.Op = FileReuseData)) ∧
      ((((C.drop p).take ((O.drop p).take 4096).length).length =
            ((O.drop p).take 4096).length →
          md5 ((C.drop p).take ((O.drop p).take 4096).length) = md5 ((O.drop p).take 4096) →
          (C.drop p).take ((O.drop p).take 4096).length = (O.drop p).take 4096) →
        T = C.take cp → T1 = C.take (min (p + ((O.drop p).take 4096).length) C.length)) ∧
      (∀ r ∈ outs, r.Op = FileReuseData →
        outs = [r] ∧ sp = cp ∧ r.Length = (((O.drop p).take 4096).length : Int) ∧
        ((C.drop cp).take r.Length.toNat).length = r.Length.toNat ∧
        ((O.drop sp).take r.Length.toNat).length = r.Length.toNat ∧
        md5 ((O.drop sp).take r.Length.toNat) = md5 ((C.drop cp).take r.Length.toNat) ∧
        T1 = T ++ (O.drop sp).take r.Length.toNat ∧
        sp1 = sp + r.Length.toNat) := by
  have hLlen : ((O.drop p).take 4096).length = min 4096 (O.length - p) := by
    simp [List.length_take, List.length_drop]
  have hLpos : 0 < ((O.drop p).take 4096).length := by rw [hLlen]; omega
  have hchunk : (O.drop p).take ((O.drop p).take 4096).length = (O.drop p).take 4096 :=
    take_take_length 4096 (O.drop p)
  have hA := take_length_le_maxAlloc (O.drop p)
  generalize hck : (O.drop p).take 4096 = chunk at *
  have hBlen : ((C.drop cp).take chunk.length).length = min chunk.length (C.length - cp) := by
    simp [List.length_take, List.length_drop]
  have hmsg := processServerMsg_chunk md5 fuel fsC P S C cp
    (hashMsg md5 { name := P, seqNo := S } chunk) rfl rfl rfl
    (by simp only [hashMsg]; omega) (by simp only [hashMsg]; exact hA)
  have hcp1 : cp + ((C.drop cp).take chunk.length).length = min (p + chunk.length) C.length := by
    rw [hBlen]; omega
  simp only [hashMsg, Int.toNat_ofNat, Nat.cast_inj] at hmsg
  rw [hcp1] at hmsg
  by_cases hB0 : ((C.drop cp).take chunk.length).length = 0
  · -- the client is at the end of its file: no reply
    rw [if_pos hB0] at hmsg
    refine ⟨[], sp, T, hmsg, rfl, ?_, by simp, ?_, by simp⟩
    · intro h; omega
    · intro _ hT
      have : min (p + chunk.length) C.length = cp := by omega
      rw [this]; exact hT
  · have hcpC : cp < C.length := by
      rw [hBlen] at hB0; omega
    have hcpp : cp = p := by omega
    have hspp : sp = p := hsp hcpC
    rw [if_neg hB0] at hmsg
    by_cases hm : ((C.drop cp).take chunk.length).length = chunk.length ∧
        md5 ((C.drop cp).take chunk.length) = md5 chunk
    · -- the chunk is reused
      rw [if_pos hm] at hmsg
      have hsrv : serverRun tmp (Function.update fs t (some T))
          (inReceive st0 P (some { data := O, pos := sp }) t)
          [{ File := P, Op := FileReuseData, SeqNo := S, Length := (chunk.length : Int),
             Data := [] }] =
          .ok (Function.update fs t (some (T ++ chunk)),
               inReceive st0 P (some { data := O, pos := sp + chunk.length }) t) := by
        simp only [serverRun]
        rw [processUpdateMsg_inReceive tmp t _ st0 P _ _ hP,
          handleOp_reuse fs st0 P t { data := O, pos := sp } T _ rfl (by simp)
            (by simp only []; exact hA) (by simp only []; omega) (by simp only []; omega)]
        simp [hspp, hchunk]
      refine ⟨_, sp + chunk.length, T ++ chunk, hmsg, hsrv, ?_, ?_, ?_, ?_⟩
      · intro _; omega
      · intro m hm1
        rw [List.mem_singleton] at hm1
        subst hm1
        exact ⟨rfl, rfl, Or.inr rfl⟩
      · intro hcoll hT
        rw [hcpp] at hm
        have hBc := hcoll hm.1 hm.2
        rw [← hcp1, hT, hcpp, ← take_append_take_drop, hBc]
      · intro r hr _
        rw [List.mem_singleton] at hr
        subst hr
        refine ⟨rfl, by omega, rfl, ?_, ?_, ?_, ?_, ?_⟩
        · simp only [Int.toNat_ofNat]; exact hm.1
        · simp only [Int.toNat_ofNat]; rw [hspp, hchunk]
        · simp only [Int.toNat_ofNat]; rw [hspp, hchunk]; exact hm.2.symm
        · simp only [Int.toNat_ofNat]; rw [hspp, hchunk]
        · simp only [Int.toNat_ofNat]
    · -- the bytes read are sent as new data
      rw [if_neg hm] at hmsg
      have hsrv : serverRun tmp (Function.update fs t (some T))
          (inReceive st0 P (some { data := O, pos := sp }) t)
          [{ File := P, Op := FileNewData, SeqNo := S, Length := (chunk.length : Int),
             Data := (C.drop cp).take chunk.length }] =
          .ok (Function.update fs t (some (T ++ (C.drop cp).take chunk.length)),
               inReceive st0 P (some { data := O, pos := sp + chunk.length }) t) := by
        simp only [serverRun]
        rw [processUpdateMsg_inReceive tmp t _ st0 P _ _ hP,
          handleOp_newData fs st0 P t _ T _ rfl]
        simp [File.Seek_natCast]
      refine ⟨_, sp + chunk.length, T ++ (C.drop cp).take chunk.length, hmsg, hsrv,
        ?_, ?_, ?_, ?_⟩
      · intro _; omega
      · intro m hm1
        rw [List.mem_singleton] at hm1
        subst hm1
        exact ⟨rfl, rfl, Or.inl rfl⟩
      · intro _ hT
        rw [← hcp1, hT]
        exact take_append_take_drop cp chunk.length C
      · intro r hr hop
        rw [List.mem_singleton] at hr
        subst hr
        simp at hop

theorem NoCollisionAt_of_le (md5 : Bytes → Digest) (O C : Bytes) (q : Nat)
    (h : O.length ≤ q) : NoCollisionAt md5 O C q := by
  intro _ _
  simp [List.drop_eq_nil_of_le h]

theorem NoCollisionAt_shift (md5 : Bytes → Digest) (O C : Bytes) (p : Nat)
    (h : ∀ j, NoCollisionAt md5 O C (p + 4096 * j)) :
    ∀ j, NoCollisionAt md5 O C (p + ((O.drop p).take 4096).length + 4096 * j) := by
  intro j
  have hLlen : ((O.drop p).take 4096).length = min 4096 (O.length - p) := by
    simp [List.length_take, List.length_drop]
  by_cases hfull : 4096 ≤ O.length - p
  · have := h (j + 1)
    have he : p + ((O.drop p).take 4096).length + 4096 * j = p + 4096 * (j + 1) := by
      rw [hLlen]; omega
    rw [he]; exact this
  · exact NoCollisionAt_of_le md5 O C _ (by rw [hLlen]; omega)

/-- The hash messages of the chunks of `O` from offset `p` on, handled by the
client one after the other and the replies handled by the server: after every
prefix of the hash stream the cursors of both sides are aligned, and the temp
file holds what the client has read of `C` if no compared chunks collide. -/
theorem joint_prefix [Runtime] (md5 : Bytes → Digest) (fuel : Nat) (fsC fs : Dir) (st0 : state)
    (tmp t P : String) (S : Int) (O C : Bytes) (hP : P ≠ "") :
    ∀ (hfuel p cp sp : Nat) (T : Bytes), O.length - p < hfuel → cp = min p C.length →
      (cp < C.length → sp = p) →
      ∃ hs, hashLoop md5 { name := P, seqNo := S } hfuel { data := O, pos := p } = .ok hs ∧
        ∀ pre post, hs = pre ++ post →
          ∃ (q cq sq hf1 : Nat) (Tq : Bytes) (outs : List ClientMsg),
            clientRun md5 fuel fsC (serving P S C cp) pre = .ok (serving P S C cq, outs) ∧
            serverRun tmp (Function.update fs t (some T))
                (inReceive st0 P (some { data := O, pos := sp }) t) outs =
              .ok (Function.update fs t (some Tq),
                   inReceive st0 P (some { data := O, pos := sq }) t) ∧
            cq = min q C.length ∧ (cq < C.length → sq = q) ∧
            hashLoop md5 { name := P, seqNo := S } hf1 { data := O, pos := q } = .ok post ∧
            O.length - q < hf1 ∧
            (∀ m ∈ outs, m.File = P ∧ m.SeqNo = S ∧
              (m.Op = FileNewData ∨ m.Op = FileReuseData)) ∧
            ((∀ j, NoCollisionAt md5 O C (p + 4096 * j)) → T = C.take cp → Tq = C.take cq) := by
  intro hfuel
  induction hfuel with
  | zero => intro p cp sp T h; omega
  | succ n ih =>
    intro p cp sp T hfu hcp hsp
    by_cases hp : O.length ≤ p
    · refine ⟨[], hashLoop_eof md5 _ n { data := O, pos := p } hp, ?_⟩
      intro pre post hsplit
      have hpre : pre = [] := (List.append_eq_nil.mp hsplit.symm).1
      have hpost : post = [] := (List.append_eq_nil.mp hsplit.symm).2
      subst hpre hpost
      exact ⟨p, cp, sp, n + 1, T, [], rfl, rfl, hcp, hsp,
        hashLoop_eof md5 _ n { data := O, pos := p } hp, hfu, by simp, fun _ h => h⟩
    · have hlt : p < O.length := not_le.mp hp
      have hLlen : ((O.drop p).take 4096).length = min 4096 (O.length - p) := by
        simp [List.length_take, List.length_drop]
      obtain ⟨outs0, sp1, T1, hcl, hsv, hsp1, hmem0, hcont0, _⟩ :=
        joint_step md5 fuel fsC fs st0 tmp t P S O C hP p cp sp T hlt hcp hsp
      obtain ⟨hs1, hrun1, hpref1⟩ := ih (p + ((O.drop p).take 4096).length)
        (min (p + ((O.drop p).take 4096).length) C.length) sp1 T1 (by omega) rfl hsp1
      have hrun : hashLoop md5 { name := P, seqNo := S } (n + 1) { data := O, pos := p } =
          .ok (hashMsg md5 { name := P, seqNo := S } ((O.drop p).take 4096) :: hs1) := by
        rw [hashLoop_step md5 _ n { data := O, pos := p } hlt]
        simp only [hrun1]
      refine ⟨_, hrun, ?_⟩
      intro pre post hsplit
      cases pre with
      | nil =>
        rw [List.nil_append] at hsplit
        subst hsplit
        exact ⟨p, cp, sp, n + 1, T, [], rfl, rfl, hcp, hsp, hrun, hfu, by simp, fun _ h => h⟩
      | cons a pre1 =>
        rw [List.cons_append] at hsplit
        have ha : a = hashMsg md5 { name := P, seqNo := S } ((O.drop p).take 4096) :=
          (List.cons.inj hsplit).1.symm
        have hrest : hs1 = pre1 ++ post := (List.cons.inj hsplit).2
        subst ha
        obtain ⟨q, cq, sq, hf1, Tq, outs1, hcl1, hsv1, hcq, hsq, hpost, hfq, hmem1, hcont1⟩ :=
          hpref1 pre1 post hrest
        refine ⟨q, cq, sq, hf1, Tq, outs0 ++ outs1, ?_, ?_, hcq, hsq, hpost, hfq, ?_, ?_⟩
        · simp only [clientRun, hcl, hcl1]
        · rw [serverRun_append, hsv]
          exact hsv1
        · intro m hm
          rcases List.mem_append.mp hm with h | h
          · exact hmem0 m h
          · exact hmem1 m h
        · intro hcoll hT
          have h0 := hcoll 0
          rw [Nat.mul_zero, Nat.add_zero] at h0
          exact hcont1 (NoCollisionAt_shift md5 O C p hcoll) (hcont0 h0 hT)

/-! ### A job from the first hash message to `End` -/

theorem hashLoop_mem (md5 : Bytes → Digest) (sync : fileToSync) (fuel : Nat) (f : File)
    (hs : List ServerMsg) (hfuel : f.data.length - f.pos < fuel)
    (h : hashLoop md5 sync fuel f = .ok hs) :
    ∀ m ∈ hs, m.File = sync.name ∧ m.SeqNo = sync.seqNo ∧ m.Last = false ∧ 0 < m.Length := by
  obtain ⟨cs, hrun, _, hsize, _⟩ := hashLoop_chunks md5 sync fuel f hfuel
  rw [hrun] at h
  cases h
  intro m hm
  obtain ⟨c, hc, rfl⟩ := List.mem_map.mp hm
  refine ⟨rfl, rfl, rfl, ?_⟩
  have := (hsize c hc).1
  simp only [hashMsg]
  omega

theorem clientRun_fresh [Runtime] (md5 : Bytes → Digest) (fuel : Nat) (fs : Dir) (st : FileSyncState)
    (P : String) (S : Int) (C : Bytes) (m : ServerMsg) (ms : List ServerMsg)
    (hf : m.File = P) (hs : m.SeqNo = S) (hnew : st.name ≠ P ∨ st.seqNo ≠ S)
    (hC : fs P = some C) :
    clientRun md5 fuel fs st (m :: ms) = clientRun md5 fuel fs (serving P S C 0) (m :: ms) := by
  rw [clientRun_enter, enterProcessing_fresh fs st P S C m hf hs hnew hC,
    clientRun_enter md5 fuel fs (serving P S C 0), enterProcessing_serving fs P S C 0 m hf hs]

/-- The end of a job: the last message of the hash stream makes the client
drain its file and send `End`; on the server the temp file then holds `C`. -/
theorem job_finish [Runtime] (md5 : Bytes → Digest) (fuel : Nat) (fsC fsS : Dir) (stS : state)
    (stC : FileSyncState) (tmp P : String) (S : Int) (C : Bytes)
    (hs : List ServerMsg) (outs : List ClientMsg) (cq : Nat) (inp : Option File)
    (hP : P ≠ "") (hidle : stS.fileName = "") (htmp : tmp ≠ P) (hC : fsC P = some C)
    (hnew : stC.name ≠ P ∨ stC.seqNo ≠ S) (hfuel : C.length < fuel)
    (hhs : ∀ m ∈ hs, m.File = P ∧ m.SeqNo = S)
    (hcl : clientRun md5 fuel fsC (serving P S C 0) hs = .ok (serving P S C cq, outs))
    (hsv : serverRun tmp (Function.update fsS tmp (some []))
        (inReceive stS P (osOpen fsS P) tmp) outs =
      .ok (Function.update fsS tmp (some (C.take cq)), inReceive stS P inp tmp))
    (hmem : ∀ m ∈ outs, m.File = P ∧ m.SeqNo = S ∧
      (m.Op = FileNewData ∨ m.Op = FileReuseData)) :
    ∃ (rest : List Bytes) (stC1 : FileSyncState),
      rest.flatten = C.drop cq ∧ (∀ c ∈ rest, 0 < c.length ∧ c.length ≤ 4096) ∧
      clientRun md5 fuel fsC stC (hs ++ [lastMsg { name := P, seqNo := S }]) =
        .ok (stC1, (outs ++ rest.map (newDataMsg S P)) ++ [endMsg S P]) ∧
      (∀ m ∈ outs ++ rest.map (newDataMsg S P),
        m.File = P ∧ m.SeqNo = S ∧ (m.Op = FileNewData ∨ m.Op = FileReuseData)) ∧
      (∃ w, serverRun tmp fsS stS (outs ++ rest.map (newDataMsg S P)) = .ok w ∧
        (enterReception tmp w.1 w.2 (endMsg S P)).1 tmp = some C) ∧
      serverRun tmp fsS stS ((outs ++ rest.map (newDataMsg S P)) ++ [endMsg S P]) =
        .ok (if stS.latestFileSeq P = some S
              then Function.update (Function.update fsS tmp none) P (some C)
              else Function.update fsS tmp none,
             { stS with fileName := "", inputFile := none, tempFile := none }) := by
  obtain ⟨chunks, p1, hfin, hjoin, hsize⟩ :=
    finishFileProcessing_drain P S C (lastMsg { name := P, seqNo := S }) fuel cq (by omega)
  have hbody : ∀ m ∈ chunks.map (newDataMsg S P),
      m.Op = FileNewData ∧ m.File = P ∧ m.SeqNo = S := by
    intro m hm
    obtain ⟨c, _, rfl⟩ := List.mem_map.mp hm
    exact ⟨rfl, rfl, rfl⟩
  obtain ⟨inp1, hdrain, _⟩ := serverRun_newData tmp tmp fsS stS P hP
    (chunks.map (newDataMsg S P)) inp (C.take cq) (fun m hm => (hbody m hm).1)
  rw [map_data_newDataMsg, hjoin, List.take_append_drop] at hdrain
  have hvirt : serverRun tmp (Function.update fsS tmp (some []))
      (inReceive stS P (osOpen fsS P) tmp) (outs ++ chunks.map (newDataMsg S P)) =
      .ok (Function.update fsS tmp (some C), inReceive stS P inp1 tmp) := by
    rw [serverRun_append, hsv]
    exact hdrain
  have hall : ∀ m ∈ outs ++ chunks.map (newDataMsg S P),
      m.File = P ∧ m.SeqNo = S ∧ (m.Op = FileNewData ∨ m.Op = FileReuseData) := by
    intro m hm
    rcases List.mem_append.mp hm with h | h
    · exact hmem m h
    · exact ⟨(hbody m h).2.1, (hbody m h).2.2, Or.inl (hbody m h).1⟩
  obtain ⟨⟨w, hw, henter⟩, hend⟩ := serverRun_job tmp fsS stS P _ C inp1 hP hidle
    (fun m hm => (hall m hm).1) hvirt
  have hlast : clientRun md5 fuel fsC (serving P S C 0)
      (hs ++ [lastMsg { name := P, seqNo := S }]) =
      .ok (serving P S C p1, (outs ++ chunks.map (newDataMsg S P)) ++ [endMsg S P]) := by
    rw [clientRun_append, hcl]
    simp only [clientRun]
    rw [processServerMsg_last, hfin]
    simp [lastMsg]
  refine ⟨chunks, serving P S C p1, hjoin, hsize, ?_, hall, ⟨w, hw, ?_⟩, ?_⟩
  · cases hs with
    | nil =>
      rw [List.nil_append] at hlast ⊢
      rw [clientRun_fresh md5 fuel fsC stC P S C _ [] rfl rfl hnew hC]
      exact hlast
    | cons m ms =>
      have hm := hhs m (List.mem_cons_self _ _)
      rw [List.cons_append] at hlast ⊢
      rw [clientRun_fresh md5 fuel fsC stC P S C m _ hm.1 hm.2 hnew hC]
      exact hlast
  · rw [henter _ rfl]
    simp
  · exact hend _ rfl rfl htmp

/-- C2: one job on unchanging files.  The server's directory holds `O` under
`P` or nothing, the client's holds `C`.  The hash stream produced by
`serverHashSender` is handled message by message by `processServerMsg`, and
every reply is handled in order by `processUpdateMsg`.  Then the reply stream
ends with `End`, and when `End` is handled the temp file holds exactly `C`
(so `dir/P` becomes `C` when the job is still the latest), provided the
chunks that are compared are equal whenever their MD5 is equal. -/
theorem job_end_to_end [Runtime] (md5 : Bytes → Digest) (fuel : Nat) (fsS fsC : Dir) (stS : state)
    (stC : FileSyncState) (tmp P : String) (S : Int) (C : Bytes)
    (hP : P ≠ "") (hidle : stS.fileName = "") (htmp : tmp ≠ P) (hC : fsC P = some C)
    (hnew : stC.name ≠ P ∨ stC.seqNo ≠ S) (hfuelC : C.length < fuel)
    (hfuelO : ∀ O, fsS P = some O → O.length < fuel)
    (hcoll : ∀ O, fsS P = some O → ∀ i, NoCollisionAt md5 O C (4096 * i)) :
    ∃ (hs : List ServerMsg) (body : List ClientMsg) (stC1 : FileSyncState),
      serverHashSender md5 fuel fsS { name := P, seqNo := S } = .ok hs ∧
      clientRun md5 fuel fsC stC hs = .ok (stC1, body ++ [endMsg S P]) ∧
      (∀ m ∈ body, m.File = P ∧ m.SeqNo = S ∧ (m.Op = FileNewData ∨ m.Op = FileReuseData)) ∧
      (∃ w, serverRun tmp fsS stS body = .ok w ∧
        (enterReception tmp w.1 w.2 (endMsg S P)).1 tmp = some C) ∧
      serverRun tmp fsS stS (body ++ [endMsg S P]) =
        .ok (if stS.latestFileSeq P = some S
              then Function.update (Function.update fsS tmp none) P (some C)
              else Function.update fsS tmp none,
             { stS with fileName := "", inputFile := none, tempFile := none }) := by
  cases hO : fsS P with
  | none =>
    obtain ⟨rest, stC1, _, _, h1, h2, h3, h4⟩ :=
      job_finish md5 fuel fsC fsS stS stC tmp P S C [] [] 0 none hP hidle htmp hC hnew hfuelC
        (by simp) rfl (by simp [serverRun, osOpen, hO]) (by simp)
    refine ⟨[lastMsg { name := P, seqNo := S }], _, stC1, ?_, h1, h2, h3, h4⟩
    simp [serverHashSender, osOpen, hO]
  | some O =>
    obtain ⟨hs, hrun, hpref⟩ :=
      joint_prefix md5 fuel fsC fsS stS tmp tmp P S O C hP fuel 0 0 0 []
        (by have := hfuelO O hO; omega) (by simp) (fun _ => rfl)
    obtain ⟨q, cq, sq, hf1, Tq, outs, hcl, hsv, _, _, _, _, hmem, hcont⟩ :=
      hpref hs [] (by simp)
    have hTq : Tq = C.take cq :=
      hcont (by intro j; rw [Nat.zero_add]; exact hcoll O hO j) (by simp)
    rw [hTq] at hsv
    have hopen : osOpen fsS P = some { data := O, pos := 0 } := by simp [osOpen, hO]
    have hhs := hashLoop_mem md5 { name := P, seqNo := S } fuel { data := O, pos := 0 } hs
      (by have := hfuelO O hO; simp only []; omega) hrun
    obtain ⟨rest, stC1, _, _, h1, h2, h3, h4⟩ :=
      job_finish md5 fuel fsC fsS stS stC tmp P S C hs outs cq (some { data := O, pos := sq })
        hP hidle htmp hC hnew hfuelC (fun m hm => ⟨(hhs m hm).1, (hhs m hm).2.1⟩) hcl
        (by rw [hopen]; exact hsv) hmem
    refine ⟨hs ++ [lastMsg { name := P, seqNo := S }], _, stC1, ?_, h1, h2, h3, h4⟩
    simp only [serverHashSender, hopen, hrun]

/-! ### A job on a file that is the same on both sides -/

theorem same_step [Runtime] (md5 : Bytes → Digest) (fuel : Nat) (fsC fs : Dir) (st0 : state)
    (tmp t P : String) (S : Int) (X : Bytes) (hP : P ≠ "") (p : Nat) (T : Bytes)
    (hp : p < X.length) :
    processServerMsg md5 fuel fsC (serving P S X p)
        (hashMsg md5 { name := P, seqNo := S } ((X.drop p).take 4096)) =
      .ok (serving P S X (p + ((X.drop p).take 4096).length),
           [reuseMsg S P (((X.drop p).take 4096).length : Int)]) ∧
    serverRun tmp (Function.update fs t (some T))
        (inReceive st0 P (some { data := X, pos := p }) t)
        [reuseMsg S P (((X.drop p).take 4096).length : Int)] =
      .ok (Function.update fs t (some (T ++ (X.drop p).take 4096)),
           inReceive st0 P
             (some { data := X, pos := p + ((X.drop p).take 4096).length }) t) := by
  have hLlen : ((X.drop p).take 4096).length = min 4096 (X.length - p) := by
    simp [List.length_take, List.length_drop]
  have hLpos : 0 < ((X.drop p).take 4096).length := by rw [hLlen]; omega
  have hchunk : (X.drop p).take ((X.drop p).take 4096).length = (X.drop p).take 4096 :=
    take_take_length 4096 (X.drop p)
  have hA := take_length_le_maxAlloc (X.drop p)
  constructor
  · have hmsg := processServerMsg_chunk md5 fuel fsC P S X p
      (hashMsg md5 { name := P, seqNo := S } ((X.drop p).take 4096)) rfl rfl rfl
      (by simp only [hashMsg]; omega) (by simp only [hashMsg]; exact hA)
    simp only [hashMsg, Int.toNat_ofNat, Nat.cast_inj, hchunk] at hmsg
    rw [if_neg (by omega), if_pos ⟨trivial, trivial⟩] at hmsg
    exact hmsg
  · simp only [serverRun]
    rw [processUpdateMsg_inReceive tmp t _ st0 P _ _ hP,
      handleOp_reuse fs st0 P t { data := X, pos := p } T _ rfl
        (by simp [reuseMsg]) (by simp only [reuseMsg]; exact hA) hp
        (by simp only [reuseMsg]; omega)]
    simp only [reuseMsg, Int.toNat_ofNat, hchunk]

theorem same_run [Runtime] (md5 : Bytes → Digest) (fuel : Nat) (fsC fs : Dir) (st0 : state)
    (tmp t P : String) (S : Int) (X : Bytes) (hP : P ≠ "") :
    ∀ (hfuel p : Nat) (T : Bytes), X.length - p < hfuel → p ≤ X.length →
      ∃ chunks : List Bytes,
        chunks.flatten = X.drop p ∧
        (∀ c ∈ chunks, 0 < c.length ∧ c.length ≤ 4096) ∧
        (∀ c ∈ chunks.dropLast, c.length = 4096) ∧
        hashLoop md5 { name := P, seqNo := S } hfuel { data := X, pos := p } =
          .ok (chunks.map (hashMsg md5 { name := P, seqNo := S })) ∧
        clientRun md5 fuel fsC (serving P S X p)
            (chunks.map (hashMsg md5 { name := P, seqNo := S })) =
          .ok (serving P S X X.length,
               chunks.map (fun c => reuseMsg S P (c.length : Int))) ∧
        serverRun tmp (Function.update fs t (some T))
            (inReceive st0 P (some { data := X, pos := p }) t)
            (chunks.map (fun c => reuseMsg S P (c.length : Int))) =
          .ok (Function.update fs t (some (T ++ X.drop p)),
               inReceive st0 P (some { data := X, pos := X.length }) t) := by
  intro hfuel
  induction hfuel with
  | zero => intro p T h; omega
  | succ n ih =>
    intro p T hfu hple
    by_cases hp : X.length ≤ p
    · have hpe : p = X.length := le_antisymm hple hp
      refine ⟨[], ?_, by simp, by simp, ?_, ?_, ?_⟩
      · simp [List.drop_eq_nil_of_le hp]
      · rw [hashLoop_eof md5 _ n { data := X, pos := p } hp]; rfl
      · simp [clientRun, hpe]
      · simp [serverRun, List.drop_eq_nil_of_le hp, hpe]
    · have hlt : p < X.length := not_le.mp hp
      have hLlen : ((X.drop p).take 4096).length = min 4096 (X.length - p) := by
        simp [List.length_take, List.length_drop]
      obtain ⟨hcl0, hsv0⟩ := same_step md5 fuel fsC fs st0 tmp t P S X hP p T hlt
      obtain ⟨cs, hjoin, hsize, hfull, hrun, hcl, hsv⟩ :=
        ih (p + ((X.drop p).take 4096).length) (T ++ (X.drop p).take 4096)
          (by omega) (by omega)
      refine ⟨((X.drop p).take 4096) :: cs, ?_, ?_, ?_, ?_, ?_, ?_⟩
      · simp only [List.flatten_cons, hjoin]
        rw [← List.drop_drop]
        exact take_append_drop_take_length 4096 (X.drop p)
      · intro c hc
        rcases List.mem_cons.mp hc with rfl | hc
        · rw [hLlen]; omega
        · exact hsize c hc
      · intro c hc
        cases cs with
        | nil => simp at hc
        | cons c1 cs1 =>
          rw [List.dropLast_cons₂] at hc
          rcases List.mem_cons.mp hc with rfl | hc
          · have h1 := (hsize c1 (List.mem_cons_self _ _)).1
            have h2 : 0 < (List.flatten (c1 :: cs1)).length := by
              simp only [List.flatten_cons, List.length_append]; omega
            rw [hjoin] at h2
            simp only [List.length_drop] at h2
            rw [hLlen] at h2 ⊢
            omega
          · exact hfull c hc
      · rw [hashLoop_step md5 _ n { data := X, pos := p } hlt, hrun]; rfl
      · simp only [List.map_cons, clientRun, hcl0, hcl]
        rfl
      · rw [List.map_cons, ← List.singleton_append, serverRun_append, hsv0]
        simp only [hsv]
        rw [List.append_assoc, ← List.drop_drop]
        rw [take_append_drop_take_length 4096 (X.drop p)]

/-- C3: when the server's copy and the client's copy of `P` are both `X`,
the client's reply stream to the hash stream is one `ReuseData` message
without data per chunk of `X` (the non-empty consecutive chunks of 4096
bytes, the last one possibly shorter) followed by one `End`; no `NewData` is
sent, and the temp file built by the server holds `X` when `End` is
handled. -/
theorem unchanged_not_retransmitted [Runtime] (md5 : Bytes → Digest) (fuel : Nat) (fsS fsC : Dir)
    (stS : state) (stC : FileSyncState) (tmp P : String) (S : Int) (X : Bytes)
    (hP : P ≠ "") (hidle : stS.fileName = "") (htmp : tmp ≠ P)
    (hS : fsS P = some X) (hC : fsC P = some X)
    (hnew : stC.name ≠ P ∨ stC.seqNo ≠ S) (hfuel : X.length < fuel) :
    ∃ (chunks : List Bytes) (stC1 : FileSyncState),
      chunks.flatten = X ∧
      (∀ c ∈ chunks, 0 < c.length ∧ c.length ≤ 4096) ∧
      (∀ c ∈ chunks.dropLast, c.length = 4096) ∧
      serverHashSender md5 fuel fsS { name := P, seqNo := S } =
        .ok (chunks.map (hashMsg md5 { name := P, seqNo := S }) ++
             [lastMsg { name := P, seqNo := S }]) ∧
      clientRun md5 fuel fsC stC
          (chunks.map (hashMsg md5 { name := P, seqNo := S }) ++
           [lastMsg { name := P, seqNo := S }]) =
        .ok (stC1, chunks.map (fun c => reuseMsg S P (c.length : Int)) ++ [endMsg S P]) ∧
      (∃ w, serverRun tmp fsS stS (chunks.map (fun c => reuseMsg S P (c.length : Int))) =
          .ok w ∧
        (enterReception tmp w.1 w.2 (endMsg S P)).1 tmp = some X) ∧
      serverRun tmp fsS stS
          (chunks.map (fun c => reuseMsg S P (c.length : Int)) ++ [endMsg S P]) =
        .ok (if stS.latestFileSeq P = some S
              then Function.update (Function.update fsS tmp none) P (some X)
              else Function.update fsS tmp none,
             { stS with fileName := "", inputFile := none, tempFile := none }) := by
  obtain ⟨chunks, hjoin, hsize, hfull, hrun, hcl, hsv⟩ :=
    same_run md5 fuel fsC fsS stS tmp tmp P S X hP fuel 0 [] (by omega) (Nat.zero_le _)
  rw [List.drop_zero] at hjoin
  rw [List.nil_append, List.drop_zero] at hsv
  have hopen : osOpen fsS P = some { data := X, pos := 0 } := by simp [osOpen, hS]
  obtain ⟨rest, stC1, hrest, hrsize, h1, _, h3, h4⟩ :=
    job_finish md5 fuel fsC fsS stS stC tmp P S X
      (chunks.map (hashMsg md5 { name := P, seqNo := S }))
      (chunks.map (fun c => reuseMsg S P (c.length : Int))) X.length
      (some { data := X, pos := X.length }) hP hidle htmp hC hnew hfuel
      (by
        intro m hm
        obtain ⟨c, _, rfl⟩ := List.mem_map.mp hm
        exact ⟨rfl, rfl⟩)
      hcl (by rw [hopen, List.take_length]; exact hsv)
      (by
        intro m hm
        obtain ⟨c, _, rfl⟩ := List.mem_map.mp hm
        exact ⟨rfl, rfl, Or.inr rfl⟩)
  have hnil : rest = [] := by
    cases rest with
    | nil => rfl
    | cons c cs =>
      have hc := (hrsize c (List.mem_cons_self _ _)).1
      have hl := congrArg List.length hrest
      simp only [List.flatten_cons, List.length_append, List.length_drop] at hl
      omega
  subst hnil
  simp only [List.map_nil, List.append_nil] at h1 h3 h4
  refine ⟨chunks, stC1, hjoin, hsize, hfull, ?_, h1, h3, h4⟩
  simp only [serverHashSender, hopen, hrun]

theorem unchanged_not_retransmitted_witness :
    ∃ (chunks : List Bytes) (stC1 : FileSyncState),
      chunks.flatten = [1, 2, 3] ∧
      (∀ c ∈ chunks, 0 < c.length ∧ c.length ≤ 4096) ∧
      (∀ c ∈ chunks.dropLast, c.length = 4096) ∧
      serverHashSender padDigest 5 dirA { name := "a", seqNo := 1 } =
        .ok (chunks.map (hashMsg padDigest { name := "a", seqNo := 1 }) ++
             [lastMsg { name := "a", seqNo := 1 }]) ∧
      clientRun padDigest 5 dirA FileSyncState.init
          (chunks.map (hashMsg padDigest { name := "a", seqNo := 1 }) ++
           [lastMsg { name := "a", seqNo := 1 }]) =
        .ok (stC1, chunks.map (fun c => reuseMsg 1 "a" (c.length : Int)) ++ [endMsg 1 "a"]) ∧
      (∃ w, serverRun ".tmp.1" dirA state.init
            (chunks.map (fun c => reuseMsg 1 "a" (c.length : Int))) = .ok w ∧
        (enterReception ".tmp.1" w.1 w.2 (endMsg 1 "a")).1 ".tmp.1" = some [1, 2, 3]) ∧
      serverRun ".tmp.1" dirA state.init
          (chunks.map (fun c => reuseMsg 1 "a" (c.length : Int)) ++ [endMsg 1 "a"]) =
        .ok (if state.init.latestFileSeq "a" = some 1
              then Function.update (Function.update dirA ".tmp.1" none) "a" (some [1, 2, 3])
              else Function.update dirA ".tmp.1" none,
             { state.init with fileName := "", inputFile := none, tempFile := none }) :=
  unchanged_not_retransmitted padDigest 5 dirA dirA state.init FileSyncState.init ".tmp.1" "a" 1
    [1, 2, 3] (by decide) rfl (by decide) rfl rfl (by decide) (by decide)

theorem bootstrap_drain_witness :
    serverHashSender padDigest 5 dirEmpty { name := "a", seqNo := 1 } =
      .ok [{ File := "a", SeqNo := 1, Length := 0, Last := true, Hash := Digest.zero }] ∧
    ∃ (chunks : List Bytes) (stC1 : FileSyncState),
      clientRun padDigest 5 dirA FileSyncState.init
          [{ File := "a", SeqNo := 1, Length := 0, Last := true, Hash := Digest.zero }] =
        .ok (stC1, chunks.map (newDataMsg 1 "a") ++ [endMsg 1 "a"]) ∧
      chunks.flatten = [1, 2, 3] ∧
      (∀ c ∈ chunks, 0 < c.length ∧ c.length ≤ 4096) ∧
      (∃ w, serverRun ".tmp.1" dirEmpty state.init (chunks.map (newDataMsg 1 "a")) = .ok w ∧
          (enterReception ".tmp.1" w.1 w.2 (endMsg 1 "a")).1 ".tmp.1" = some [1, 2, 3]) ∧
      serverRun ".tmp.1" dirEmpty state.init (chunks.map (newDataMsg 1 "a") ++ [endMsg 1 "a"]) =
        .ok (if state.init.latestFileSeq "a" = some 1
              then Function.update (Function.update dirEmpty ".tmp.1" none) "a"
                (some [1, 2, 3])
              else Function.update dirEmpty ".tmp.1" none,
             { state.init with fileName := "", inputFile := none, tempFile := none }) :=
  bootstrap_drain padDigest 5 dirEmpty dirA state.init FileSyncState.init ".tmp.1" "a" 1
    [1, 2, 3] (by decide) rfl (by decide) rfl rfl (by decide) (by decide)

theorem job_end_to_end_witness :
    ∃ (hs : List ServerMsg) (body : List ClientMsg) (stC1 : FileSyncState),
      serverHashSender padDigest 5 dirA { name := "a", seqNo := 1 } = .ok hs ∧
      clientRun padDigest 5 dirC FileSyncState.init hs = .ok (stC1, body ++ [endMsg 1 "a"]) ∧
      (∀ m ∈ body, m.File = "a" ∧ m.SeqNo = 1 ∧
        (m.Op = FileNewData ∨ m.Op = FileReuseData)) ∧
      (∃ w, serverRun ".tmp.1" dirA state.init body = .ok w ∧
        (enterReception ".tmp.1" w.1 w.2 (endMsg 1 "a")).1 ".tmp.1" = some [1, 2, 4]) ∧
      serverRun ".tmp.1" dirA state.init (body ++ [endMsg 1 "a"]) =
        .ok (if state.init.latestFileSeq "a" = some 1
              then Function.update (Function.update dirA ".tmp.1" none) "a" (some [1, 2, 4])
              else Function.update dirA ".tmp.1" none,
             { state.init with fileName := "", inputFile := none, tempFile := none }) :=
  job_end_to_end padDigest 5 dirA dirC state.init FileSyncState.init ".tmp.1" "a" 1 [1, 2, 4]
    (by decide) rfl (by decide) rfl (by decide) (by decide)
    (by
      intro O hO
      have : O = [1, 2, 3] := by
        have h : dirA "a" = some [1, 2, 3] := rfl
        rw [h] at hO
        exact (Option.some.inj hO).symm
      subst this
      decide)
    (by
      intro O hO i
      have : O = [1, 2, 3] := by
        have h : dirA "a" = some [1, 2, 3] := rfl
        rw [h] at hO
        exact (Option.some.inj hO).symm
      subst this
      cases i with
      | zero =>
        intro _ h
        exact absurd h (by decide)
      | succ k => exact NoCollisionAt_of_le padDigest _ _ _ (by simp only [List.length]; omega))

/-! ### Reused chunks -/

theorem hashLoop_cons_inv (md5 : Bytes → Digest) (sync : fileToSync) (hf : Nat) (O : Bytes)
    (q : Nat) (m : ServerMsg) (rest : List ServerMsg)
    (h : hashLoop md5 sync hf { data := O, pos := q } = .ok (m :: rest)) :
    q < O.length ∧ m = hashMsg md5 sync ((O.drop q).take 4096) := by
  cases hf with
  | zero => simp [hashLoop] at h
  | succ n =>
    by_cases hq : O.length ≤ q
    · rw [hashLoop_eof md5 sync n { data := O, pos := q } hq] at h
      simp at h
    · have hlt : q < O.length := not_le.mp hq
      rw [hashLoop_step md5 sync n { data := O, pos := q } hlt] at h
      split at h
      · simp only [Except.ok.injEq, List.cons.injEq] at h
        exact ⟨hlt, h.1.symm⟩
      · cases h

theorem serving_pos_inj {P : String} {S : Int} {C : Bytes} {a b : Nat}
    (h : serving P S C a = serving P S C b) : a = b := by
  have := congrArg FileSyncState.file h
  simpa [serving] using this

theorem clientRun_real [Runtime] (md5 : Bytes → Digest) (fuel : Nat) (fs : Dir) (st : FileSyncState)
    (P : String) (S : Int) (C : Bytes) (pre : List ServerMsg) (cq : Nat)
    (outs : List ClientMsg) (hnew : st.name ≠ P ∨ st.seqNo ≠ S) (hC : fs P = some C)
    (hpre : ∀ m ∈ pre, m.File = P ∧ m.SeqNo = S)
    (h : clientRun md5 fuel fs (serving P S C 0) pre = .ok (serving P S C cq, outs)) :
    ∃ st1, clientRun md5 fuel fs st pre = .ok (st1, outs) ∧
      ∀ m : ServerMsg, m.File = P → m.SeqNo = S →
        enterProcessing fs st1 m = serving P S C cq := by
  cases pre with
  | nil =>
    simp only [clientRun, Except.ok.injEq, Prod.mk.injEq] at h
    have hq : cq = 0 := (serving_pos_inj h.1).symm
    subst hq
    refine ⟨st, by rw [← h.2]; rfl, ?_⟩
    intro m hf hs
    exact enterProcessing_fresh fs st P S C m hf hs hnew hC
  | cons a pre1 =>
    have ha := hpre a (List.mem_cons_self _ _)
    refine ⟨serving P S C cq, ?_, ?_⟩
    · rw [clientRun_fresh md5 fuel fs st P S C a pre1 ha.1 ha.2 hnew hC]
      exact h
    · intro m hf hs
      exact enterProcessing_serving fs P S C cq m hf hs

/-- C4: in a job on unchanging files (the server holds `O` under `P`, the
client holds `C`), whenever the client answers a message of the hash stream
with a `ReuseData` of length `L`, the client's cursor and the cursor of the
server's input file are at the same offset `q`, both sides have `L` bytes at
that offset, the `L` bytes the server reads from its input file and appends to
the temp file have the same MD5 as the `L` bytes the client read from `C`. -/
theorem reuse_correctness [Runtime] (md5 : Bytes → Digest) (fuel : Nat) (fsS fsC : Dir) (stS : state)
    (stC : FileSyncState) (tmp P : String) (S : Int) (O C : Bytes)
    (hP : P ≠ "") (hidle : stS.fileName = "") (hO : fsS P = some O) (hC : fsC P = some C)
    (hnew : stC.name ≠ P ∨ stC.seqNo ≠ S) (hfuelO : O.length < fuel)
    (hfuelC : C.length < fuel) :
    ∃ hs : List ServerMsg,
      serverHashSender md5 fuel fsS { name := P, seqNo := S } = .ok hs ∧
      ∀ (pre : List ServerMsg) (m : ServerMsg) (post : List ServerMsg),
        hs = pre ++ m :: post →
        ∃ (stC1 : FileSyncState) (outs1 : List ClientMsg) (w1 : Dir × state)
          (stC2 : FileSyncState) (outsm : List ClientMsg),
          clientRun md5 fuel fsC stC pre = .ok (stC1, outs1) ∧
          serverRun tmp fsS stS outs1 = .ok w1 ∧
          processServerMsg md5 fuel fsC stC1 m = .ok (stC2, outsm) ∧
          ∀ r ∈ outsm, r.Op = FileReuseData →
            ∃ (q : Nat) (T : Bytes),
              (enterProcessing fsC stC1 m).file = some { data := C, pos := q } ∧
              (enterReception tmp w1.1 w1.2 r).2.inputFile = some { data := O, pos := q } ∧
              (enterReception tmp w1.1 w1.2 r).1 tmp = some T ∧
              0 < r.Length ∧
              ((C.drop q).take r.Length.toNat).length = r.Length.toNat ∧
              ((O.drop q).take r.Length.toNat).length = r.Length.toNat ∧
              md5 ((O.drop q).take r.Length.toNat) = md5 ((C.drop q).take r.Length.toNat) ∧
              ∃ w2, processUpdateMsg tmp w1.1 w1.2 r = .ok w2 ∧
                w2.1 tmp = some (T ++ (O.drop q).take r.Length.toNat) ∧
                w2.2.inputFile = some { data := O, pos := q + r.Length.toNat } := by
  have hopen : osOpen fsS P = some { data := O, pos := 0 } := by simp [osOpen, hO]
  obtain ⟨hs, hrun, hpref⟩ :=
    joint_prefix md5 fuel fsC fsS stS tmp tmp P S O C hP fuel 0 0 0 []
      (by omega) (by simp) (fun _ => rfl)
  have hhs := hashLoop_mem md5 { name := P, seqNo := S } fuel { data := O, pos := 0 } hs
    (by simp only []; omega) hrun
  refine ⟨hs ++ [lastMsg { name := P, seqNo := S }], ?_, ?_⟩
  · simp only [serverHashSender, hopen, hrun]
  · intro pre m post hsplit
    -- the messages before `m` are hash messages of chunks
    have hcase : (∃ rest, hs = pre ++ m :: rest) ∨
        (pre = hs ∧ m = lastMsg { name := P, seqNo := S }) := by
      rcases List.append_eq_append_iff.mp hsplit with ⟨a, ha, hb⟩ | ⟨c, hc, hd⟩
      · cases a with
        | nil =>
          rw [List.nil_append] at hb
          exact Or.inr ⟨by rw [ha, List.append_nil], (List.cons.inj hb).1.symm⟩
        | cons x xs =>
          rw [List.cons_append] at hb
          have := (List.cons.inj hb).2
          exact absurd this.symm (by simp)
      · cases c with
        | nil =>
          rw [List.nil_append] at hd
          exact Or.inr ⟨by rw [hc, List.append_nil], ((List.cons.inj hd).1).symm ▸ rfl⟩
        | cons x xs =>
          rw [List.cons_append] at hd
          have h1 := (List.cons.inj hd).1
          subst h1
          exact Or.inl ⟨xs, hc⟩
    rcases hcase with ⟨rest, hrest⟩ | ⟨hpre, hm⟩
    · obtain ⟨q, cq, sq, hf1, Tq, outs, hcl, hsv, hcq, hsq, hpost, _, hmem, _⟩ :=
        hpref pre (m :: rest) hrest
      obtain ⟨hq, hmq⟩ := hashLoop_cons_inv md5 _ hf1 O q m rest hpost
      have hpre_mem : ∀ x ∈ pre, x.File = P ∧ x.SeqNo = S := by
        intro x hx
        have := hhs x (by rw [hrest]; exact List.mem_append_left _ hx)
        exact ⟨this.1, this.2.1⟩
      obtain ⟨stC1, hcl1, henterC⟩ :=
        clientRun_real md5 fuel fsC stC P S C pre cq outs hnew hC hpre_mem hcl
      obtain ⟨⟨w1, hw1, henterS⟩, _⟩ := serverRun_job tmp fsS stS P outs Tq
        (some { data := O, pos := sq }) hP hidle (fun x hx => (hmem x hx).1)
        (by rw [hopen]; exact hsv)
      obtain ⟨outsm, sp1, T1, hstep, hsrv, _, hmemm, _, hreuse⟩ :=
        joint_step md5 fuel fsC fsS stS tmp tmp P S O C hP q cq sq Tq hq hcq hsq
      have hmf : m.File = P := by rw [hmq]; rfl
      have hms : m.SeqNo = S := by rw [hmq]; rfl
      refine ⟨stC1, outs, w1,
        serving P S C (min (q + ((O.drop q).take 4096).length) C.length), outsm, hcl1, hw1,
        ?_, ?_⟩
      · rw [processServerMsg_enter, henterC m hmf hms, hmq]
        exact hstep
      · intro r hr hop
        obtain ⟨hsingle, hsc, hlen, hcl_len, hol_len, hmd5, hT1, hsp1⟩ := hreuse r hr hop
        have hrf : r.File = P := (hmemm r hr).1
        subst hsc
        refine ⟨sq, Tq, ?_, ?_, ?_, ?_, hcl_len, hol_len, hmd5, ?_⟩
        · rw [henterC m hmf hms]; rfl
        · rw [henterS r hrf]; rfl
        · rw [henterS r hrf]; simp
        · have hLlen : ((O.drop q).take 4096).length = min 4096 (O.length - q) := by
            simp [List.length_take, List.length_drop]
          rw [hlen, hLlen]; omega
        · rw [hsingle] at hsrv
          simp only [serverRun] at hsrv
          have hpu : processUpdateMsg tmp w1.1 w1.2 r =
              processUpdateMsg tmp (Function.update fsS tmp (some Tq))
                (inReceive stS P (some { data := O, pos := sq }) tmp) r := by
            unfold processUpdateMsg
            rw [henterS r hrf, enterReception_inReceive tmp tmp _ stS P _ r hP]
          rw [hpu]
          cases hres : processUpdateMsg tmp (Function.update fsS tmp (some Tq))
              (inReceive stS P (some { data := O, pos := sq }) tmp) r with
          | error e => rw [hres] at hsrv; cases hsrv
          | ok w2 =>
            rw [hres] at hsrv
            simp only [Except.ok.injEq] at hsrv
            refine ⟨w2, rfl, ?_, ?_⟩
            · have := congrArg Prod.fst hsrv
              simp only at this
              rw [this, hT1]; simp
            · have := congrArg Prod.snd hsrv
              simp only at this
              rw [this, hsp1]; rfl
    · subst hpre hm
      obtain ⟨q, cq, sq, hf1, Tq, outs, hcl, hsv, _, _, _, _, hmem, _⟩ :=
        hpref pre [] (by simp)
      obtain ⟨stC1, hcl1, henterC⟩ :=
        clientRun_real md5 fuel fsC stC P S C pre cq outs hnew hC
          (fun x hx => ⟨(hhs x hx).1, (hhs x hx).2.1⟩) hcl
      obtain ⟨⟨w1, hw1, _⟩, _⟩ := serverRun_job tmp fsS stS P outs Tq
        (some { data := O, pos := sq }) hP hidle (fun x hx => (hmem x hx).1)
        (by rw [hopen]; exact hsv)
      obtain ⟨chunks, p1, hfin, _, _⟩ :=
        finishFileProcessing_drain P S C (lastMsg { name := P, seqNo := S }) fuel cq
          (by omega)
      refine ⟨stC1, outs, w1, serving P S C p1,
        chunks.map (newDataMsg S P) ++ [endMsg S P], hcl1, hw1, ?_, ?_⟩
      · rw [processServerMsg_enter, henterC _ rfl rfl, processServerMsg_last, hfin]
        rfl
      · intro r hr hop
        rcases List.mem_append.mp hr with h | h
        · obtain ⟨c, _, rfl⟩ := List.mem_map.mp h
          simp [newDataMsg] at hop
        · rw [List.mem_singleton] at h
          subst h
          simp [endMsg] at hop

theorem reuse_correctness_witness :
    ∃ hs : List ServerMsg,
      serverHashSender padDigest 5 dirA { name := "a", seqNo := 1 } = .ok hs ∧
      ∀ (pre : List ServerMsg) (m : ServerMsg) (post : List ServerMsg),
        hs = pre ++ m :: post →
        ∃ (stC1 : FileSyncState) (outs1 : List ClientMsg) (w1 : Dir × state)
          (stC2 : FileSyncState) (outsm : List ClientMsg),
          clientRun padDigest 5 dirA FileSyncState.init pre = .ok (stC1, outs1) ∧
          serverRun ".tmp.1" dirA state.init outs1 = .ok w1 ∧
          processServerMsg padDigest 5 dirA stC1 m = .ok (stC2, outsm) ∧
          ∀ r ∈ outsm, r.Op = FileReuseData →
            ∃ (q : Nat) (T : Bytes),
              (enterProcessing dirA stC1 m).file = some { data := [1, 2, 3], pos := q } ∧
              (enterReception ".tmp.1" w1.1 w1.2 r).2.inputFile =
                some { data := [1, 2, 3], pos := q } ∧
              (enterReception ".tmp.1" w1.1 w1.2 r).1 ".tmp.1" = some T ∧
              0 < r.Length ∧
              ((([1, 2, 3] : Bytes).drop q).take r.Length.toNat).length = r.Length.toNat ∧
              ((([1, 2, 3] : Bytes).drop q).take r.Length.toNat).length = r.Length.toNat ∧
              padDigest ((([1, 2, 3] : Bytes).drop q).take r.Length.toNat) =
                padDigest ((([1, 2, 3] : Bytes).drop q).take r.Length.toNat) ∧
              ∃ w2, processUpdateMsg ".tmp.1" w1.1 w1.2 r = .ok w2 ∧
                w2.1 ".tmp.1" = some (T ++ (([1, 2, 3] : Bytes).drop q).take r.Length.toNat) ∧
                w2.2.inputFile = some { data := [1, 2, 3], pos := q + r.Length.toNat } :=
  reuse_correctness padDigest 5 dirA dirA state.init FileSyncState.init ".tmp.1" "a" 1
    [1, 2, 3] [1, 2, 3] (by decide) rfl rfl rfl (by decide) (by decide) (by decide)

/-! ### Supersession -/

theorem handleOp_data [Runtime] (fs : Dir) (st0 : state) (P t : String) (inp : Option File) (T : Bytes)
    (m : ClientMsg)
    (hm : m.Op = FileNewData ∨
      (m.Op = FileReuseData ∧ 0 ≤ m.Length ∧ m.Length ≤ (Runtime.maxAlloc : Int))) :
    ∃ (inp1 : Option File) (T1 : Bytes),
      handleOp (Function.update fs t (some T)) (inReceive st0 P inp t) m =
        .ok (Function.update fs t (some T1), inReceive st0 P inp1 t) := by
  rcases hm with hop | ⟨hop, hL, hA⟩
  · exact ⟨_, _, handleOp_newData fs st0 P t inp T m hop⟩
  · cases inp with
    | none => exact ⟨none, T, by simp [handleOp, hop, inReceive]⟩
    | some f =>
      by_cases heof : (f.Read m.Length.toNat).2.2 = true
      · exact ⟨some (f.Read m.Length.toNat).1, T, by
          simp [handleOp, hop, inReceive, not_lt.mpr hL, not_lt.mpr hA, heof]⟩
      · exact ⟨some (f.Read m.Length.toNat).1, T ++ (f.Read m.Length.toNat).2.1, by
          simp [handleOp, hop, inReceive, not_lt.mpr hL, not_lt.mpr hA, heof, osWrite_update]⟩

theorem serverRun_data [Runtime] (tmp t : String) (fs : Dir) (st0 : state) (P : String) (hP : P ≠ "") :
    ∀ (ms : List ClientMsg) (inp : Option File) (T : Bytes),
      (∀ m ∈ ms, m.Op = FileNewData ∨
        (m.Op = FileReuseData ∧ 0 ≤ m.Length ∧ m.Length ≤ (Runtime.maxAlloc : Int))) →
      ∃ (inp1 : Option File) (T1 : Bytes),
        serverRun tmp (Function.update fs t (some T)) (inReceive st0 P inp t) ms =
          .ok (Function.update fs t (some T1), inReceive st0 P inp1 t) := by
  intro ms
  induction ms with
  | nil => intro inp T _; exact ⟨inp, T, rfl⟩
  | cons m ms ih =>
    intro inp T h
    obtain ⟨inp1, T1, h1⟩ := handleOp_data fs st0 P t inp T m (h m (List.mem_cons_self _ _))
    obtain ⟨inp2, T2, h2⟩ := ih inp1 T1 (fun x hx => h x (List.mem_cons_of_mem _ hx))
    refine ⟨inp2, T2, ?_⟩
    simp only [serverRun]
    rw [processUpdateMsg_inReceive tmp t _ st0 P inp m hP, h1]
    exact h2

theorem serverLoop_data [Runtime] (tmp : String) (fs : Dir) (st : state) (m : ClientMsg)
    (hm : m.Op = FileNewData ∨ m.Op = FileReuseData ∨ m.Op = FileEnd) :
    serverLoop tmp fs st m =
      match processUpdateMsg tmp fs st m with
      | .ok r => .ok (r.1, r.2, [])
      | .error e => .error e := by
  have h1 : m.Op ≠ FileUpdated := by rcases hm with h | h | h <;> rw [h] <;> decide
  have h2 : m.Op ≠ FileRemoved := by rcases hm with h | h | h <;> rw [h] <;> decide
  simp only [serverLoop, if_neg h1, if_neg h2, if_pos hm]

theorem serverLoopRun_data [Runtime] (tmp : String) :
    ∀ (ms : List ClientMsg) (fs : Dir) (st : state),
      (∀ m ∈ ms, m.Op = FileNewData ∨ m.Op = FileReuseData ∨ m.Op = FileEnd) →
      serverLoopRun fs st (ms.map (fun m => (tmp, m))) =
        match serverRun tmp fs st ms with
        | .ok r => .ok (r.1, r.2, [])
        | .error e => .error e := by
  intro ms
  induction ms with
  | nil => intro fs st _; rfl
  | cons m ms ih =>
    intro fs st h
    simp only [List.map_cons, serverLoopRun, serverRun]
    rw [serverLoop_data tmp fs st m (h m (List.mem_cons_self _ _))]
    cases processUpdateMsg tmp fs st m with
    | error e => rfl
    | ok r =>
      simp only []
      rw [ih r.1 r.2 (fun x hx => h x (List.mem_cons_of_mem _ hx))]
      cases serverRun tmp r.1 r.2 ms with
      | error e => rfl
      | ok r1 => rfl

/-- The reply stream of a job on `P` (data messages, then `End` with sequence
number `S`) handled by `serverLoop` from an idle state: the temp file built
from the data messages replaces `dir/P` when `S` is the latest sequence number
of `P`, and is removed with the directory as it was otherwise. -/
theorem serverLoopRun_stream [Runtime] (fs : Dir) (st : state) (P t : String) (S : Int)
    (r : List ClientMsg) (hP : P ≠ "") (hidle : st.fileName = "") (ht : t ≠ P)
    (hfresh : fs t = none)
    (hr : ∀ m ∈ r, m.File = P ∧ (m.Op = FileNewData ∨
      (m.Op = FileReuseData ∧ 0 ≤ m.Length ∧ m.Length ≤ (Runtime.maxAlloc : Int)))) :
    ∃ T : Bytes,
      (∃ w, serverRun t fs st r = .ok w ∧
        (enterReception t w.1 w.2 (endMsg S P)).1 t = some T) ∧
      serverLoopRun fs st ((r ++ [endMsg S P]).map (fun m => (t, m))) =
        .ok (if st.latestFileSeq P = some S then Function.update fs P (some T) else fs,
             { st with fileName := "", inputFile := none, tempFile := none }, []) := by
  obtain ⟨inp1, T1, hrun⟩ := serverRun_data t t fs st P hP r (osOpen fs P) []
    (fun m hm => (hr m hm).2)
  obtain ⟨⟨w, hw, henter⟩, hend⟩ := serverRun_job t fs st P r T1 inp1 hP hidle
    (fun m hm => (hr m hm).1) hrun
  refine ⟨T1, ⟨w, hw, by rw [henter _ rfl]; simp⟩, ?_⟩
  rw [serverLoopRun_data t (r ++ [endMsg S P]) fs st]
  · rw [hend (endMsg S P) rfl rfl ht, update_none_of_none fs t hfresh]
    rfl
  · intro m hm
    rcases List.mem_append.mp hm with h | h
    · rcases (hr m h).2 with h1 | h1
      · exact Or.inl h1
      · exact Or.inr (Or.inl h1.1)
    · rw [List.mem_singleton] at h
      subst h
      exact Or.inr (Or.inr rfl)

theorem serverLoopRun_append [Runtime] :
    ∀ (a b : List (String × ClientMsg)) (fs : Dir) (st : state),
      serverLoopRun fs st (a ++ b) =
        match serverLoopRun fs st a with
        | .ok r =>
          match serverLoopRun r.1 r.2.1 b with
          | .ok r1 => .ok (r1.1, r1.2.1, r.2.2 ++ r1.2.2)
          | .error e => .error e
        | .error e => .error e := by
  intro a
  induction a with
  | nil =>
    intro b fs st
    simp only [List.nil_append, serverLoopRun]
    cases serverLoopRun fs st b <;> rfl
  | cons m ms ih =>
    intro b fs st
    rw [List.cons_append]
    simp only [serverLoopRun]
    cases serverLoop m.1 fs st m.2 with
    | error e => rfl
    | ok r =>
      simp only []
      rw [ih b r.1 r.2.1]
      cases serverLoopRun r.1 r.2.1 ms with
      | error e => rfl
      | ok r1 =>
        simp only []
        cases serverLoopRun r1.1 r1.2.1 b with
        | error e => rfl
        | ok r2 => simp [List.append_assoc]

theorem serverLoop_nextSeq_le [Runtime] (tmp : String) (fs : Dir) (st : state) (msg : ClientMsg)
    (r : Dir × state × List fileToSync) (h : serverLoop tmp fs st msg = .ok r) :
    st.nextSeq ≤ r.2.1.nextSeq := by
  by_cases h1 : msg.Op = FileUpdated
  · rw [serverLoop_updated tmp fs st msg h1] at h
    cases h
    simp
  · by_cases h2 : msg.Op = FileRemoved
    · rw [serverLoop_removed_ok tmp fs st msg r h2 h]
    · by_cases h3 : msg.Op = FileNewData ∨ msg.Op = FileReuseData ∨ msg.Op = FileEnd
      · simp only [serverLoop, if_neg h1, if_neg h2, if_pos h3] at h
        split at h
        · rename_i r1 hr1
          cases h
          have := processUpdateMsg_seq tmp fs st msg r1 hr1
          dsimp only
          rw [this.1]
        · cases h
      · simp only [serverLoop, if_neg h1, if_neg h2, if_neg h3] at h
        cases h
        exact le_refl _

theorem serverLoopRun_nextSeq_le [Runtime] :
    ∀ (msgs : List (String × ClientMsg)) (fs : Dir) (st : state)
      (r : Dir × state × List fileToSync), serverLoopRun fs st msgs = .ok r →
      st.nextSeq ≤ r.2.1.nextSeq := by
  intro msgs
  induction msgs with
  | nil =>
    intro fs st r h
    simp only [serverLoopRun] at h
    cases h
    exact le_refl _
  | cons m ms ih =>
    intro fs st r h
    simp only [serverLoopRun] at h
    split at h
    · rename_i r1 hr1
      split at h
      · rename_i r2 hr2
        cases h
        exact le_trans (serverLoop_nextSeq_le m.1 fs st m.2 r1 hr1) (ih r1.1 r1.2.1 r2 hr2)
      · cases h
    · cases h

/-- Two announcements of `P` with any messages in between: the first is
issued `nextSeq + 1`, the second a larger number, which is then the latest
for `P`. -/
theorem serverLoopRun_updated_twice [Runtime] (fs : Dir) (st : state) (P t0 t0b : String)
    (mid : List (String × ClientMsg)) (fsU : Dir) (stU : state) (jobs : List fileToSync)
    (hrun : serverLoopRun fs st ((t0, updatedMsg P) :: (mid ++ [(t0b, updatedMsg P)])) =
      .ok (fsU, stU, jobs)) :
    st.nextSeq + 1 < stU.nextSeq ∧ stU.latestFileSeq P = some stU.nextSeq ∧
    ∃ jobsMid : List fileToSync,
      jobs = { name := P, seqNo := st.nextSeq + 1 } ::
        (jobsMid ++ [{ name := P, seqNo := stU.nextSeq }]) := by
  simp only [serverLoopRun] at hrun
  rw [serverLoop_updated t0 fs st (updatedMsg P) rfl] at hrun
  simp only [] at hrun
  rw [serverLoopRun_append] at hrun
  split at hrun
  · rename_i rA hA
    split at hA
    · rename_i rM hM
      have hmono := serverLoopRun_nextSeq_le mid _ _ rM hM
      simp only [serverLoopRun] at hA
      rw [serverLoop_updated t0b rM.1 rM.2.1 (updatedMsg P) rfl] at hA
      simp only [Except.ok.injEq] at hA
      subst hA
      simp only [Except.ok.injEq, Prod.mk.injEq] at hrun
      obtain ⟨_, hst, hjobs⟩ := hrun
      subst hst
      simp only [] at hmono ⊢
      refine ⟨by omega, by simp [updatedMsg], rM.2.2, ?_⟩
      rw [← hjobs]
      simp [updatedMsg]
    · cases hA
  · cases hrun

theorem handleOp_end_discard [Runtime] (fs : Dir) (st : state) (msg : ClientMsg) (path : String)
    (T : Bytes) (htmp : st.tempFile = some path) (hT : fs path = some T)
    (hop : msg.Op = FileEnd) (hl : st.latestFileSeq st.fileName ≠ some msg.SeqNo) :
    handleOp fs st msg =
      .ok (Function.update fs path none,
           { st with fileName := "", inputFile := none, tempFile := none }) := by
  simp [handleOp, hop, htmp, hl, osRemove_of_some hT]

/-- What is left of a reply stream (data messages, then `End` with sequence
number `S`) handled by `serverLoop` while the receive is in progress, `S` not
being the latest sequence number of the file received: the temp file is
removed and nothing else changes in the directory. -/
theorem serverLoopRun_stream_recv [Runtime] (fs : Dir) (st : state) (P t tn : String) (S : Int)
    (T : Bytes) (r : List ClientMsg) (hF : st.fileName ≠ "") (htmp : st.tempFile = some t)
    (hT : fs t = some T) (hl : st.latestFileSeq st.fileName ≠ some S)
    (hr : ∀ m ∈ r, m.Op = FileNewData ∨
      (m.Op = FileReuseData ∧ 0 ≤ m.Length ∧ m.Length ≤ (Runtime.maxAlloc : Int))) :
    serverLoopRun fs st ((r ++ [endMsg S P]).map (fun m => (tn, m))) =
      .ok (Function.update fs t none,
           { st with fileName := "", inputFile := none, tempFile := none }, []) := by
  obtain ⟨n, l, F, inp, tf⟩ := st
  simp only at htmp hF hl
  subst htmp
  have hfs : Function.update fs t (some T) = fs := by
    rw [← hT]; exact Function.update_eq_self t fs
  obtain ⟨inp1, T1, h1⟩ := serverRun_data tn t fs (state.mk n l F inp (some t)) F hF r inp T hr
  rw [hfs] at h1
  have h1b : serverRun tn fs (state.mk n l F inp (some t)) r =
      .ok (Function.update fs t (some T1), inReceive (state.mk n l F inp (some t)) F inp1 t) := h1
  have h2 : processUpdateMsg tn (Function.update fs t (some T1))
      (inReceive (state.mk n l F inp (some t)) F inp1 t) (endMsg S P) =
      .ok (Function.update fs t none, state.mk n l "" none none) := by
    rw [processUpdateMsg_inReceive tn t _ (state.mk n l F inp (some t)) F inp1 (endMsg S P) hF,
      handleOp_end_discard _ _ (endMsg S P) t T1 rfl (by simp) rfl hl]
    simp [inReceive]
  rw [serverLoopRun_data tn (r ++ [endMsg S P]) fs _]
  · rw [serverRun_append, h1b]
    simp only [serverRun, h2]
  · intro m hm
    rcases List.mem_append.mp hm with h | h
    · rcases hr m h with h3 | h3
      · exact Or.inl h3
      · exact Or.inr (Or.inl h3.1)
    · rw [List.mem_singleton] at h
      subst h
      exact Or.inr (Or.inr rfl)

theorem serverLoop_latest_ne [Runtime] (tmp : String) (fs : Dir) (st : state) (msg : ClientMsg)
    (r : Dir × state × List fileToSync) (S : Int) (P : String)
    (h : serverLoop tmp fs st msg = .ok r) (hS : S ≤ st.nextSeq)
    (hne : ∀ Q, Q ≠ P → st.latestFileSeq Q ≠ some S) :
    S ≤ r.2.1.nextSeq ∧ ∀ Q, Q ≠ P → r.2.1.latestFileSeq Q ≠ some S := by
  by_cases h1 : msg.Op = FileUpdated
  · rw [serverLoop_updated tmp fs st msg h1] at h
    cases h
    refine ⟨by simp only []; omega, ?_⟩
    intro Q hQ
    simp only [Function.update_apply]
    split_ifs
    · intro hv
      have := Option.some.inj hv
      omega
    · exact hne Q hQ
  · by_cases h2 : msg.Op = FileRemoved
    · rw [serverLoop_removed_ok tmp fs st msg r h2 h]
      refine ⟨hS, ?_⟩
      intro Q hQ
      simp only [Function.update_apply]
      split_ifs
      · simp
      · exact hne Q hQ
    · by_cases h3 : msg.Op = FileNewData ∨ msg.Op = FileReuseData ∨ msg.Op = FileEnd
      · simp only [serverLoop, if_neg h1, if_neg h2, if_pos h3] at h
        split at h
        · rename_i r1 hr1
          cases h
          have := processUpdateMsg_seq tmp fs st msg r1 hr1
          dsimp only
          rw [this.1, this.2]
          exact ⟨hS, hne⟩
        · cases h
      · simp only [serverLoop, if_neg h1, if_neg h2, if_neg h3] at h
        cases h
        exact ⟨hS, hne⟩

theorem serverLoopRun_latest_ne [Runtime] (S : Int) (P : String) :
    ∀ (msgs : List (String × ClientMsg)) (fs : Dir) (st : state)
      (r : Dir × state × List fileToSync), serverLoopRun fs st msgs = .ok r →
      S ≤ st.nextSeq → (∀ Q, Q ≠ P → st.latestFileSeq Q ≠ some S) →
      S ≤ r.2.1.nextSeq ∧ ∀ Q, Q ≠ P → r.2.1.latestFileSeq Q ≠ some S := by
  intro msgs
  induction msgs with
  | nil =>
    intro fs st r h hS hne
    simp only [serverLoopRun] at h
    cases h
    exact ⟨hS, hne⟩
  | cons m ms ih =>
    intro fs st r h hS hne
    simp only [serverLoopRun] at h
    split at h
    · rename_i r1 hr1
      split at h
      · rename_i r2 hr2
        cases h
        have h1 := serverLoop_latest_ne m.1 fs st m.2 r1 S P hr1 hS hne
        exact ih r1.1 r1.2.1 r2 hr2 h1.1 h1.2
      · cases h
    · cases h

/-- After an announcement of `P`, issued `nextSeq + 1`, and any further
messages, no file other than `P` has that number as its latest one, in a state
whose stored numbers are at most `nextSeq`. -/
theorem serverLoopRun_first_number [Runtime] (fs : Dir) (st : state) (P t0 : String)
    (rest : List (String × ClientMsg)) (fsU : Dir) (stU : state) (jobs : List fileToSync)
    (hrun : serverLoopRun fs st ((t0, updatedMsg P) :: rest) = .ok (fsU, stU, jobs))
    (hinv : ∀ Q v, st.latestFileSeq Q = some v → v ≤ st.nextSeq) :
    ∀ Q, Q ≠ P → stU.latestFileSeq Q ≠ some (st.nextSeq + 1) := by
  simp only [serverLoopRun] at hrun
  rw [serverLoop_updated t0 fs st (updatedMsg P) rfl] at hrun
  simp only [] at hrun
  split at hrun
  · rename_i rA hA
    simp only [Except.ok.injEq, Prod.mk.injEq] at hrun
    obtain ⟨_, hst, _⟩ := hrun
    subst hst
    refine (serverLoopRun_latest_ne (st.nextSeq + 1) P rest _ _ rA hA (le_refl _) ?_).2
    intro Q hQ hv
    simp only [updatedMsg, Function.update_apply, if_neg hQ] at hv
    have := hinv Q _ hv
    omega
  · cases hrun

/-- C10: `Updated(P)` is handled twice, issuing `S1` and then `S2`, with any
messages in between, among them possibly the first messages of the reply
stream of job `S1`; then what is left of the reply stream of job `S1` and the
reply stream of job `S2` are handled to their `End`, in order.  When the
second `Updated(P)` has been handled the server is idle, or it has a receive
in progress, with its temp file `t` in the directory.  The `End` of job `S1`
removes the temp file that stream was written to and changes nothing else in
the directory (so not `dir/P`); the `End` of job `S2` renames its temp file
onto `dir/P`, whose content is then the content `T2` built from the reply
stream of the later job.  The state the run starts from is any state whose
stored sequence numbers are at most `nextSeq`, as in every state `serverLoop`
reaches. -/
theorem supersession [Runtime] (fs : Dir) (st : state) (P t0 t0b tn t2 : String)
    (mid : List (String × ClientMsg)) (r1 r2 : List ClientMsg)
    (fsU : Dir) (stU : state) (jobs : List fileToSync)
    (hrun : serverLoopRun fs st ((t0, updatedMsg P) :: (mid ++ [(t0b, updatedMsg P)])) =
      .ok (fsU, stU, jobs))
    (hP : P ≠ "")
    (hinv : ∀ Q v, st.latestFileSeq Q = some v → v ≤ st.nextSeq)
    (hrecv : (stU.fileName = "" ∧ fsU tn = none ∧ tn ≠ P) ∨
      (stU.fileName ≠ "" ∧ ∃ t T, stU.tempFile = some t ∧ fsU t = some T ∧ t ≠ P))
    (ht2 : t2 ≠ P) (hf2 : fsU t2 = none)
    (hr1 : ∀ m ∈ r1, m.File = P ∧ (m.Op = FileNewData ∨
      (m.Op = FileReuseData ∧ 0 ≤ m.Length ∧ m.Length ≤ (Runtime.maxAlloc : Int))))
    (hr2 : ∀ m ∈ r2, m.File = P ∧ (m.Op = FileNewData ∨
      (m.Op = FileReuseData ∧ 0 ≤ m.Length ∧ m.Length ≤ (Runtime.maxAlloc : Int)))) :
    ∃ (S1 S2 : Int) (jobsMid : List fileToSync) (tE : String) (fsE : Dir) (stE : state)
        (T2 : Bytes),
      S1 = st.nextSeq + 1 ∧ S2 = stU.nextSeq ∧ S1 < S2 ∧
      jobs = { name := P, seqNo := S1 } :: (jobsMid ++ [{ name := P, seqNo := S2 }]) ∧
      stE = { stU with fileName := "", inputFile := none, tempFile := none } ∧
      (stU.tempFile = some tE ∨ (stU.fileName = "" ∧ tE = tn)) ∧
      fsE = Function.update fsU tE none ∧ fsE tE = none ∧ fsE P = fsU P ∧
      serverLoopRun fsU stU ((r1 ++ [endMsg S1 P]).map (fun m => (tn, m))) =
        .ok (fsE, stE, []) ∧
      (∃ w, serverRun t2 fsE stE r2 = .ok w ∧
        (enterReception t2 w.1 w.2 (endMsg S2 P)).1 t2 = some T2) ∧
      serverLoopRun fsE stE ((r2 ++ [endMsg S2 P]).map (fun m => (t2, m))) =
        .ok (Function.update fsE P (some T2), stE, []) ∧
      Function.update fsE P (some T2) P = some T2 ∧
      serverLoopRun fs st
          (((t0, updatedMsg P) :: (mid ++ [(t0b, updatedMsg P)])) ++
            ((r1 ++ [endMsg S1 P]).map (fun m => (tn, m)) ++
             (r2 ++ [endMsg S2 P]).map (fun m => (t2, m)))) =
        .ok (Function.update fsE P (some T2), stE, jobs) := by
  obtain ⟨hlt, hlat, jobsMid, hjobs⟩ :=
    serverLoopRun_updated_twice fs st P t0 t0b mid fsU stU jobs hrun
  have hother := serverLoopRun_first_number fs st P t0 (mid ++ [(t0b, updatedMsg P)]) fsU stU
    jobs hrun hinv
  have hne : ∀ F, stU.latestFileSeq F ≠ some (st.nextSeq + 1) := by
    intro F
    by_cases hF : F = P
    · rw [hF, hlat]
      intro h
      have := Option.some.inj h
      omega
    · exact hother F hF
  have hfirst : ∃ tE : String, tE ≠ P ∧ (stU.tempFile = some tE ∨ (stU.fileName = "" ∧ tE = tn)) ∧
      serverLoopRun fsU stU ((r1 ++ [endMsg (st.nextSeq + 1) P]).map (fun m => (tn, m))) =
        .ok (Function.update fsU tE none,
             { stU with fileName := "", inputFile := none, tempFile := none }, []) := by
    rcases hrecv with ⟨hidle, hf1, ht1⟩ | ⟨hbusy, t, T, htmp, hT, htP⟩
    · obtain ⟨T1, _, hrun1⟩ := serverLoopRun_stream fsU stU P tn (st.nextSeq + 1) r1 hP hidle
        ht1 hf1 hr1
      rw [if_neg (hne P)] at hrun1
      refine ⟨tn, ht1, Or.inr ⟨hidle, rfl⟩, ?_⟩
      rw [update_none_of_none fsU tn hf1]
      exact hrun1
    · exact ⟨t, htP, Or.inl htmp,
        serverLoopRun_stream_recv fsU stU P t tn (st.nextSeq + 1) T r1 hbusy htmp hT (hne _)
          (fun m hm => (hr1 m hm).2)⟩
  obtain ⟨tE, htE, hwhich, hrun1⟩ := hfirst
  generalize hstE : state.mk stU.nextSeq stU.latestFileSeq "" none none = stE at hrun1
  have hlatE : stE.latestFileSeq P = some stU.nextSeq := by
    rw [← hstE]; exact hlat
  have hidleE : stE.fileName = "" := by rw [← hstE]
  have hf2E : Function.update fsU tE none t2 = none := by
    simp only [Function.update_apply]
    split_ifs
    · rfl
    · exact hf2
  obtain ⟨T2, hw2, hrun2⟩ := serverLoopRun_stream (Function.update fsU tE none) stE P t2
    stU.nextSeq r2 hP hidleE ht2 hf2E hr2
  rw [if_pos hlatE] at hrun2
  have hEE : state.mk stE.nextSeq stE.latestFileSeq "" none none = stE := by
    rw [← hstE]
  rw [hEE] at hrun2
  refine ⟨st.nextSeq + 1, stU.nextSeq, jobsMid, tE, Function.update fsU tE none, stE, T2, rfl,
    rfl, hlt, hjobs, rfl, hwhich, rfl, by simp, Function.update_noteq (Ne.symm htE) _ _,
    hrun1, hw2, hrun2, by simp, ?_⟩
  rw [serverLoopRun_append, hrun]
  simp only []
  rw [serverLoopRun_append, hrun1]
  simp only []
  rw [hrun2]
  simp

theorem supersession_witness :
    ∃ (S1 S2 : Int) (jobsMid : List fileToSync) (tE : String) (fsE : Dir) (stE : state)
        (T2 : Bytes),
      S1 = state.init.nextSeq + 1 ∧ S2 = stSuperseded.nextSeq ∧ S1 < S2 ∧
      ([{ name := "a", seqNo := 1 }, { name := "a", seqNo := 2 }] : List fileToSync) =
        { name := "a", seqNo := S1 } :: (jobsMid ++ [{ name := "a", seqNo := S2 }]) ∧
      stE = { stSuperseded with fileName := "", inputFile := none, tempFile := none } ∧
      (stSuperseded.tempFile = some tE ∨ (stSuperseded.fileName = "" ∧ tE = ".tmp.9")) ∧
      fsE = Function.update dirARecv tE none ∧ fsE tE = none ∧ fsE "a" = dirARecv "a" ∧
      serverLoopRun dirARecv stSuperseded
          (([newDataMsg 1 "a" [6]] ++ [endMsg S1 "a"]).map (fun m => (".tmp.9", m))) =
        .ok (fsE, stE, []) ∧
      (∃ w, serverRun ".tmp.2" fsE stE [newDataMsg 2 "a" [6, 7]] = .ok w ∧
        (enterReception ".tmp.2" w.1 w.2 (endMsg S2 "a")).1 ".tmp.2" = some T2) ∧
      serverLoopRun fsE stE
          (([newDataMsg 2 "a" [6, 7]] ++ [endMsg S2 "a"]).map (fun m => (".tmp.2", m))) =
        .ok (Function.update fsE "a" (some T2), stE, []) ∧
      Function.update fsE "a" (some T2) "a" = some T2 ∧
      serverLoopRun dirA state.init
          (((".tmp.0", updatedMsg "a") ::
              ([(".tmp.1", newDataMsg 1 "a" [5])] ++ [(".tmp.8", updatedMsg "a")])) ++
            (([newDataMsg 1 "a" [6]] ++ [endMsg S1 "a"]).map (fun m => (".tmp.9", m)) ++
             ([newDataMsg 2 "a" [6, 7]] ++ [endMsg S2 "a"]).map (fun m => (".tmp.2", m)))) =
        .ok (Function.update fsE "a" (some T2), stE,
             [{ name := "a", seqNo := 1 }, { name := "a", seqNo := 2 }]) :=
  supersession dirA state.init "a" ".tmp.0" ".tmp.8" ".tmp.9" ".tmp.2"
    [(".tmp.1", newDataMsg 1 "a" [5])]
    [newDataMsg 1 "a" [6]] [newDataMsg 2 "a" [6, 7]] dirARecv stSuperseded
    [{ name := "a", seqNo := 1 }, { name := "a", seqNo := 2 }]
    rfl (by decide) (by simp [state.init])
    (Or.inr ⟨by decide, ".tmp.1", [5], rfl, rfl, by decide⟩)
    (by decide) rfl (by simp [newDataMsg]) (by simp [newDataMsg])

/-! ### Removal -/

theorem serverLoop_removed [Runtime] (tmp : String) (fs : Dir) (st : state) (msg : ClientMsg)
    (hop : msg.Op = FileRemoved)
    (hrm : fs msg.File = none → plainName msg.File = true ∨
      Runtime.removeFails fs msg.File = false) :
    serverLoop tmp fs st msg =
      .ok (Function.update fs msg.File none,
           { st with latestFileSeq := Function.update st.latestFileSeq msg.File none }, []) := by
  rw [serverLoop_removed_eq tmp fs st msg hop, if_neg]
  rintro ⟨h1, h2, h3⟩
  rcases hrm h1 with h | h
  · rw [h2] at h; cases h
  · rw [h3] at h; cases h

/-- C11: handling `Removed(P)` in `serverLoop`, in a directory whose files
have names of entries.  When `dir/P` is absent (there is no such file, and the
error of `os.Remove` is "does not exist": `P` is the name of an entry, or the
environment reports no other error) the handling returns and the directory is
unchanged; for the name of an entry the handling returns whether the file is
there or not; whenever the handling returns, neither `dir/P` nor
`latestFileSeq[P]` exists afterwards and nothing else has changed; and
handling `Removed(P)` twice in a row is the same as handling it once. -/
theorem serverLoop_removed_idempotent [Runtime] (tmp tmp2 : String) (fs : Dir) (st : state)
    (msg : ClientMsg) (hop : msg.Op = FileRemoved)
    (hdir : ∀ X, fs msg.File = some X → plainName msg.File = true) :
    (fs msg.File = none →
      (plainName msg.File = true ∨ Runtime.removeFails fs msg.File = false) →
      serverLoop tmp fs st msg =
        .ok (fs, { st with latestFileSeq := Function.update st.latestFileSeq msg.File none },
             [])) ∧
    (plainName msg.File = true →
      serverLoop tmp fs st msg =
        .ok (Function.update fs msg.File none,
             { st with latestFileSeq := Function.update st.latestFileSeq msg.File none },
             [])) ∧
    (∀ (fs1 : Dir) (st1 : state) (jobs : List fileToSync),
      serverLoop tmp fs st msg = .ok (fs1, st1, jobs) →
        fs1 msg.File = none ∧ st1.latestFileSeq msg.File = none ∧
        (∀ Q, Q ≠ msg.File → fs1 Q = fs Q) ∧
        (∀ Q, Q ≠ msg.File → st1.latestFileSeq Q = st.latestFileSeq Q) ∧
        st1.nextSeq = st.nextSeq ∧ st1.fileName = st.fileName ∧
        st1.inputFile = st.inputFile ∧ st1.tempFile = st.tempFile ∧ jobs = [] ∧
        serverLoop tmp2 fs1 st1 msg = .ok (fs1, st1, [])) ∧
    serverLoopRun fs st [(tmp, msg), (tmp2, msg)] = serverLoopRun fs st [(tmp, msg)] := by
  have hsecond : ∀ (fs1 : Dir) (st1 : state) (jobs : List fileToSync),
      serverLoop tmp fs st msg = .ok (fs1, st1, jobs) →
        serverLoop tmp2 fs1 st1 msg = .ok (fs1, st1, []) := by
    intro fs1 st1 jobs h
    have hr := serverLoop_removed_ok tmp fs st msg _ hop h
    cases hr
    have hrm : Function.update fs msg.File none msg.File = none →
        plainName msg.File = true ∨
          Runtime.removeFails (Function.update fs msg.File none) msg.File = false := by
      intro _
      cases hf : fs msg.File with
      | some X => exact Or.inl (hdir X hf)
      | none =>
        rw [update_none_of_none fs msg.File hf]
        rw [serverLoop_removed_eq tmp fs st msg hop] at h
        split at h
        · cases h
        · rename_i hn
          by_cases hp : plainName msg.File = true
          · exact Or.inl hp
          · right
            cases hrf : Runtime.removeFails fs msg.File with
            | false => rfl
            | true =>
              exact absurd ⟨hf, by simpa using hp, hrf⟩ hn
    rw [serverLoop_removed tmp2 _ _ msg hop hrm]
    simp only [Function.update_idem]
  refine ⟨?_, ?_, ?_, ?_⟩
  · intro habs hrm
    rw [serverLoop_removed tmp fs st msg hop (fun _ => hrm), update_none_of_none fs msg.File habs]
  · intro hp
    exact serverLoop_removed tmp fs st msg hop (fun _ => Or.inl hp)
  · intro fs1 st1 jobs h
    have h2 := hsecond fs1 st1 jobs h
    have hr := serverLoop_removed_ok tmp fs st msg _ hop h
    cases hr
    refine ⟨by simp, by simp, ?_, ?_, rfl, rfl, rfl, rfl, rfl, h2⟩
    · intro Q hQ
      exact Function.update_noteq hQ _ _
    · intro Q hQ
      exact Function.update_noteq hQ _ _
  · cases h : serverLoop tmp fs st msg with
    | error e => simp only [serverLoopRun, h]
    | ok r =>
      obtain ⟨fs1, st1, jobs⟩ := r
      have h2 := hsecond fs1 st1 jobs h
      have hr := serverLoop_removed_ok tmp fs st msg _ hop h
      simp only [serverLoopRun, h, h2]
      cases hr
      rfl

theorem serverLoop_removed_idempotent_witness :
    (∀ X, dirA (removedMsg "a").File = some X → plainName (removedMsg "a").File = true) ∧
    serverLoop ".tmp.1" dirA stRecvA (removedMsg "a") =
      .ok (Function.update dirA "a" none,
           { stRecvA with latestFileSeq := Function.update stRecvA.latestFileSeq "a" none },
           []) ∧
    serverLoopRun dirA stRecvA [(".tmp.1", removedMsg "a"), (".tmp.2", removedMsg "a")] =
      serverLoopRun dirA stRecvA [(".tmp.1", removedMsg "a")] ∧
    serverLoop ".tmp.1" dirEmpty stRecvA (removedMsg "a") =
      .ok (dirEmpty,
           { stRecvA with latestFileSeq := Function.update stRecvA.latestFileSeq "a" none },
           []) :=
  ⟨fun _ _ => by decide,
   (serverLoop_removed_idempotent ".tmp.1" ".tmp.2" dirA stRecvA (removedMsg "a") rfl
      (fun _ _ => by decide)).2.1 (by decide),
   (serverLoop_removed_idempotent ".tmp.1" ".tmp.2" dirA stRecvA (removedMsg "a") rfl
      (fun _ _ => by decide)).2.2.2,
   (serverLoop_removed_idempotent ".tmp.1" ".tmp.2" dirEmpty stRecvA (removedMsg "a") rfl
      (fun _ _ => by decide)).1 rfl (Or.inl (by decide))⟩

/-! ### `ReuseData` on the server -/

theorem osWrite_of_some (fs : Dir) (path : String) (T d : Bytes) (h : fs path = some T) :
    osWrite fs path d = Function.update fs path (some (T ++ d)) := by
  simp [osWrite, h]

/-- C13 (as amended): during a receive, a `ReuseData` with length `L`.  When
there is an input file and `L` is negative or more than `make` can allocate,
the server is terminated.  When there is an input file and `L` is neither, the
server reads the `min L (bytes left)` bytes at the cursor of its input file,
appends exactly those bytes to the temp file and advances the cursor by their
number (so by `L` when at least `L` bytes are left).  When there is no input
file nothing is written and directory and state are unchanged, whatever `L`
is.  An `L` above `2^48` is more than `make` can allocate in every
environment. -/
theorem processUpdateMsg_reuse [Runtime] (tmp : String) (fs : Dir) (st : state) (msg : ClientMsg)
    (path : String) (T : Bytes)
    (hname : st.fileName ≠ "") (htmp : st.tempFile = some path) (hT : fs path = some T)
    (hop : msg.Op = FileReuseData) :
    (∀ f : File, st.inputFile = some f →
      ((msg.Length < 0 ∨ (Runtime.maxAlloc : Int) < msg.Length) →
        processUpdateMsg tmp fs st msg = .error .fatal) ∧
      (0 ≤ msg.Length → msg.Length ≤ (Runtime.maxAlloc : Int) →
        processUpdateMsg tmp fs st msg =
          .ok (Function.update fs path
                 (some (T ++ (f.data.drop f.pos).take msg.Length.toNat)),
               { st with inputFile := some { f with pos := f.pos +
                    ((f.data.drop f.pos).take msg.Length.toNat).length } }) ∧
        ((f.data.drop f.pos).take msg.Length.toNat).length =
          min msg.Length.toNat (f.data.length - f.pos) ∧
        (msg.Length.toNat ≤ f.data.length - f.pos →
          ((f.data.drop f.pos).take msg.Length.toNat).length = msg.Length.toNat)) ∧
      (2 ^ 48 < msg.Length → processUpdateMsg tmp fs st msg = .error .fatal)) ∧
    (st.inputFile = none → processUpdateMsg tmp fs st msg = .ok (fs, st)) := by
  constructor
  · intro f hf
    have hfatal : (msg.Length < 0 ∨ (Runtime.maxAlloc : Int) < msg.Length) →
        processUpdateMsg tmp fs st msg = .error .fatal := by
      intro hbad
      unfold processUpdateMsg
      rw [enterReception_of_ne hname]
      simp only [handleOp, if_pos hop, hf, if_pos hbad]
    refine ⟨hfatal, ?_, fun h => hfatal (Or.inr (maxAlloc_lt_of_limit msg.Length h))⟩
    · intro hL hA
      have hlen : ((f.data.drop f.pos).take msg.Length.toNat).length =
          min msg.Length.toNat (f.data.length - f.pos) := by
        simp [List.length_take, List.length_drop]
      refine ⟨?_, hlen, ?_⟩
      · unfold processUpdateMsg
        rw [enterReception_of_ne hname]
        have hgood : ¬ (msg.Length < 0 ∨ (Runtime.maxAlloc : Int) < msg.Length) := by omega
        simp only [handleOp, if_pos hop, hf, if_neg hgood, htmp, File.Read_bytes,
          File.Read_handle, File.Read_eof]
        by_cases hk : msg.Length.toNat = 0
        · simp [hk, osWrite_of_some fs path T _ hT]
        · by_cases hp : f.data.length ≤ f.pos
          · simp [hk, hp, List.drop_eq_nil_of_le hp, hT]
          · simp [hk, hp, osWrite_of_some fs path T _ hT]
      · intro h
        rw [hlen]
        exact Nat.min_eq_left h
  · intro hf
    unfold processUpdateMsg
    rw [enterReception_of_ne hname]
    simp [handleOp, hop, hf]

theorem processUpdateMsg_reuse_witness :
    processUpdateMsg ".tmp.2" dirATmp stRecvOneLeft msgReuseTwo =
      .ok (Function.update dirATmp ".tmp.1"
             (some ([9, 9] ++ (([1, 2, 3] : Bytes).drop 2).take msgReuseTwo.Length.toNat)),
           { stRecvOneLeft with inputFile := some { data := [1, 2, 3], pos := 2 +
                ((([1, 2, 3] : Bytes).drop 2).take msgReuseTwo.Length.toNat).length } }) ∧
    ((([1, 2, 3] : Bytes).drop 2).take msgReuseTwo.Length.toNat).length =
      min msgReuseTwo.Length.toNat (([1, 2, 3] : Bytes).length - 2) ∧
    (msgReuseTwo.Length.toNat ≤ ([1, 2, 3] : Bytes).length - 2 →
      ((([1, 2, 3] : Bytes).drop 2).take msgReuseTwo.Length.toNat).length =
        msgReuseTwo.Length.toNat) :=
  ((processUpdateMsg_reuse ".tmp.2" dirATmp stRecvOneLeft msgReuseTwo ".tmp.1" [9, 9]
    (by decide) rfl rfl rfl).1 { data := [1, 2, 3], pos := 2 } rfl).2.1 (by decide) (by decide)

/-- C13, counterexample: the input file has one byte left and a `ReuseData`
of length 2 is handled; one byte is appended to the temp file and the cursor
advances by one.  And a `ReuseData` whose length is negative, or more than
`make` can allocate, ends the server: nothing is read or appended. -/
theorem processUpdateMsg_reuse_short :
    (∃ w, processUpdateMsg ".tmp.2" dirATmp stRecvOneLeft msgReuseTwo = .ok w ∧
      w.1 ".tmp.1" = some [9, 9, 3] ∧
      w.2.inputFile = some { data := [1, 2, 3], pos := 3 } ∧
      w.2.inputFile ≠ some { data := [1, 2, 3], pos := 2 + 2 } ∧
      stRecvOneLeft.inputFile = some { data := [1, 2, 3], pos := 2 } ∧
      dirATmp ".tmp.1" = some [9, 9] ∧
      msgReuseTwo.Length = 2) ∧
    processUpdateMsg ".tmp.2" dirATmp stRecvOneLeft { msgReuseTwo with Length := -1 } =
      .error .fatal ∧
    processUpdateMsg ".tmp.2" dirATmp stRecvOneLeft { msgReuseTwo with Length := 2 ^ 62 } =
      .error .fatal :=
  ⟨⟨(Function.update dirATmp ".tmp.1" (some [9, 9, 3]),
     { stRecvOneLeft with inputFile := some { data := [1, 2, 3], pos := 3 } }),
    by rfl, by simp, rfl, by decide, rfl, rfl, rfl⟩,
   by rfl, by rfl⟩

/-! ### Announcements and the receive in progress -/

theorem handleOp_frame_seq [Runtime] (fs : Dir) (st : state) (msg : ClientMsg) (n : Int)
    (l : String → Option Int) (hop : msg.Op ≠ FileEnd) :
    handleOp fs { st with nextSeq := n, latestFileSeq := l } msg =
      match handleOp fs st msg with
      | .ok r => .ok (r.1, { r.2 with nextSeq := n, latestFileSeq := l })
      | .error e => .error e := by
  rcases st with ⟨ns, lf, fn, inp, tf⟩
  simp only [handleOp, if_neg hop]
  by_cases h1 : msg.Op = FileReuseData
  · cases inp with
    | none => simp [h1]
    | some f =>
      by_cases hL : msg.Length < 0 ∨ (Runtime.maxAlloc : Int) < msg.Length
      · simp only [h1, if_true, if_pos hL]
      · by_cases he : (f.Read msg.Length.toNat).2.2 = true
        · simp only [h1, if_true, if_neg hL, he]
        · cases tf <;> simp only [h1, if_true, if_neg hL, he] <;> rfl
  · by_cases h2 : msg.Op = FileNewData
    · cases inp <;> cases tf <;> simp [h1, h2]
    · simp [h1, h2]

theorem osWrite_update_comm (fs : Dir) (path Q : String) (d : Bytes) (h : path ≠ Q) :
    osWrite (Function.update fs Q none) path d = Function.update (osWrite fs path d) Q none := by
  unfold osWrite
  rw [Function.update_noteq h]
  cases fs path with
  | none => rfl
  | some c => exact (Function.update_comm h _ _ _).symm

theorem handleOp_frame_dir [Runtime] (fs : Dir) (st : state) (msg : ClientMsg) (Q : String)
    (hop : msg.Op ≠ FileEnd) (hQ : ∀ path, st.tempFile = some path → path ≠ Q) :
    handleOp (Function.update fs Q none) st msg =
      match handleOp fs st msg with
      | .ok r => .ok (Function.update r.1 Q none, r.2)
      | .error e => .error e := by
  rcases st with ⟨ns, lf, fn, inp, tf⟩
  simp only [handleOp, if_neg hop]
  by_cases h1 : msg.Op = FileReuseData
  · cases inp with
    | none => simp [h1]
    | some f =>
      by_cases hL : msg.Length < 0 ∨ (Runtime.maxAlloc : Int) < msg.Length
      · simp only [h1, if_true, if_pos hL]
      · by_cases he : (f.Read msg.Length.toNat).2.2 = true
        · simp only [h1, if_true, if_neg hL, he]
        · cases tf with
          | none => simp only [h1, if_true, if_neg hL, he]; rfl
          | some path =>
            simp only [h1, if_true, if_neg hL, he]
            simp [osWrite_update_comm fs path Q _ (hQ path rfl)]
  · by_cases h2 : msg.Op = FileNewData
    · cases tf with
      | none => cases inp <;> simp [h1, h2]
      | some path =>
        cases inp <;> simp [h1, h2, osWrite_update_comm fs path Q _ (hQ path rfl)]
    · simp [h1, h2]

theorem serverLoop_data_inReceive [Runtime] (tmp : String) (fs : Dir) (st : state) (d : ClientMsg)
    (hname : st.fileName ≠ "") (hd : d.Op = FileNewData ∨ d.Op = FileReuseData) :
    serverLoop tmp fs st d =
      match handleOp fs st d with
      | .ok r => .ok (r.1, r.2, [])
      | .error e => .error e := by
  rw [serverLoop_data tmp fs st d (by rcases hd with h | h <;> simp [h])]
  unfold processUpdateMsg
  rw [enterReception_of_ne hname]

theorem announce_data_comm [Runtime] (t1 t2 : String) (fs : Dir) (st : state) (a d : ClientMsg)
    (hname : st.fileName ≠ "") (ha : a.Op = FileUpdated ∨ a.Op = FileRemoved)
    (hd : d.Op = FileNewData ∨ d.Op = FileReuseData)
    (hQ : ∀ path, st.tempFile = some path → path ≠ a.File)
    (hpl : a.Op = FileRemoved → plainName a.File = true) :
    serverLoopRun fs st [(t1, a), (t2, d)] = serverLoopRun fs st [(t2, d), (t1, a)] := by
  have hdE : d.Op ≠ FileEnd := by rcases hd with h | h <;> rw [h] <;> decide
  simp only [serverLoopRun]
  rw [serverLoop_data_inReceive t2 fs st d hname hd]
  rcases ha with ha | ha
  · rw [serverLoop_updated t1 fs st a ha]
    simp only []
    rw [serverLoop_data_inReceive t2 fs
        (state.mk (st.nextSeq + 1)
          (Function.update st.latestFileSeq a.File (some (st.nextSeq + 1)))
          st.fileName st.inputFile st.tempFile) d hname hd]
    rw [show state.mk (st.nextSeq + 1)
          (Function.update st.latestFileSeq a.File (some (st.nextSeq + 1)))
          st.fileName st.inputFile st.tempFile =
        { st with nextSeq := st.nextSeq + 1,
                  latestFileSeq :=
                    Function.update st.latestFileSeq a.File (some (st.nextSeq + 1)) }
        from rfl]
    rw [handleOp_frame_seq fs st d _ _ hdE]
    cases hres : handleOp fs st d with
    | error e => rfl
    | ok r =>
      obtain ⟨h1, h2⟩ := handleOp_seq fs st d r hres
      simp only []
      rw [serverLoop_updated t1 r.1 r.2 a ha, h1, h2]
      rfl
  · rw [serverLoop_removed t1 fs st a ha (fun _ => Or.inl (hpl ha))]
    simp only []
    rw [serverLoop_data_inReceive t2 (Function.update fs a.File none)
        (state.mk st.nextSeq (Function.update st.latestFileSeq a.File none)
          st.fileName st.inputFile st.tempFile) d hname hd]
    rw [show state.mk st.nextSeq (Function.update st.latestFileSeq a.File none)
          st.fileName st.inputFile st.tempFile =
        { st with nextSeq := st.nextSeq,
                  latestFileSeq := Function.update st.latestFileSeq a.File none }
        from rfl]
    rw [handleOp_frame_seq _ st d _ _ hdE, handleOp_frame_dir fs st d a.File hdE hQ]
    cases hres : handleOp fs st d with
    | error e => rfl
    | ok r =>
      obtain ⟨h1, h2⟩ := handleOp_seq fs st d r hres
      simp only []
      rw [serverLoop_removed t1 r.1 r.2 a ha (fun _ => Or.inl (hpl ha)), h1, h2]

/-- C15 (as amended): handling `Updated` in `serverLoop` leaves the directory
and `fileName`, the input handle with its cursor and the temp file handle as
they are.  Handling `Removed(P)` ends the server, or returns and leaves
`fileName`, the input handle and the temp file handle as they are and every
file other than `P` as it is, so the content of the temp file unless `P` is
the name of the temp file; it returns when `P` is the name of an entry.
Handling a message in `processUpdateMsg` leaves `nextSeq` and `latestFileSeq`
as they are.  Hence, during a receive, an announcement of the name of an entry
other than the temp file and a `NewData` or `ReuseData` message can be handled
in either order with the same result. -/
theorem frame_separation [Runtime] :
    (∀ (tmp : String) (fs : Dir) (st : state) (msg : ClientMsg), msg.Op = FileUpdated →
      ∃ (st1 : state) (jobs : List fileToSync),
        serverLoop tmp fs st msg = .ok (fs, st1, jobs) ∧
        st1.fileName = st.fileName ∧ st1.inputFile = st.inputFile ∧
        st1.tempFile = st.tempFile) ∧
    (∀ (tmp : String) (fs : Dir) (st : state) (msg : ClientMsg), msg.Op = FileRemoved →
      (serverLoop tmp fs st msg = .error .fatal ∨
        ∃ (fs1 : Dir) (st1 : state),
          serverLoop tmp fs st msg = .ok (fs1, st1, []) ∧
          st1.fileName = st.fileName ∧ st1.inputFile = st.inputFile ∧
          st1.tempFile = st.tempFile ∧
          (∀ path, path ≠ msg.File → fs1 path = fs path) ∧
          (∀ path, st.tempFile = some path → path ≠ msg.File → fs1 path = fs path)) ∧
      (plainName msg.File = true → ∃ (fs1 : Dir) (st1 : state),
        serverLoop tmp fs st msg = .ok (fs1, st1, []))) ∧
    (∀ (tmp : String) (fs : Dir) (st : state) (msg : ClientMsg) (r : Dir × state),
      processUpdateMsg tmp fs st msg = .ok r →
      r.2.nextSeq = st.nextSeq ∧ r.2.latestFileSeq = st.latestFileSeq) ∧
    (∀ (t1 t2 : String) (fs : Dir) (st : state) (a d : ClientMsg),
      st.fileName ≠ "" → (a.Op = FileUpdated ∨ a.Op = FileRemoved) →
      (d.Op = FileNewData ∨ d.Op = FileReuseData) →
      (∀ path, st.tempFile = some path → path ≠ a.File) →
      (a.Op = FileRemoved → plainName a.File = true) →
      serverLoopRun fs st [(t1, a), (t2, d)] = serverLoopRun fs st [(t2, d), (t1, a)]) := by
  refine ⟨?_, ?_, processUpdateMsg_seq, announce_data_comm⟩
  · intro tmp fs st msg hop
    exact ⟨_, _, serverLoop_updated tmp fs st msg hop, rfl, rfl, rfl⟩
  · intro tmp fs st msg hop
    constructor
    · rw [serverLoop_removed_eq tmp fs st msg hop]
      split
      · exact Or.inl rfl
      · refine Or.inr ⟨_, _, rfl, rfl, rfl, rfl, ?_, ?_⟩
        · intro path hp
          exact Function.update_noteq hp _ _
        · intro path _ hp
          exact Function.update_noteq hp _ _
    · intro hp
      exact ⟨_, _, serverLoop_removed tmp fs st msg hop (fun _ => Or.inl hp)⟩

theorem frame_separation_witness :
    (∃ (st1 : state) (jobs : List fileToSync),
      serverLoop ".tmp.2" dirATmp stRecvOneLeft (updatedMsg "a") =
        .ok (dirATmp, st1, jobs) ∧
      st1.fileName = stRecvOneLeft.fileName ∧ st1.inputFile = stRecvOneLeft.inputFile ∧
      st1.tempFile = stRecvOneLeft.tempFile) ∧
    (∃ (fs1 : Dir) (st1 : state),
      serverLoop ".tmp.2" dirATmp stRecvOneLeft (removedMsg "a") = .ok (fs1, st1, [])) ∧
    ((Function.update dirATmp ".tmp.1" (some [9, 9, 3]),
        { stRecvOneLeft with
          inputFile := some { data := [1, 2, 3], pos := 3 } }).2.nextSeq =
        stRecvOneLeft.nextSeq ∧
      (Function.update dirATmp ".tmp.1" (some [9, 9, 3]),
        { stRecvOneLeft with
          inputFile := some { data := [1, 2, 3], pos := 3 } }).2.latestFileSeq =
        stRecvOneLeft.latestFileSeq) ∧
    serverLoopRun dirATmp stRecvOneLeft [(".tmp.2", removedMsg "a"), (".tmp.3", msgReuseTwo)] =
      serverLoopRun dirATmp stRecvOneLeft
        [(".tmp.3", msgReuseTwo), (".tmp.2", removedMsg "a")] :=
  ⟨frame_separation.1 ".tmp.2" dirATmp stRecvOneLeft (updatedMsg "a") rfl,
   (frame_separation.2.1 ".tmp.2" dirATmp stRecvOneLeft (removedMsg "a") rfl).2 (by decide),
   frame_separation.2.2.1 ".tmp.2" dirATmp stRecvOneLeft msgReuseTwo
     (Function.update dirATmp ".tmp.1" (some [9, 9, 3]),
      { stRecvOneLeft with inputFile := some { data := [1, 2, 3], pos := 3 } }) (by rfl),
   frame_separation.2.2.2 ".tmp.2" ".tmp.3" dirATmp stRecvOneLeft (removedMsg "a")
     msgReuseTwo (by decide) (Or.inr rfl) (Or.inr rfl)
     (by
       intro path h
       have hp : path = ".tmp.1" := (Option.some.inj h).symm
       rw [hp]
       decide)
     (fun _ => by decide)⟩

/-- C15, counterexample: during the receive of `a` into the temp file
`.tmp.1`, which holds two bytes, `Removed(.tmp.1)` is handled: the temp file
is unlinked, and the `End` of the job, which without the announcement renames
the temp file onto `a`, ends the server.  And `Removed(.)` ends the server at
once, in an environment in which `os.Remove` fails on the path `.`. -/
theorem frame_separation_temp_removed :
    stRecvOneLeft.tempFile = some ".tmp.1" ∧ dirATmp ".tmp.1" = some [9, 9] ∧
    (∃ (fs1 : Dir) (st1 : state),
      serverLoop ".tmp.2" dirATmp stRecvOneLeft (removedMsg ".tmp.1") = .ok (fs1, st1, []) ∧
      st1.tempFile = some ".tmp.1" ∧ fs1 ".tmp.1" = none) ∧
    serverLoopRun dirATmp stRecvOneLeft
        [(".tmp.2", removedMsg ".tmp.1"), (".tmp.3", endMsg 4 "a")] = .error .fatal ∧
    (∃ (fs2 : Dir) (st2 : state),
      serverLoopRun dirATmp stRecvOneLeft [(".tmp.3", endMsg 4 "a")] = .ok (fs2, st2, []) ∧
      fs2 "a" = some [9, 9]) ∧
    serverLoop ".tmp.2" dirATmp stRecvOneLeft (removedMsg ".") = .error .fatal :=
  ⟨rfl, rfl,
   ⟨Function.update dirATmp ".tmp.1" none,
    { stRecvOneLeft with
      latestFileSeq := Function.update stRecvOneLeft.latestFileSeq ".tmp.1" none },
    by rfl, rfl, by simp⟩,
   by rfl,
   ⟨Function.update (Function.update dirATmp ".tmp.1" none) "a" (some [9, 9]),
    { stRecvOneLeft with fileName := "", inputFile := none, tempFile := none },
    by rfl, by simp⟩,
   by rfl⟩

/-! ### Announcements of the client -/

theorem clientLoop_event (rel : String → String → Option String) (dir : String)
    (event : fsnotify.Event) (P : String) (h : rel dir event.Name = some P) :
    clientLoop rel dir event =
      .ok [{ File := P, Op := if event.Op = fsnotify.Remove then FileRemoved else FileUpdated,
             SeqNo := 0, Length := 0, Data := [] }] := by
  unfold clientLoop
  rw [h]
  by_cases hr : event.Op = fsnotify.Remove
  · simp [hr]
  · simp [hr]

/-- C14, failing input: an event for `d/a` whose operations are `Remove` and
`Write`.  The operations include `Remove`, `watcher` forwards the event
whether or not the file exists, and `clientLoop` announces it with
`Updated`, not with `Removed`. -/
theorem clientLoop_remove_write :
    evRemoveWrite.Op &&& fsnotify.Remove ≠ 0 ∧
    watcher (fun _ => false) evRemoveWrite = [evRemoveWrite] ∧
    clientLoop relUnder "d" evRemoveWrite = .ok [updatedMsg "a"] ∧
    clientLoop relUnder "d" evRemoveWrite ≠ .ok [removedMsg "a"] := by
  refine ⟨by decide, by decide, by rfl, ?_⟩
  have h : clientLoop relUnder "d" evRemoveWrite = .ok [updatedMsg "a"] := by rfl
  rw [h]
  intro hc
  have := Except.ok.inj hc
  exact absurd this (by decide)

/-! ### The order of the client's replies -/

theorem enterProcessing_job (fs : Dir) (st : FileSyncState) (msg : ServerMsg) :
    (enterProcessing fs st msg).seqNo = msg.SeqNo ∧
    (enterProcessing fs st msg).name = msg.File := by
  unfold enterProcessing
  by_cases h : st.name ≠ msg.File ∨ st.seqNo ≠ msg.SeqNo
  · simp [h, startNextFileProcessing]
  · rw [if_neg h]
    simp only [not_or, not_not] at h
    exact ⟨h.2, h.1⟩

theorem processChunk_out [Runtime] (md5 : Bytes → Digest) (st : FileSyncState) (msg : ServerMsg)
    (r : FileSyncState × List ClientMsg) (h : processChunk md5 st msg = .ok r) :
    r.1.seqNo = st.seqNo ∧
    ∀ m ∈ r.2, m.SeqNo = st.seqNo ∧ m.File = msg.File ∧
      (m.Op = FileNewData ∨ m.Op = FileReuseData) := by
  simp only [processChunk] at h
  repeat' split at h
  all_goals first
    | (cases h; done)
    | (cases h
       refine ⟨rfl, ?_⟩
       intro m hm
       first
         | exact absurd hm (List.not_mem_nil _)
         | (rw [List.mem_singleton] at hm
            subst hm
            first
              | exact ⟨rfl, rfl, Or.inl rfl⟩
              | exact ⟨rfl, rfl, Or.inr rfl⟩))

theorem finishFileProcessing_out :
    ∀ (fuel : Nat) (st : FileSyncState) (msg : ServerMsg)
      (r : FileSyncState × List ClientMsg), finishFileProcessing fuel st msg = .ok r →
      ∃ body : List ClientMsg, r.2 = body ++ [endMsg st.seqNo msg.File] ∧
        ∀ m ∈ body, m.SeqNo = st.seqNo ∧ m.File = msg.File ∧ m.Op = FileNewData := by
  intro fuel
  induction fuel with
  | zero =>
    intro st msg r h
    simp [finishFileProcessing] at h
  | succ n ih =>
    intro st msg r h
    simp only [finishFileProcessing] at h
    split at h
    · cases h
    · rename_i f hf
      split at h
      · cases h
        exact ⟨[], rfl, by simp⟩
      · split at h
        · rename_i r1 hr1
          cases h
          obtain ⟨body, hb, hmem⟩ := ih _ msg r1 hr1
          refine ⟨newDataMsg st.seqNo msg.File (f.Read 4096).2.1 :: body, ?_, ?_⟩
          · simp only [hb, List.cons_append]
          · intro m hm
            rcases List.mem_cons.mp hm with rfl | hm
            · exact ⟨rfl, rfl, rfl⟩
            · exact hmem m hm
        · cases h

theorem endSeqs_append (a b : List ClientMsg) : endSeqs (a ++ b) = endSeqs a ++ endSeqs b := by
  simp [endSeqs, List.filter_append]

theorem lastSeqs_cons (m : ServerMsg) (ms : List ServerMsg) :
    lastSeqs (m :: ms) = lastSeqs [m] ++ lastSeqs ms := by
  by_cases h : m.Last = true
  · simp [lastSeqs, List.filter_cons, h]
  · simp [lastSeqs, List.filter_cons, h]

theorem endSeqs_eq_nil (l : List ClientMsg) (h : ∀ m ∈ l, m.Op ≠ FileEnd) : endSeqs l = [] := by
  induction l with
  | nil => rfl
  | cons x xs ih =>
    have hx := h x (List.mem_cons_self _ _)
    have hxs := ih (fun m hm => h m (List.mem_cons_of_mem _ hm))
    simp only [endSeqs, List.filter_cons, decide_eq_true_eq, if_neg hx]
    exact hxs

theorem processServerMsg_out [Runtime] (md5 : Bytes → Digest) (fuel : Nat) (fs : Dir)
    (st : FileSyncState) (msg : ServerMsg) (r : FileSyncState × List ClientMsg)
    (h : processServerMsg md5 fuel fs st msg = .ok r) :
    (∀ m ∈ r.2, m.SeqNo = msg.SeqNo ∧ m.File = msg.File ∧
      (m.Op = FileNewData ∨ m.Op = FileReuseData ∨ m.Op = FileEnd)) ∧
    (endSeqs r.2).Sublist (lastSeqs [msg]) := by
  have hj := (enterProcessing_job fs st msg).1
  simp only [processServerMsg] at h
  split at h
  · split at h
    · rename_i rc hrc
      obtain ⟨hseq, hmem⟩ := processChunk_out md5 _ msg rc hrc
      rw [hj] at hmem hseq
      have hcnil : endSeqs rc.2 = [] := by
        apply endSeqs_eq_nil
        intro m hm
        rcases (hmem m hm).2.2 with h1 | h1 <;> rw [h1] <;> decide
      split at h
      · rename_i hlast
        split at h
        · rename_i rf hrf
          cases h
          obtain ⟨body, hb, hbm⟩ := finishFileProcessing_out fuel rc.1 msg rf hrf
          rw [hseq] at hb hbm
          have hbnil : endSeqs body = [] := by
            apply endSeqs_eq_nil
            intro m hm
            rw [(hbm m hm).2.2]; decide
          constructor
          · intro m hm
            simp only [hb] at hm
            rcases List.mem_append.mp hm with h1 | h1
            · obtain ⟨a, b, c⟩ := hmem m h1
              exact ⟨a, b, by tauto⟩
            · rcases List.mem_append.mp h1 with h2 | h2
              · obtain ⟨a, b, c⟩ := hbm m h2
                exact ⟨a, b, Or.inl c⟩
              · rw [List.mem_singleton] at h2
                subst h2
                exact ⟨rfl, rfl, Or.inr (Or.inr rfl)⟩
          · simp only [hb, endSeqs_append, hcnil, hbnil, List.nil_append]
            simp [endSeqs, lastSeqs, endMsg, hlast]
        · cases h
      · cases h
        constructor
        · intro m hm
          obtain ⟨a, b, c⟩ := hmem m hm
          exact ⟨a, b, by tauto⟩
        · rw [hcnil]
          exact List.nil_sublist _
    · cases h
  · cases h
    exact ⟨by simp, by simp [endSeqs]⟩

theorem pairwise_of_forall_mem {α : Type} {R : α → α → Prop} (l : List α)
    (h : ∀ x ∈ l, ∀ y ∈ l, R x y) : l.Pairwise R := by
  induction l with
  | nil => exact List.Pairwise.nil
  | cons a t ih =>
    rw [List.pairwise_cons]
    exact ⟨fun y hy => h a (List.mem_cons_self _ _) y (List.mem_cons_of_mem _ hy),
      ih (fun x hx y hy => h x (List.mem_cons_of_mem _ hx) y (List.mem_cons_of_mem _ hy))⟩

theorem clientRun_out [Runtime] (md5 : Bytes → Digest) (fuel : Nat) (fs : Dir) :
    ∀ (msgs : List ServerMsg) (st : FileSyncState) (r : FileSyncState × List ClientMsg),
      clientRun md5 fuel fs st msgs = .ok r →
      (∀ o ∈ r.2, ∃ x ∈ msgs, o.SeqNo = x.SeqNo ∧ o.File = x.File) ∧
      (endSeqs r.2).Sublist (lastSeqs msgs) ∧
      (msgs.Pairwise (fun a b => a.SeqNo ≤ b.SeqNo) →
        (r.2.map (fun m => m.SeqNo)).Pairwise (fun a b => a ≤ b)) := by
  intro msgs
  induction msgs with
  | nil =>
    intro st r h
    simp only [clientRun] at h
    cases h
    exact ⟨by simp, by simp [endSeqs], by simp⟩
  | cons m ms ih =>
    intro st r h
    simp only [clientRun] at h
    split at h
    · rename_i r1 hr1
      split at h
      · rename_i r2 hr2
        cases h
        obtain ⟨a1, a2⟩ := processServerMsg_out md5 fuel fs st m r1 hr1
        obtain ⟨b1, b2, b3⟩ := ih r1.1 r2 hr2
        refine ⟨?_, ?_, ?_⟩
        · intro o ho
          rcases List.mem_append.mp ho with h1 | h1
          · exact ⟨m, List.mem_cons_self _ _, (a1 o h1).1, (a1 o h1).2.1⟩
          · obtain ⟨x, hx, hxo⟩ := b1 o h1
            exact ⟨x, List.mem_cons_of_mem _ hx, hxo⟩
        · rw [endSeqs_append, lastSeqs_cons]
          exact List.Sublist.append a2 b2
        · intro hord
          rw [List.pairwise_cons] at hord
          rw [List.map_append, List.pairwise_append]
          refine ⟨?_, b3 hord.2, ?_⟩
          · apply pairwise_of_forall_mem
            intro x hx y hy
            obtain ⟨x1, hx1, rfl⟩ := List.mem_map.mp hx
            obtain ⟨y1, hy1, rfl⟩ := List.mem_map.mp hy
            rw [(a1 x1 hx1).1, (a1 y1 hy1).1]
          · intro x hx y hy
            obtain ⟨x1, hx1, rfl⟩ := List.mem_map.mp hx
            obtain ⟨y1, hy1, rfl⟩ := List.mem_map.mp hy
            obtain ⟨z, hz, hzy⟩ := b1 y1 hy1
            rw [(a1 x1 hx1).1, hzy.1]
            exact hord.1 z hz
      · cases h
    · cases h

theorem lastSeqs_pairwise :
    ∀ msgs : List ServerMsg,
      msgs.Pairwise (fun a b => a.SeqNo ≤ b.SeqNo ∧ (a.Last = true → a.SeqNo < b.SeqNo)) →
      (lastSeqs msgs).Pairwise (fun a b => a < b) := by
  intro msgs
  induction msgs with
  | nil => intro _; exact List.Pairwise.nil
  | cons m ms ih =>
    intro h
    rw [List.pairwise_cons] at h
    rw [lastSeqs_cons]
    by_cases hl : m.Last = true
    · have h1 : lastSeqs [m] = [m.SeqNo] := by simp [lastSeqs, hl]
      rw [h1, List.singleton_append, List.pairwise_cons]
      refine ⟨?_, ih h.2⟩
      intro s hs
      obtain ⟨b, hb, rfl⟩ := List.mem_map.mp hs
      exact (h.1 b (List.mem_filter.mp hb).1).2 hl
    · have h1 : lastSeqs [m] = [] := by simp [lastSeqs, hl]
      rw [h1, List.nil_append]
      exact ih h.2

/-- C12: the hash messages of each job are contiguous, jobs come in increasing
order of `SeqNo` and a message with `Last = true` ends its job.  Every message
the client sends in reply to a `ServerMsg` carries the `SeqNo` and the file of
that message and is a `NewData`, `ReuseData` or `End`; hence in the sequence
of all replies the sequence numbers never decrease (no message of a later job
comes before a message of an earlier one), and the sequence numbers of the
`End` messages are strictly increasing (each `SeqNo` has at most one
`End`). -/
theorem no_cross_job_interleaving [Runtime] (md5 : Bytes → Digest) (fuel : Nat) (fs : Dir)
    (st : FileSyncState) (msgs : List ServerMsg) (r : FileSyncState × List ClientMsg)
    (hrun : clientRun md5 fuel fs st msgs = .ok r)
    (hord : msgs.Pairwise
      (fun a b => a.SeqNo ≤ b.SeqNo ∧ (a.Last = true → a.SeqNo < b.SeqNo))) :
    (∀ (st0 : FileSyncState) (msg : ServerMsg) (r0 : FileSyncState × List ClientMsg),
      processServerMsg md5 fuel fs st0 msg = .ok r0 →
      ∀ o ∈ r0.2, o.SeqNo = msg.SeqNo ∧ o.File = msg.File ∧
        (o.Op = FileNewData ∨ o.Op = FileReuseData ∨ o.Op = FileEnd)) ∧
    (∀ o ∈ r.2, ∃ x ∈ msgs, o.SeqNo = x.SeqNo ∧ o.File = x.File) ∧
    (r.2.map (fun m => m.SeqNo)).Pairwise (fun a b => a ≤ b) ∧
    (endSeqs r.2).Pairwise (fun a b => a < b) ∧
    (endSeqs r.2).Nodup := by
  obtain ⟨b1, b2, b3⟩ := clientRun_out md5 fuel fs msgs st r hrun
  have hends : (endSeqs r.2).Pairwise (fun a b => a < b) :=
    List.Pairwise.sublist b2 (lastSeqs_pairwise msgs hord)
  refine ⟨?_, b1, ?_, hends, ?_⟩
  · intro st0 msg r0 h
    exact (processServerMsg_out md5 fuel fs st0 msg r0 h).1
  · exact b3 (hord.imp (fun h => h.1))
  · exact hends.imp (fun h => ne_of_lt h)

theorem no_cross_job_interleaving_witness :
    (∀ o ∈ [ClientMsg.mk "a" FileNewData 1 2 [1, 2], newDataMsg 1 "a" [3], endMsg 1 "a"],
      ∃ x ∈ [msgTwoBytes, msgLastA], o.SeqNo = x.SeqNo ∧ o.File = x.File) ∧
    (([ClientMsg.mk "a" FileNewData 1 2 [1, 2], newDataMsg 1 "a" [3], endMsg 1 "a"]).map
        (fun m => m.SeqNo)).Pairwise (fun a b => a ≤ b) ∧
    (endSeqs [ClientMsg.mk "a" FileNewData 1 2 [1, 2], newDataMsg 1 "a" [3],
        endMsg 1 "a"]).Pairwise (fun a b => a < b) ∧
    (endSeqs [ClientMsg.mk "a" FileNewData 1 2 [1, 2], newDataMsg 1 "a" [3],
        endMsg 1 "a"]).Nodup :=
  (no_cross_job_interleaving padDigest 5 dirA FileSyncState.init [msgTwoBytes, msgLastA]
    (serving "a" 1 [1, 2, 3] 3,
     [ClientMsg.mk "a" FileNewData 1 2 [1, 2], newDataMsg 1 "a" [3], endMsg 1 "a"])
    (by rfl) (by simp [msgTwoBytes, msgLastA])).2

end Dsync
